import Mathlib

/-!
# gover: semantic-version engine, commit-message matcher, classifier and history

A shallow embedding of `internal/version/version.go`,
`internal/repository/message.go`, `internal/repository/repository.go`,
`internal/config/config.go` and the classifier of `internal/app.go`.

Modelling conventions.

* A Go `string` is a `Str`, a list of characters.  Every regular
  expression and every separator search of the program works on ASCII
  delimiters only, so reading the string rune by rune or byte by byte gives
  the same decomposition; indices below count list positions.
* A Go `int` is an `Int` kept inside the 64-bit two's-complement range by
  `wrapInt`, which is applied at every `++` and `-`.
* `regexp` and `strconv` are library code: `semverRegexp`,
  `templateParamsRgx`, `templateParamNameRgx` are the deterministic matchers
  of the three patterns of the source, `Atoi` follows `strconv.Atoi`.
* A run-time panic (a slice or index expression out of range) is the result
  `none` of an `Option`; an `error` is the `error` of an `Except`.
* The git library is read through two lists: the log from the head, most
  recent commit first, and the tag references with the commit each resolves
  to.  Both walks of the log see the same list, and the library calls do not
  fail.
* `strings.ToLower(strings.TrimSpace(s))`, used by `ChangeType.Parse`, is the
  parameter `norm`.
-/

namespace Gover

/-- A Go string. -/
abbrev Str := List Char

/-! ## Machine integers -/

/-- Largest value of a Go `int` (64-bit platform). -/
def maxInt : Int := 9223372036854775807

/-- Smallest value of a Go `int` (64-bit platform). -/
def minInt : Int := -9223372036854775808

/-- Two's-complement wrap-around of an exact integer result into `int`. -/
def wrapInt (x : Int) : Int := (x + 9223372036854775808) % 18446744073709551616 - 9223372036854775808

/-- The value is representable as a Go `int`. -/
def isInt (x : Int) : Prop := minInt ≤ x ∧ x ≤ maxInt

instance (x : Int) : Decidable (isInt x) := by unfold isInt; infer_instance

/-! ## Character classes and decimal conversion -/

/-- Regexp class `\d` (ASCII digits). -/
def isDigit (c : Char) : Bool := decide (48 ≤ c.toNat) && decide (c.toNat ≤ 57)

/-- Regexp class `\s`, which in Go's syntax is `[\t\n\f\r ]`. -/
def isSpace (c : Char) : Bool :=
  c.toNat == 9 || c.toNat == 10 || c.toNat == 12 || c.toNat == 13 || c.toNat == 32

/-- Regexp class `\w`, which is `[0-9A-Za-z_]`. -/
def isWord (c : Char) : Bool :=
  (decide (48 ≤ c.toNat) && decide (c.toNat ≤ 57)) ||
  (decide (65 ≤ c.toNat) && decide (c.toNat ≤ 90)) ||
  (decide (97 ≤ c.toNat) && decide (c.toNat ≤ 122)) || c.toNat == 95

/-- Value of a decimal digit character. -/
def digitVal (c : Char) : Nat := c.toNat - 48

/-- Character of a decimal digit. -/
def digitChar (d : Nat) : Char := Char.ofNat (48 + d)

/-- Value of a string of decimal digits, most significant first. -/
def decimalVal (ds : Str) : Nat := ds.foldl (fun acc c => acc * 10 + digitVal c) 0

/-- Decimal digits of `n`, most significant first, accumulated in `acc`;
`fuel` bounds the number of digits. -/
def natDigitsAux : Nat → Nat → Str → Str
  | 0, _, acc => acc
  | fuel + 1, n, acc =>
    if n < 10 then digitChar n :: acc
    else natDigitsAux fuel (n / 10) (digitChar (n % 10) :: acc)

/-- Decimal rendering of a natural number (`%d` on a non-negative value). -/
def formatNat (n : Nat) : Str := natDigitsAux (n + 1) n []

/-- Rendering of `%d` in `fmt.Sprintf`. -/
def formatInt (x : Int) : Str :=
  if x < 0 then '-' :: formatNat x.natAbs else formatNat x.natAbs

/-- Unsigned part of `strconv.Atoi`: a non-empty string of digits. -/
def parseDigits (ds : Str) : Option Nat :=
  if ds ≠ [] ∧ ds.all isDigit = true then some (decimalVal ds) else none

/-- Model of `strconv.Atoi`: optional sign, then decimal digits; `none` stands for a
non-nil error (`ErrSyntax`, or `ErrRange` when the value does not fit in `int`). -/
def Atoi (s : Str) : Option Int :=
  match s with
  | '-' :: r =>
    match parseDigits r with
    | some n => if (n : Int) ≤ 9223372036854775808 then some (-(n : Int)) else none
    | none => none
  | '+' :: r =>
    match parseDigits r with
    | some n => if (n : Int) ≤ maxInt then some (n : Int) else none
    | none => none
  | r =>
    match parseDigits r with
    | some n => if (n : Int) ≤ maxInt then some (n : Int) else none
    | none => none

/-! ## `internal/version` -/

/-- The change type of a commit; Go constants `iota` 0..3 in this order. -/
inductive ChangeType
  | ChangeTypeNone
  | ChangeTypePatch
  | ChangeTypeMinor
  | ChangeTypeMajor
  deriving DecidableEq, Repr

open ChangeType

/-- Numeric value of the constant. -/
def ChangeType.toNat : ChangeType → Nat
  | ChangeTypeNone => 0
  | ChangeTypePatch => 1
  | ChangeTypeMinor => 2
  | ChangeTypeMajor => 3

instance : LE ChangeType := ⟨fun a b => a.toNat ≤ b.toNat⟩
instance : LT ChangeType := ⟨fun a b => a.toNat < b.toNat⟩
instance (a b : ChangeType) : Decidable (a ≤ b) := inferInstanceAs (Decidable (a.toNat ≤ b.toNat))
instance (a b : ChangeType) : Decidable (a < b) := inferInstanceAs (Decidable (a.toNat < b.toNat))

/-- The struct `Version`. -/
structure Version where
  Prefix : Str
  Major : Int
  Minor : Int
  Patch : Int
  PreRelease : Str
  Build : Int
  deriving DecidableEq, Repr

/-- Submatches 1 to 7 of `semverRegexp` (index 0 is the whole input). -/
structure SemverMatch where
  m1 : Str
  m2 : Str
  m3 : Str
  m4 : Str
  m5 : Str
  m6 : Str
  m7 : Str
  deriving DecidableEq, Repr

/-- The optional group `(-(\S+)\.(\d))?` followed by `$`, applied to what follows PATCH. -/
def semverSuffix (m1 m2 m3 m4 rest : Str) : Option SemverMatch :=
  match rest with
  | [] => some ⟨m1, m2, m3, m4, [], [], []⟩
  | '-' :: r =>
    match r.reverse with
    | d :: '.' :: lr =>
      if isDigit d = true ∧ lr ≠ [] ∧ lr.all (fun c => !isSpace c) = true then
        some ⟨m1, m2, m3, m4, rest, lr.reverse, [d]⟩
      else none
    | _ => none
  | _ => none

/-- The pattern from the first `(\d+)` on: `(\d+)\.(\d+)\.(\d+)`, then the suffix group
and `$`; `m1` is what the group `(v)?` matched. -/
def semverNumbers (m1 : Str) (s : Str) : Option SemverMatch :=
  let m2 := s.takeWhile isDigit
  match m2, s.dropWhile isDigit with
  | _ :: _, '.' :: s3 =>
    let m3 := s3.takeWhile isDigit
    match m3, s3.dropWhile isDigit with
    | _ :: _, '.' :: s4 =>
      let m4 := s4.takeWhile isDigit
      match m4 with
      | _ :: _ => semverSuffix m1 m2 m3 m4 (s4.dropWhile isDigit)
      | [] => none
    | _, _ => none
  | _, _ => none

/-- `semverRegexp.FindStringSubmatch` for the anchored pattern
`^(v)?(\d+)\.(\d+)\.(\d+)(-(\S+)\.(\d))?$`; `none` is the empty result. -/
def semverRegexp (s : Str) : Option SemverMatch :=
  match s with
  | 'v' :: r => semverNumbers ['v'] r
  | _ => semverNumbers [] s

/-- Errors of `New`; all of them wrap `ErrInvalidVersion`. -/
inductive VersionError
  | ErrInvalidVersion
  | parseMajor
  | parseMinor
  | parsePatch
  | parseBuild
  deriving DecidableEq, Repr

/-- The test `errors.Is(err, ErrInvalidVersion)`: every error of `New` is `ErrInvalidVersion`
itself or `fmt.Errorf("%w: parse ...: %w", ErrInvalidVersion, err)`. -/
def VersionError.isErrInvalidVersion : VersionError → Bool
  | .ErrInvalidVersion => true
  | .parseMajor => true
  | .parseMinor => true
  | .parsePatch => true
  | .parseBuild => true

/-- `New` parses a version string. -/
def New (s : Str) : Except VersionError Version :=
  match semverRegexp s with
  | none => .error .ErrInvalidVersion
  | some m =>
    match Atoi m.m2 with
    | none => .error .parseMajor
    | some major =>
      match Atoi m.m3 with
      | none => .error .parseMinor
      | some minor =>
        match Atoi m.m4 with
        | none => .error .parsePatch
        | some patch =>
          if m.m5.length ≠ 0 then
            match Atoi m.m7 with
            | none => .error .parseBuild
            | some build => .ok ⟨m.m1, major, minor, patch, m.m6, build⟩
          else .ok ⟨m.m1, major, minor, patch, [], 0⟩

/-- `IsPreRelease`: the version has a pre-release part. -/
def Version.IsPreRelease (v : Version) : Bool := v.PreRelease ≠ []

/-- `BumpPatch`. -/
def Version.BumpPatch (v : Version) : Version :=
  { v with Patch := wrapInt (v.Patch + 1), PreRelease := [], Build := 0 }

/-- `BumpMinor`. -/
def Version.BumpMinor (v : Version) : Version :=
  { ({ v with Minor := wrapInt (v.Minor + 1) } : Version).BumpPatch with Patch := 0 }

/-- `BumpMajor`. -/
def Version.BumpMajor (v : Version) : Version :=
  { ({ v with Major := wrapInt (v.Major + 1) } : Version).BumpMinor with Minor := 0 }

/-- `LatestChangeType`. -/
def Version.LatestChangeType (v : Version) : ChangeType :=
  if v.Patch ≠ 0 then ChangeTypePatch
  else if v.Minor ≠ 0 then ChangeTypeMinor
  else if v.Major ≠ 0 then ChangeTypeMajor
  else ChangeTypeNone

/-- `Revert`. -/
def Version.Revert (v : Version) : Version :=
  match v.LatestChangeType with
  | ChangeTypeMajor => { v with Major := max 0 (wrapInt (v.Major - 1)) }
  | ChangeTypeMinor => { v with Minor := max 0 (wrapInt (v.Minor - 1)) }
  | ChangeTypePatch => { v with Patch := max 0 (wrapInt (v.Patch - 1)) }
  | ChangeTypeNone => v

/-- The `switch change` at the end of `Bump`. -/
def Version.bumpSwitch (v : Version) (change : ChangeType) : Version :=
  match change with
  | ChangeTypeMajor => v.BumpMajor
  | ChangeTypeMinor => v.BumpMinor
  | ChangeTypePatch => v.BumpPatch
  | ChangeTypeNone => v

/-- `Bump`. -/
def Version.Bump (v : Version) (change : ChangeType) : Version :=
  if v.IsPreRelease = true then
    if change ≤ v.LatestChangeType then
      { v with PreRelease := [], Build := 0 }
    else v.Revert.bumpSwitch change
  else v.bumpSwitch change

/-- `BumpPreRelease`. -/
def Version.BumpPreRelease (v : Version) (change : ChangeType) (pre : Str) : Version :=
  if v.PreRelease = pre ∧ change ≤ v.LatestChangeType then
    { v with Build := wrapInt (v.Build + 1) }
  else
    { v.Bump change with PreRelease := pre, Build := 1 }

/-- `Next`, with the variadic `pre ...string` as a list. -/
def Version.Next (v : Version) (t : ChangeType) (pre : List Str) : Version :=
  let preRelease : Str :=
    match pre with
    | p :: _ => if p ≠ [] then p else []
    | [] => []
  if preRelease = [] then v.Bump t else v.BumpPreRelease t preRelease

/-- `IsGreater`. -/
def Version.IsGreater (v other : Version) : Bool :=
  if v.Major ≠ other.Major then decide (v.Major > other.Major)
  else if v.Minor ≠ other.Minor then decide (v.Minor > other.Minor)
  else if v.Patch ≠ other.Patch then decide (v.Patch > other.Patch)
  else if v.Build ≠ other.Build ∧ v.PreRelease = other.PreRelease then decide (v.Build > other.Build)
  else false

/-- `String`: the text of the version. -/
def Version.String (v : Version) : Str :=
  let s := v.Prefix ++ formatInt v.Major ++ ['.'] ++ formatInt v.Minor ++ ['.'] ++ formatInt v.Patch
  if v.PreRelease.length ≠ 0 then s ++ ['-'] ++ v.PreRelease ++ ['.'] ++ formatInt v.Build
  else s

/-! ## `internal/repository/message.go` -/

/-- Match of the pattern `{{\.\w+}}` at the start of `s`: the length of the match. -/
def templateParamAt (s : Str) : Option Nat :=
  match s with
  | '{' :: '{' :: '.' :: r =>
    match r.takeWhile isWord, r.dropWhile isWord with
    | _ :: w, '}' :: '}' :: _ => some (w.length + 6)
    | _, _ => none
  | _ => none

/-- Leftmost non-overlapping matches of `{{\.\w+}}` in the rest `s` of the text, which
starts at offset `pos`; `skip` counts the characters of the last match still to pass. -/
def findAllParams : Str → Nat → Nat → List (Nat × Nat)
  | [], _, _ => []
  | _ :: r, pos, skip + 1 => findAllParams r (pos + 1) skip
  | c :: r, pos, 0 =>
    match templateParamAt (c :: r) with
    | some len => (pos, pos + len) :: findAllParams r (pos + 1) (len - 1)
    | none => findAllParams r (pos + 1) 0

/-- `templateParamsRgx.FindAllStringIndex(template, -1)`. -/
def templateParamsRgx (template : Str) : List (Nat × Nat) := findAllParams template 0 0

/-- `templateParamNameRgx.FindString(s)` for the pattern `\w+`: the leftmost run of word
characters, the empty string when there is none. -/
def templateParamNameRgx (s : Str) : Str :=
  (s.dropWhile (fun c => !isWord c)).takeWhile isWord

/-- The slice expression `s[lo:hi]`; `none` is the run-time panic of an index out of range. -/
def goSlice (s : Str) (lo hi : Nat) : Option Str :=
  if lo ≤ hi ∧ hi ≤ s.length then some ((s.drop lo).take (hi - lo)) else none

/-- `strings.Index` on the rest `s` of the text, which starts at offset `i`. -/
def stringsIndexFrom (sep : Str) : Str → Nat → Int
  | [], i => if sep = [] then (i : Int) else -1
  | c :: r, i => if sep.isPrefixOf (c :: r) = true then (i : Int) else stringsIndexFrom sep r (i + 1)

/-- `strings.Index(s, sep)`: offset of the first occurrence of `sep` in `s`, `-1` if none. -/
def stringsIndex (s sep : Str) : Int := stringsIndexFrom sep s 0

/-- `isIndexLast`. -/
def isIndexLast {α : Type} (slice : List α) (idx : Nat) : Bool :=
  decide ((idx : Int) = (slice.length : Int) - 1)

/-- `next`: `some (some x)` is `(x, true)`, `some none` is `(zero, false)`, and `none` is
the panic of `slice[idx+1]` out of range. -/
def next {α : Type} (slice : List α) (idx : Nat) : Option (Option α) :=
  if isIndexLast slice idx = true then some none
  else
    match slice[idx + 1]? with
    | some x => some (some x)
    | none => none

/-- The map type `Message`, as the list of its entries. -/
structure Message where
  entries : List (Str × Str)
  deriving DecidableEq, Repr

/-- Lookup `m[k]` with presence. -/
def Message.get? (m : Message) (k : Str) : Option Str := m.entries.lookup k

/-- The index expression `m[k]`: the empty string when the key is absent. -/
def Message.get (m : Message) (k : Str) : Str := (m.get? k).getD []

/-- Assignment into the entries of a map. -/
def setEntry : List (Str × Str) → Str → Str → List (Str × Str)
  | [], k, v => [(k, v)]
  | (k', v') :: r, k, v => if k' = k then (k, v) :: r else (k', v') :: setEntry r k v

/-- The assignment `m[k] = v`. -/
def Message.set (m : Message) (k v : Str) : Message := ⟨setEntry m.entries k v⟩

/-- The error built from `missingRequiredErrMsg`. -/
structure MissingRequired where
  template : Str
  required : List Str
  missing : Str
  deriving DecidableEq, Repr

/-- The first loop of `ParseMessage`, over the placeholders `bParams[i:]`; `none` is a panic. -/
def parseLoop (template message : Str) (bParams : List (Nat × Nat)) :
    List (Nat × Nat) → Nat → Nat → Message → Option Message
  | [], _, _, tmplParams => some tmplParams
  | bp :: rest, i, cursor, tmplParams =>
    match goSlice message cursor message.length with
    | none => none
    | some remaining =>
      if remaining.length = 0 then some tmplParams
      else
        match goSlice template bp.1 bp.2 with
        | none => none
        | some text =>
          let paramName := templateParamNameRgx text
          match next bParams i with
          | none => none
          | some nx =>
            let sepEndIdx :=
              match nx with
              | some n => n.1
              | none => template.length
            match goSlice template bp.2 sepEndIdx with
            | none => none
            | some phraseSep =>
              if phraseSep.length = 0 then some (tmplParams.set paramName remaining)
              else
                let phraseEndIdx := stringsIndex remaining phraseSep
                if phraseEndIdx < 0 then some (tmplParams.set paramName remaining)
                else
                  match goSlice message cursor (cursor + phraseEndIdx.toNat) with
                  | none => none
                  | some phrase =>
                    parseLoop template message bParams rest (i + 1)
                      (cursor + phrase.length + phraseSep.length)
                      (tmplParams.set paramName phrase)

/-- The second loop of `ParseMessage`: the first required name with an empty value. -/
def checkRequired (tmplParams : Message) (template : Str) (required : List Str) :
    List Str → Except MissingRequired Message
  | [] => .ok tmplParams
  | r :: rs =>
    if tmplParams.get r = [] then .error ⟨template, required, r⟩
    else checkRequired tmplParams template required rs

/-- `ParseMessage`; `none` is a panic. -/
def ParseMessage (template message : Str) (required : List Str) :
    Option (Except MissingRequired Message) :=
  match parseLoop template message (templateParamsRgx template) (templateParamsRgx template)
      0 0 ⟨[]⟩ with
  | none => none
  | some tmplParams => some (checkRequired tmplParams template required required)

/-! ## Vocabulary of the statements -/

/-- A non-empty string of decimal digits. -/
def isNumeral (ds : Str) : Prop := ds ≠ [] ∧ ∀ c ∈ ds, isDigit c = true

/-- A non-empty token without whitespace. -/
def isLabel (l : Str) : Prop := l ≠ [] ∧ ∀ c ∈ l, isSpace c = false

/-- The text `[v]MAJOR.MINOR.PATCH[-LABEL.BUILD]` built from its parts. -/
def versionText (pfx maj min pat : Str) (suffix : Option (Str × Str)) : Str :=
  pfx ++ maj ++ '.' :: min ++ '.' :: pat ++
    (match suffix with
     | none => []
     | some (l, b) => '-' :: l ++ '.' :: b)

def VersionShape (numOk buildOk : Str → Prop) (s : Str) : Prop :=
  ∃ pfx maj min pat suffix,
    (pfx = [] ∨ pfx = ['v']) ∧ numOk maj ∧ numOk min ∧ numOk pat ∧
    (∀ l b, suffix = some (l, b) → isLabel l ∧ buildOk b) ∧
    s = versionText pfx maj min pat suffix

/-- A decimal numeral whose value fits in `int`. -/
def fitsInt (ds : Str) : Prop := isNumeral ds ∧ (decimalVal ds : Int) ≤ maxInt

/-- One decimal digit. -/
def isSingleDigit (b : Str) : Prop := ∃ d, b = [d] ∧ isDigit d = true

/-- A decimal numeral of positive value. -/
def isPositiveNumeral (b : Str) : Prop := isNumeral b ∧ 0 < decimalVal b

/-- A numeral without superfluous leading zeros. -/
def noLeadingZero (ds : Str) : Prop := ds = ['0'] ∨ ds.head? ≠ some '0'

/-! ## Vocabulary of the statement on `ParseMessage` -/

/-- The placeholder token `{{.n}}`. -/
def placeholderText (n : Str) : Str := '{' :: '{' :: '.' :: (n ++ ['}', '}'])

/-- A field after the first one of a template: the separator before it, its name, and its
value in the message. -/
structure Field where
  sep : Str
  name : Str
  value : Str

/-- The template text after the first placeholder. -/
def templateTail : List Field → Str
  | [] => []
  | f :: rest => f.sep ++ placeholderText f.name ++ templateTail rest

/-- The message text after the first value. -/
def messageTail : List Field → Str
  | [] => []
  | f :: rest => f.sep ++ f.value ++ messageTail rest

/-- A placeholder name: a non-empty run of `\w`. -/
def isParamName (n : Str) : Prop := n ≠ [] ∧ ∀ c ∈ n, isWord c = true

/-- A literal separator: a text in which `templateParamsRgx` finds no placeholder. -/
def isLiteral (s : Str) : Prop := templateParamsRgx s = []

/-- The first occurrence of `sep` in `s` is at offset `k`. -/
def firstOccurrenceAt (s sep : Str) (k : Nat) : Prop :=
  sep <+: s.drop k ∧ ∀ j, j < k → ¬ sep <+: s.drop j

/-- Every separator is first met right after the value it closes. -/
def sepFirst (x : Str) : List Field → Prop
  | [] => True
  | f :: rest =>
    firstOccurrenceAt (x ++ messageTail (f :: rest)) f.sep x.length ∧ sepFirst f.value rest

/-- The placeholder bounds that the template built from `n` and `rest` has, the first
placeholder standing at offset `pos`. -/
def paramsFrom (pos : Nat) (n : Str) : List Field → List (Nat × Nat)
  | [] => [(pos, pos + (n.length + 5))]
  | f :: rest =>
    (pos, pos + (n.length + 5)) :: paramsFrom (pos + (n.length + 5) + f.sep.length) f.name rest

/-- The assignments of the loop on a message written from its template. -/
def setFields (acc : Message) (n x : Str) (rest : List Field) : Message :=
  rest.foldl (fun m f => m.set f.name f.value) (acc.set n x)

/-- The names and values of a message written from its template. -/
def fieldEntries (n x : Str) (rest : List Field) : List (Str × Str) :=
  (n, x) :: rest.map (fun f => (f.name, f.value))

instance (s sep : Str) (k : Nat) : Decidable (firstOccurrenceAt s sep k) := by
  unfold firstOccurrenceAt; infer_instance

instance (n : Str) : Decidable (isParamName n) := by
  unfold isParamName; infer_instance

instance (s : Str) : Decidable (isLiteral s) := by
  unfold isLiteral; infer_instance

/-- The fields of the message of `TestParseMessage` ("parses exact format") after the first. -/
def exampleFields : List Field :=
  [⟨"(".toList, "Scope".toList, "semver".toList⟩,
   ⟨"): ".toList, "Message".toList, "commit message".toList⟩,
   ⟨"\n\n".toList, "Description".toList, "description".toList⟩]

/-! ## The loop of `ParseMessage`, iteration by iteration -/

/-- The outcome of one iteration of the first loop of `ParseMessage`. -/
inductive IterOutcome
  | panic
  | stop (tmplParams : Message)
  | continue (cursor : Nat) (tmplParams : Message)
  deriving DecidableEq, Repr

/-- The body of the first loop of `ParseMessage` at placeholder `bp = bParams[i]`: a panic,
a `break` (or the end of the body with nothing left to do) with the map, or the cursor and
the map for the next iteration. -/
def loopBody (template message : Str) (bParams : List (Nat × Nat)) (bp : Nat × Nat)
    (i cursor : Nat) (tmplParams : Message) : IterOutcome :=
  match goSlice message cursor message.length with
  | none => .panic
  | some remaining =>
    if remaining.length = 0 then .stop tmplParams
    else
      match goSlice template bp.1 bp.2 with
      | none => .panic
      | some text =>
        let paramName := templateParamNameRgx text
        match next bParams i with
        | none => .panic
        | some nx =>
          let sepEndIdx :=
            match nx with
            | some n => n.1
            | none => template.length
          match goSlice template bp.2 sepEndIdx with
          | none => .panic
          | some phraseSep =>
            if phraseSep.length = 0 then .stop (tmplParams.set paramName remaining)
            else
              let phraseEndIdx := stringsIndex remaining phraseSep
              if phraseEndIdx < 0 then .stop (tmplParams.set paramName remaining)
              else
                match goSlice message cursor (cursor + phraseEndIdx.toNat) with
                | none => .panic
                | some phrase =>
                  .continue (cursor + phrase.length + phraseSep.length)
                    (tmplParams.set paramName phrase)

/-- The states `(i, cursor, tmplParams)` at the start of the iterations of the first loop of
`ParseMessage template message`. -/
inductive LoopAt (template message : Str) : Nat → Nat → Message → Prop
  | start : LoopAt template message 0 0 ⟨[]⟩
  | step (i cursor : Nat) (tmplParams : Message) (bp : Nat × Nat) (c : Nat) (m : Message) :
      LoopAt template message i cursor tmplParams →
      (templateParamsRgx template)[i]? = some bp →
      loopBody template message (templateParamsRgx template) bp i cursor tmplParams =
        .continue c m →
      LoopAt template message (i + 1) c m

/-- The end `sepEndIdx` of the separator of placeholder `i`: the start of the next
placeholder, or the length of the template after the last one. -/
def sepEndIdx (template : Str) (i : Nat) : Nat :=
  match (templateParamsRgx template)[i + 1]? with
  | some n => n.1
  | none => template.length

/-- The name of a placeholder of the template, read as `ParseMessage` reads it. -/
def paramNameOf (template : Str) (bp : Nat × Nat) : Str :=
  templateParamNameRgx ((template.drop bp.1).take (bp.2 - bp.1))

/-- The bounds of a list of matches are ordered, do not overlap, start at `lo` or later and
end at `hi` or before. -/
def paramsChain (lo hi : Nat) : List (Nat × Nat) → Prop
  | [] => True
  | bp :: tl => lo ≤ bp.1 ∧ bp.1 ≤ bp.2 ∧ bp.2 ≤ hi ∧ paramsChain bp.2 hi tl

/-- The separator that follows placeholder `bp = bParams[i]` in the template. -/
def phraseSepOf (template : Str) (i : Nat) (bp : Nat × Nat) : Str :=
  (template.drop bp.2).take (sepEndIdx template i - bp.2)

/-- The names of the first `i` placeholders of the template. -/
def paramNamesBefore (template : Str) (i : Nat) : List Str :=
  ((templateParamsRgx template).take i).map (paramNameOf template)

/-- The commit template of `TestParseMessage`. -/
def exampleTemplate : Str :=
  "\x7b\x7b.Type\x7d\x7d(\x7b\x7b.Scope\x7d\x7d): \x7b\x7b.Message\x7d\x7d\n\n\x7b\x7b.Description\x7d\x7d".toList

/-- The message of `TestParseMessage` ("parses on missing description field"). -/
def exampleShortMessage : Str := "improvement(semver): commit message".toList

/-- A template in which the name `a` stands twice, around the name `b`. -/
def repeatTemplate : Str := "\x7b\x7b.a\x7d\x7d-\x7b\x7b.b\x7d\x7d:\x7b\x7b.a\x7d\x7d".toList

/-- A template of two placeholders of the same name `a`. -/
def twiceTemplate : Str := "\x7b\x7b.a\x7d\x7d-\x7b\x7b.a\x7d\x7d".toList

/-- The triple `(Major, Minor, Patch)` of `a` is lexicographically below that of `b`. -/
def numbersLt (a b : Version) : Prop :=
  a.Major < b.Major ∨ (a.Major = b.Major ∧ (a.Minor < b.Minor ∨
    (a.Minor = b.Minor ∧ a.Patch < b.Patch)))

/-- The triples `(Major, Minor, Patch)` of `a` and `b` are equal. -/
def numbersEq (a b : Version) : Prop :=
  a.Major = b.Major ∧ a.Minor = b.Minor ∧ a.Patch = b.Patch

/-! ## `internal/config` -/

/-- The struct `Option` of the configuration. -/
structure ConfigOption where
  Value : Str
  Description : Str
  Version : Str
  deriving DecidableEq, Repr

/-- An element of `Config.Args`. -/
structure ConfigArg where
  Name : Str
  Options : List ConfigOption
  Required : Bool
  deriving DecidableEq, Repr

/-- The struct `Config`: the commit template and the arguments. -/
structure Config where
  TemplatesCommit : Str
  Args : List ConfigArg
  deriving DecidableEq, Repr

/-- `RequiredArgs`. -/
def Config.RequiredArgs (c : Config) : List Str :=
  (c.Args.filter (fun arg => arg.Required)).map (fun arg => arg.Name)

/-! ## `internal/repository/repository.go` -/

/-- A commit of the log: its hash and its message. -/
structure Commit where
  Hash : Nat
  Message : Str
  deriving DecidableEq, Repr

/-- A tag reference: its short name and the hash of the commit that `taggedCommit` resolves
it to, `none` when the resolution fails. -/
structure TagRef where
  Name : Str
  Commit : Option Nat
  deriving DecidableEq, Repr

/-- The git data that `Repository` reads: the log from the head in committer-time order, most
recent first, and the tag references in the order of their iteration. -/
structure Repository where
  log : List Commit
  tags : List TagRef
  deriving DecidableEq, Repr

/-- Errors of the repository operations: `ErrCommitNotFound`, the error `not found` of
`latestTags`, the wrappings `latest tag: %w` and `tagged commit: %w`, and the failure of
`taggedCommit`. -/
inductive RepoError
  | ErrCommitNotFound
  | notFound
  | annotatedTagNotFound
  | latestTag (err : RepoError)
  | taggedCommit (err : RepoError)
  deriving DecidableEq, Repr

/-- The test `errors.Is(err, ErrCommitNotFound)`, through the `%w` wrappings. -/
def RepoError.isErrCommitNotFound : RepoError → Bool
  | .ErrCommitNotFound => true
  | .notFound => false
  | .annotatedTagNotFound => false
  | .latestTag err => err.isErrCommitNotFound
  | .taggedCommit err => err.isErrCommitNotFound

/-- The entry `taggedCommits[h]` built by `latestTags`: the references that resolve to the
commit `h`, in the order of iteration. -/
def Repository.taggedCommits (r : Repository) (h : Nat) : List TagRef :=
  r.tags.filter (fun ref => decide (ref.Commit = some h))

/-- The walk of `latestTags` over the log: the tags of the first commit that has some. -/
def latestTagsWalk (r : Repository) : List Commit → List TagRef
  | [] => []
  | c :: rest =>
    if (r.taggedCommits c.Hash).length ≠ 0 then r.taggedCommits c.Hash
    else latestTagsWalk r rest

/-- `latestTags`. -/
def Repository.latestTags (r : Repository) : Except RepoError (List TagRef) :=
  let result := latestTagsWalk r r.log
  if result.length = 0 then .error .notFound else .ok result

/-- The loop of `featureCommits` over the log, `commits` being the commits passed so far. -/
def featureCommitsWalk (tagged : Nat) : List Commit → List Commit → Except RepoError (List Commit)
  | [], _ => .error .ErrCommitNotFound
  | c :: rest, commits =>
    if c.Hash = tagged then .ok commits else featureCommitsWalk tagged rest (commits ++ [c])

/-- `featureCommits`; `none` is the panic of `tag[0]` on an empty slice. -/
def Repository.featureCommits (r : Repository) : Option (Except RepoError (List Commit)) :=
  match r.latestTags with
  | .error err => some (.error (.latestTag err))
  | .ok tag =>
    match tag[0]? with
    | none => none
    | some ref =>
      match ref.Commit with
      | none => some (.error (.taggedCommit .annotatedTagNotFound))
      | some tagged => some (featureCommitsWalk tagged r.log [])

/-- `strings.Trim(s, "\n")`. -/
def trimNewlines (s : Str) : Str :=
  ((s.dropWhile (fun c => c == '\n')).reverse.dropWhile (fun c => c == '\n')).reverse

/-- `FeatureCommits`: the trimmed messages of the commits since the latest tag. -/
def Repository.FeatureCommits (r : Repository) : Option (Except RepoError (List Str)) :=
  match r.featureCommits with
  | none => none
  | some (.error err) => some (.error err)
  | some (.ok commits) => some (.ok (commits.map (fun c => trimNewlines c.Message)))

/-- The loop of `LatestTag` over the tag names, `latestTag` being the version kept so far. -/
def latestTagLoop : List Str → Option Version → Option Version
  | [], latestTag => latestTag
  | name :: rest, latestTag =>
    match New name with
    | .error _ => latestTagLoop rest latestTag
    | .ok v =>
      match latestTag with
      | none => latestTagLoop rest (some v)
      | some l => if v.IsGreater l = true then latestTagLoop rest (some v)
        else latestTagLoop rest (some l)

/-- The part of `LatestTag` after `latestTags`, on the short names of the tags; `none` is the
panic of `tags[0]` on an empty slice. -/
def latestTagOf (names : List Str) : Option Str :=
  match latestTagLoop names none with
  | none => names[0]?
  | some l => some l.String

/-- `LatestTag`. -/
def Repository.LatestTag (r : Repository) : Option (Except RepoError Str) :=
  match r.latestTags with
  | .error err => some (.error (.latestTag err))
  | .ok tags =>
    match latestTagOf (tags.map (fun ref => ref.Name)) with
    | none => none
    | some name => some (.ok name)

/-! ## `internal/app.go` -/

/-- The map `commitTypes`; a key outside the map gives the zero value `ChangeTypeNone`. -/
def commitTypes (s : Str) : ChangeType :=
  if s = "none".toList then ChangeTypeNone
  else if s = "major".toList then ChangeTypeMajor
  else if s = "minor".toList then ChangeTypeMinor
  else if s = "patch".toList then ChangeTypePatch
  else ChangeTypeNone

/-- `ChangeType.Parse`; `norm` stands for the library call
`strings.ToLower(strings.TrimSpace(s))`. -/
def ChangeType.Parse (norm : Str → Str) (s : Str) : ChangeType := commitTypes (norm s)

/-- Assignment `m[k] = v` into the entries of a map with string keys. -/
def mapSet {β : Type} : List (Str × β) → Str → β → List (Str × β)
  | [], k, v => [(k, v)]
  | (k1, v1) :: r, k, v => if k1 = k then (k, v) :: r else (k1, v1) :: mapSet r k v

/-- `argOptionsTypes`: the map from option value to change type, without the `None` ones. -/
def argOptionsTypes (norm : Str → Str) (opts : List ConfigOption) : List (Str × ChangeType) :=
  opts.foldl (fun m opt =>
    let ac := ChangeType.Parse norm opt.Version
    if ac ≠ ChangeTypeNone then mapSet m opt.Value ac else m) []

/-- The map `versionTypes` that `change` builds from the arguments. -/
def buildVersionTypes (norm : Str → Str) (args : List ConfigArg) :
    List (Str × List (Str × ChangeType)) :=
  args.foldl (fun m arg => mapSet m arg.Name (argOptionsTypes norm arg.Options)) []

/-- The index expression `versionTypes[tmpl][val]`: the zero value `ChangeTypeNone` when the
field or the value has no entry. -/
def versionTypesAt (versionTypes : List (Str × List (Str × ChangeType))) (tmpl val : Str) :
    ChangeType :=
  match versionTypes.lookup tmpl with
  | none => ChangeTypeNone
  | some m => (m.lookup val).getD ChangeTypeNone

/-- Errors of `change`: the error of `FeatureCommits`, or the match error of a message. -/
inductive ChangeError
  | repo (err : RepoError)
  | mismatch (err : MissingRequired)
  deriving DecidableEq, Repr

/-- The inner loop of `change` over the fields of one message. -/
def fieldsChange (table : Str → Str → ChangeType) (entries : List (Str × Str))
    (change : ChangeType) : ChangeType :=
  entries.foldl (fun ch e => if table e.1 e.2 > ch then table e.1 e.2 else ch) change

/-- The loop of `change` over the messages; `table tmpl val` is `versionTypes[tmpl][val]`, and
`none` is a panic of `ParseMessage`. -/
def changeLoop (table : Str → Str → ChangeType) (template : Str) (required : List Str)
    (allowMismatch : Bool) : List Str → ChangeType → Option (Except ChangeError ChangeType)
  | [], change => some (.ok change)
  | msg :: rest, change =>
    match ParseMessage template msg required with
    | none => none
    | some (.error err) =>
      if allowMismatch = false then some (.error (.mismatch err))
      else changeLoop table template required allowMismatch rest change
    | some (.ok m) =>
      changeLoop table template required allowMismatch rest (fieldsChange table m.entries change)

/-- The struct `App`. -/
structure App where
  cfg : Config
  repo : Repository

/-- `App.change`. -/
def App.change (norm : Str → Str) (a : App) (allowMismatch : Bool) :
    Option (Except ChangeError ChangeType) :=
  match a.repo.FeatureCommits with
  | none => none
  | some (.error err) =>
    if err.isErrCommitNotFound = true then some (.ok ChangeTypeNone)
    else some (.error (.repo err))
  | some (.ok msgs) =>
    changeLoop (versionTypesAt (buildVersionTypes norm a.cfg.Args)) a.cfg.TemplatesCommit
      a.cfg.RequiredArgs allowMismatch msgs ChangeTypeNone

/-- The maps of the messages that `ParseMessage` accepts, in the order of the messages. -/
def acceptedMessages (template : Str) (required : List Str) (msgs : List Str) : List Message :=
  msgs.filterMap (fun msg =>
    match ParseMessage template msg required with
    | some (.ok m) => some m
    | _ => none)

/-- The change type `r` is the maximum of `table` over the fields of the maps `ms`, and
`ChangeTypeNone` when there is none. -/
def IsMaxSeverity (table : Str → Str → ChangeType) (ms : List Message) (r : ChangeType) : Prop :=
  (∀ m ∈ ms, ∀ e ∈ m.entries, table e.1 e.2 ≤ r) ∧
  (r = ChangeTypeNone ∨ ∃ m ∈ ms, ∃ e ∈ m.entries, table e.1 e.2 = r)

/-- A configuration with the field `Type`, whose options carry a change type, and the free
field `Message`, both required. -/
def exampleConfig : Config :=
  ⟨"\x7b\x7b.Type\x7d\x7d: \x7b\x7b.Message\x7d\x7d".toList,
    [⟨"Type".toList,
        [⟨"feat".toList, [], "minor".toList⟩, ⟨"fix".toList, [], "patch".toList⟩,
          ⟨"break".toList, [], "major".toList⟩],
        true⟩,
      ⟨"Message".toList, [], true⟩]⟩

/-- A repository of two commits and no tag. -/
def exampleUntaggedRepo : Repository :=
  ⟨[⟨2, "fix: b".toList⟩, ⟨1, "feat: a".toList⟩], []⟩

/-- A repository of two commits whose head carries the tag `v1.0.0`. -/
def exampleHeadTaggedRepo : Repository :=
  ⟨[⟨2, "fix: b".toList⟩, ⟨1, "feat: a".toList⟩], [⟨"v1.0.0".toList, some 2⟩]⟩

/-- A repository whose only tag, on its first commit, is named `v01.2.3`. -/
def exampleZeroTagRepo : Repository :=
  ⟨[⟨2, "fix: b".toList⟩, ⟨1, "feat: a".toList⟩], [⟨"v01.2.3".toList, some 1⟩]⟩

/-! ## Machine-integer facts -/

theorem wrapInt_of_isInt (x : Int) (h : isInt x) : wrapInt x = x := by
  unfold isInt minInt maxInt at h
  unfold wrapInt
  omega

theorem isInt_wrapInt (x : Int) : isInt (wrapInt x) := by
  unfold isInt minInt maxInt wrapInt
  omega

theorem wrapInt_succ (x : Int) (h0 : 0 ≤ x) (h1 : x < maxInt) : wrapInt (x + 1) = x + 1 := by
  unfold maxInt at h1
  unfold wrapInt
  omega

theorem wrapInt_pred_max (x : Int) (h0 : 0 ≤ x) (h1 : x ≤ maxInt) :
    0 ≤ max 0 (wrapInt (x - 1)) ∧ max 0 (wrapInt (x - 1)) ≤ x := by
  unfold maxInt at h1
  unfold wrapInt
  omega

/-! ## The bump state machine -/

theorem ChangeType.le_def (a b : ChangeType) : a ≤ b ↔ a.toNat ≤ b.toNat := Iff.rfl

theorem ChangeType.none_le (t : ChangeType) : ChangeTypeNone ≤ t := by
  cases t <;> decide

/-- The label that `Next` reads from its variadic argument. -/
theorem Next_of_empty_label (v : Version) (t : ChangeType) (pre : List Str)
    (hpre : pre.headD [] = []) : v.Next t pre = v.Bump t := by
  unfold Version.Next
  cases pre with
  | nil => simp
  | cons p tl =>
    simp only [List.headD_cons] at hpre
    subst hpre
    simp

theorem Next_of_label (v : Version) (t : ChangeType) (L : Str) (tl : List Str)
    (hL : L ≠ []) : v.Next t (L :: tl) = v.BumpPreRelease t L := by
  unfold Version.Next
  simp [hL]

theorem Bump_Prefix (v : Version) (t : ChangeType) : (v.Bump t).Prefix = v.Prefix := by
  unfold Version.Bump Version.bumpSwitch Version.Revert Version.BumpMajor Version.BumpMinor
    Version.BumpPatch
  split_ifs <;> cases t <;> simp <;> split <;> simp

theorem IsGreater_iff (x y : Version) :
    x.IsGreater y = true ↔
      (x.Major > y.Major ∨ (x.Major = y.Major ∧ (x.Minor > y.Minor ∨ (x.Minor = y.Minor ∧
        (x.Patch > y.Patch ∨ (x.Patch = y.Patch ∧
          x.PreRelease = y.PreRelease ∧ x.Build > y.Build)))))) := by
  unfold Version.IsGreater
  split_ifs with h1 h2 h3 h4
  · simp only [decide_eq_true_eq]; omega
  · simp only [decide_eq_true_eq]; omega
  · simp only [decide_eq_true_eq]; omega
  · simp only [decide_eq_true_eq]
    constructor
    · intro h; right; refine ⟨by omega, Or.inr ⟨by omega, Or.inr ⟨by omega, h4.2, h⟩⟩⟩
    · intro h; omega
  · simp only [not_and] at h4
    constructor
    · intro h; cases h
    · intro h
      exfalso
      have h1' : x.Major = y.Major := by omega
      have h2' : x.Minor = y.Minor := by omega
      have h3' : x.Patch = y.Patch := by omega
      rcases h with h | ⟨_, h | ⟨_, h | ⟨_, hp, hb⟩⟩⟩
      · omega
      · omega
      · omega
      · exact h4 (by omega) hp

/-- The numbers after `Revert` stay between 0 and the numbers before. -/
theorem Revert_bounds (v : Version) (hM : 0 ≤ v.Major ∧ v.Major < maxInt)
    (hm : 0 ≤ v.Minor ∧ v.Minor < maxInt) (hp : 0 ≤ v.Patch ∧ v.Patch < maxInt) :
    (0 ≤ v.Revert.Major ∧ v.Revert.Major < maxInt) ∧
    (0 ≤ v.Revert.Minor ∧ v.Revert.Minor < maxInt) ∧
    (0 ≤ v.Revert.Patch ∧ v.Revert.Patch < maxInt) ∧
    v.Revert.PreRelease = v.PreRelease ∧ v.Revert.Build = v.Build := by
  unfold maxInt at *
  unfold Version.Revert
  split <;> simp only [wrapInt, and_true] <;> omega

/-- The `switch` of `Bump` on numbers below `maxInt`. -/
theorem bumpSwitch_bounds (v : Version) (t : ChangeType) (hM : 0 ≤ v.Major ∧ v.Major < maxInt)
    (hm : 0 ≤ v.Minor ∧ v.Minor < maxInt) (hp : 0 ≤ v.Patch ∧ v.Patch < maxInt) :
    0 ≤ (v.bumpSwitch t).Major ∧ 0 ≤ (v.bumpSwitch t).Minor ∧ 0 ≤ (v.bumpSwitch t).Patch ∧
    (t ≠ ChangeTypeNone → (v.bumpSwitch t).PreRelease = [] ∧ (v.bumpSwitch t).Build = 0) ∧
    (t = ChangeTypeNone → v.bumpSwitch t = v) := by
  unfold maxInt at *
  cases t <;>
    simp only [Version.bumpSwitch, Version.BumpMajor, Version.BumpMinor, Version.BumpPatch,
      wrapInt, ne_eq, not_true_eq_false, not_false_eq_true, and_self, true_implies,
      false_implies, and_true, reduceCtorEq] <;>
    omega

theorem Bump_invariant (v : Version) (t : ChangeType)
    (hinv : (v.PreRelease = [] ∧ v.Build = 0) ∨ (v.PreRelease ≠ [] ∧ 1 ≤ v.Build))
    (hM : 0 ≤ v.Major ∧ v.Major < maxInt) (hm : 0 ≤ v.Minor ∧ v.Minor < maxInt)
    (hp : 0 ≤ v.Patch ∧ v.Patch < maxInt) :
    ((v.Bump t).PreRelease = [] ∧ (v.Bump t).Build = 0) ∧
    0 ≤ (v.Bump t).Major ∧ 0 ≤ (v.Bump t).Minor ∧ 0 ≤ (v.Bump t).Patch := by
  unfold Version.Bump
  by_cases hpre : v.IsPreRelease = true
  · simp only [hpre, if_true]
    by_cases hle : t ≤ v.LatestChangeType
    · simp only [hle, if_true, and_self, true_and]
      exact ⟨hM.1, hm.1, hp.1⟩
    · simp only [hle, if_false]
      have ht : t ≠ ChangeTypeNone := by
        intro h; rw [h] at hle; exact hle (ChangeType.none_le _)
      obtain ⟨rM, rm, rp, _, _⟩ := Revert_bounds v hM hm hp
      obtain ⟨b1, b2, b3, b4, _⟩ := bumpSwitch_bounds v.Revert t rM rm rp
      exact ⟨b4 ht, b1, b2, b3⟩
  · simp only [hpre, if_false]
    have hnil : v.PreRelease = [] := by
      simpa [Version.IsPreRelease] using hpre
    obtain ⟨b1, b2, b3, b4, b5⟩ := bumpSwitch_bounds v t hM hm hp
    refine ⟨?_, b1, b2, b3⟩
    by_cases ht : t = ChangeTypeNone
    · rw [b5 ht]
      rcases hinv with h | h
      · exact h
      · exact absurd hnil h.1
    · exact b4 ht

theorem digitVal_digitChar (d : Nat) (h : d < 10) : digitVal (digitChar d) = d := by
  interval_cases d <;> rfl

theorem isDigit_digitChar (d : Nat) (h : d < 10) : isDigit (digitChar d) = true := by
  interval_cases d <;> rfl

theorem isDigit_iff (c : Char) : isDigit c = true ↔ 48 ≤ c.toNat ∧ c.toNat ≤ 57 := by
  simp [isDigit]

theorem digitChar_digitVal (c : Char) (h : isDigit c = true) : digitChar (digitVal c) = c := by
  rw [isDigit_iff] at h
  unfold digitChar digitVal
  rw [Nat.add_sub_cancel' h.1]
  exact Char.ofNat_toNat c

theorem digitVal_lt (c : Char) (h : isDigit c = true) : digitVal c < 10 := by
  rw [isDigit_iff] at h
  unfold digitVal
  omega

theorem foldl_decimal (ds : Str) (a : Nat) :
    ds.foldl (fun acc c => acc * 10 + digitVal c) a = a * 10 ^ ds.length + decimalVal ds := by
  unfold decimalVal
  induction ds generalizing a with
  | nil => simp
  | cons c r ih =>
    simp only [List.foldl_cons, List.length_cons]
    rw [ih (a * 10 + digitVal c), ih (0 * 10 + digitVal c)]
    ring

theorem decimalVal_cons (c : Char) (r : Str) :
    decimalVal (c :: r) = digitVal c * 10 ^ r.length + decimalVal r := by
  have := foldl_decimal r (0 * 10 + digitVal c)
  simp only [decimalVal, List.foldl_cons] at this ⊢
  rw [this]; simp [decimalVal]

theorem decimalVal_append_singleton (xs : Str) (c : Char) :
    decimalVal (xs ++ [c]) = decimalVal xs * 10 + digitVal c := by
  simp [decimalVal, List.foldl_append]

theorem natDigitsAux_val (fuel n : Nat) (acc : Str) (h : n < fuel) :
    decimalVal (natDigitsAux fuel n acc) = n * 10 ^ acc.length + decimalVal acc := by
  induction fuel generalizing n acc with
  | zero => omega
  | succ f ih =>
    unfold natDigitsAux
    split_ifs with h10
    · rw [decimalVal_cons, digitVal_digitChar n h10]
    · rw [ih (n / 10) _ (by omega), decimalVal_cons, digitVal_digitChar _ (Nat.mod_lt n (by omega))]
      simp only [List.length_cons, pow_succ]
      have e : n * 10 ^ acc.length = (10 * (n / 10) + n % 10) * 10 ^ acc.length := by
        rw [Nat.div_add_mod]
      rw [e]
      ring

theorem natDigitsAux_digits (fuel n : Nat) (acc : Str) (h : n < fuel)
    (hacc : ∀ c ∈ acc, isDigit c = true) :
    natDigitsAux fuel n acc ≠ [] ∧ ∀ c ∈ natDigitsAux fuel n acc, isDigit c = true := by
  induction fuel generalizing n acc with
  | zero => omega
  | succ f ih =>
    unfold natDigitsAux
    split_ifs with h10
    · refine ⟨by simp, ?_⟩
      intro c hc
      rcases List.mem_cons.1 hc with rfl | hc
      · exact isDigit_digitChar n h10
      · exact hacc c hc
    · apply ih (n / 10) _ (by omega)
      intro c hc
      rcases List.mem_cons.1 hc with rfl | hc
      · exact isDigit_digitChar _ (Nat.mod_lt n (by omega))
      · exact hacc c hc

theorem decimalVal_formatNat (n : Nat) : decimalVal (formatNat n) = n := by
  unfold formatNat
  rw [natDigitsAux_val _ _ _ (Nat.lt_succ_self n)]
  simp [decimalVal]

theorem formatNat_digits (n : Nat) :
    formatNat n ≠ [] ∧ ∀ c ∈ formatNat n, isDigit c = true :=
  natDigitsAux_digits _ _ _ (Nat.lt_succ_self n) (by simp)


theorem decimalVal_pos (c : Char) (r : Str) (hc : isDigit c = true) (h0 : c ≠ '0') :
    1 ≤ decimalVal (c :: r) := by
  rw [decimalVal_cons]
  have h1 : 1 ≤ digitVal c := by
    rw [isDigit_iff] at hc
    unfold digitVal
    have : c.toNat ≠ 48 := by
      intro h
      apply h0
      have := Char.ofNat_toNat c
      rw [h] at this
      exact this.symm
    omega
  have h2 : 1 ≤ 10 ^ r.length := Nat.one_le_pow _ _ (by norm_num)
  nlinarith

theorem natDigitsAux_decimalVal (xs : Str) :
    ∀ (fuel : Nat) (acc : Str), xs ≠ [] → (∀ c ∈ xs, isDigit c = true) →
      (xs.length = 1 ∨ xs.head? ≠ some '0') → decimalVal xs < fuel →
      natDigitsAux fuel (decimalVal xs) acc = xs ++ acc := by
  induction xs using List.reverseRecOn with
  | nil => intro _ _ h; exact absurd rfl h
  | append_singleton ys c ih =>
    intro fuel acc _ hd hz hf
    have hc : isDigit c = true := hd c (by simp)
    rw [decimalVal_append_singleton] at hf ⊢
    cases fuel with
    | zero => omega
    | succ f =>
      unfold natDigitsAux
      by_cases hys : ys = []
      · subst hys
        have : decimalVal [] = 0 := rfl
        simp only [this, Nat.zero_mul, Nat.zero_add, digitVal_lt c hc, if_true,
          digitChar_digitVal c hc, List.nil_append, List.singleton_append]
      · have hys' : ∀ c ∈ ys, isDigit c = true := fun x hx => hd x (by simp [hx])
        obtain ⟨y, r, rfl⟩ := List.exists_cons_of_ne_nil hys
        have hy0 : y ≠ '0' := by
          rcases hz with hz | hz
          · simp at hz
          · intro h; apply hz; simp [h]
        have hpos := decimalVal_pos y r (hys' y (by simp)) hy0
        have hlt := digitVal_lt c hc
        have h10 : ¬ decimalVal (y :: r) * 10 + digitVal c < 10 := by omega
        simp only [h10, if_false]
        have hdiv : (decimalVal (y :: r) * 10 + digitVal c) / 10 = decimalVal (y :: r) := by omega
        have hmod : (decimalVal (y :: r) * 10 + digitVal c) % 10 = digitVal c := by omega
        rw [hdiv, hmod, digitChar_digitVal c hc]
        rw [ih f (c :: acc) (by simp) hys' (Or.inr (by simp [hy0])) (by omega)]
        simp

theorem formatNat_decimalVal (xs : Str) (h : xs ≠ []) (hd : ∀ c ∈ xs, isDigit c = true)
    (hz : noLeadingZero xs) : formatNat (decimalVal xs) = xs := by
  unfold formatNat
  rw [natDigitsAux_decimalVal xs _ [] h hd _ (Nat.lt_succ_self _)]
  · simp
  · rcases hz with hz | hz
    · left; rw [hz]; rfl
    · right; exact hz

theorem isDigit_dot : isDigit '.' = false := by decide
theorem isDigit_dash : isDigit '-' = false := by decide
theorem isDigit_v : isDigit 'v' = false := by decide

theorem takeWhile_digits (ds rest : Str) (c : Char) (hd : ∀ x ∈ ds, isDigit x = true)
    (hc : isDigit c = false) : (ds ++ c :: rest).takeWhile isDigit = ds := by
  rw [List.takeWhile_append_of_pos hd, List.takeWhile_cons_of_neg (by simp [hc])]
  simp

theorem dropWhile_digits (ds rest : Str) (c : Char) (hd : ∀ x ∈ ds, isDigit x = true)
    (hc : isDigit c = false) : (ds ++ c :: rest).dropWhile isDigit = c :: rest := by
  rw [List.dropWhile_append_of_pos hd, List.dropWhile_cons_of_neg (by simp [hc])]

theorem takeWhile_digits_end (ds : Str) (hd : ∀ x ∈ ds, isDigit x = true) :
    ds.takeWhile isDigit = ds := by
  rw [List.takeWhile_eq_self_iff]; exact hd

theorem dropWhile_digits_end (ds : Str) (hd : ∀ x ∈ ds, isDigit x = true) :
    ds.dropWhile isDigit = [] := by
  rw [List.dropWhile_eq_nil_iff]; exact hd

/-- What the suffix group returns on `-LABEL.BUILD`. -/
theorem semverSuffix_label (m1 m2 m3 m4 l b : Str) (hl : isLabel l) (hb : isNumeral b) :
    semverSuffix m1 m2 m3 m4 ('-' :: l ++ '.' :: b) =
      if b.length = 1 then some ⟨m1, m2, m3, m4, '-' :: l ++ '.' :: b, l, b⟩ else none := by
  obtain ⟨hb0, hbd⟩ := hb
  obtain ⟨hl0, hls⟩ := hl
  have hrev : ('-' :: l ++ '.' :: b) = '-' :: (l ++ '.' :: b) := rfl
  rw [hrev]
  unfold semverSuffix
  simp only
  induction b using List.reverseRecOn with
  | nil => exact absurd rfl hb0
  | append_singleton b' d _ =>
    have hd : isDigit d = true := hbd d (by simp)
    induction b' using List.reverseRecOn with
    | nil =>
      have e : (l ++ '.' :: ([] ++ [d])).reverse = d :: '.' :: l.reverse := by simp
      rw [e]
      simp only [hd, ne_eq, List.reverse_eq_nil_iff, hl0, not_false_eq_true, List.all_reverse,
        true_and, List.reverse_reverse, List.nil_append, List.length_singleton, if_true]
      have : l.all (fun c => !isSpace c) = true := by
        rw [List.all_eq_true]; intro c hc; simp [hls c hc]
      simp [this]
    | append_singleton b'' d' _ =>
      have hd' : isDigit d' = true := hbd d' (by simp)
      have e : (l ++ '.' :: (b'' ++ [d'] ++ [d])).reverse = d :: d' :: (l ++ '.' :: b'').reverse := by
        simp
      rw [e]
      have hne : d' ≠ '.' := by
        intro h; rw [h] at hd'; exact absurd hd' (by decide)
      have hlen : (b'' ++ [d'] ++ [d]).length ≠ 1 := by simp
      simp only [hlen, if_false]
      split
      · rename_i heq
        simp only [List.cons.injEq] at heq
        exact absurd heq.2.1 hne
      · rfl

theorem semverNumbers_versionText (pfx maj min pat : Str) (suffix : Option (Str × Str))
    (h2 : isNumeral maj) (h3 : isNumeral min) (h4 : isNumeral pat)
    (hs : ∀ l b, suffix = some (l, b) → isLabel l ∧ isNumeral b) :
    semverNumbers pfx (versionText [] maj min pat suffix) =
      match suffix with
      | none => some ⟨pfx, maj, min, pat, [], [], []⟩
      | some (l, b) =>
        if b.length = 1 then some ⟨pfx, maj, min, pat, '-' :: l ++ '.' :: b, l, b⟩ else none := by
  obtain ⟨h2n, h2d⟩ := h2
  obtain ⟨h3n, h3d⟩ := h3
  obtain ⟨h4n, h4d⟩ := h4
  unfold semverNumbers versionText
  simp only [List.nil_append, List.append_assoc, List.cons_append]
  rw [takeWhile_digits maj _ '.' h2d isDigit_dot, dropWhile_digits maj _ '.' h2d isDigit_dot]
  obtain ⟨c2, r2, rfl⟩ := List.exists_cons_of_ne_nil h2n
  simp only
  rw [takeWhile_digits min _ '.' h3d isDigit_dot, dropWhile_digits min _ '.' h3d isDigit_dot]
  obtain ⟨c3, r3, rfl⟩ := List.exists_cons_of_ne_nil h3n
  simp only
  cases suffix with
  | none =>
    simp only [List.append_nil]
    rw [takeWhile_digits_end pat h4d, dropWhile_digits_end pat h4d]
    obtain ⟨c4, r4, rfl⟩ := List.exists_cons_of_ne_nil h4n
    simp [semverSuffix]
  | some lb =>
    obtain ⟨l, b⟩ := lb
    simp only
    rw [takeWhile_digits pat _ '-' h4d isDigit_dash, dropWhile_digits pat _ '-' h4d isDigit_dash]
    obtain ⟨c4, r4, rfl⟩ := List.exists_cons_of_ne_nil h4n
    simp only
    have := semverSuffix_label pfx (c2 :: r2) (c3 :: r3) (c4 :: r4) l b (hs l b rfl).1 (hs l b rfl).2
    simpa using this

theorem semverRegexp_versionText (pfx maj min pat : Str) (suffix : Option (Str × Str))
    (hp : pfx = [] ∨ pfx = ['v'])
    (h2 : isNumeral maj) (h3 : isNumeral min) (h4 : isNumeral pat)
    (hs : ∀ l b, suffix = some (l, b) → isLabel l ∧ isNumeral b) :
    semverRegexp (versionText pfx maj min pat suffix) =
      match suffix with
      | none => some ⟨pfx, maj, min, pat, [], [], []⟩
      | some (l, b) =>
        if b.length = 1 then some ⟨pfx, maj, min, pat, '-' :: l ++ '.' :: b, l, b⟩ else none := by
  rw [← semverNumbers_versionText pfx maj min pat suffix h2 h3 h4 hs]
  rcases hp with rfl | rfl
  · obtain ⟨c2, r2, rfl⟩ := List.exists_cons_of_ne_nil h2.1
    have hc : isDigit c2 = true := h2.2 c2 (by simp)
    have hv : c2 ≠ 'v' := by
      intro h; rw [h] at hc; exact absurd hc (by decide)
    unfold semverRegexp
    simp only [versionText, List.nil_append, List.cons_append]
    split
    · rename_i heq
      simp only [List.cons.injEq] at heq
      exact absurd heq.1 hv
    · rfl
  · unfold semverRegexp
    simp only [versionText, List.nil_append, List.cons_append, List.append_assoc]

theorem semverSuffix_sound (m1 m2 m3 m4 rest : Str) (m : SemverMatch)
    (h : semverSuffix m1 m2 m3 m4 rest = some m) :
    m.m1 = m1 ∧ m.m2 = m2 ∧ m.m3 = m3 ∧ m.m4 = m4 ∧ m.m5 = rest ∧
    ((rest = [] ∧ m.m6 = [] ∧ m.m7 = []) ∨
     (isLabel m.m6 ∧ (∃ d, m.m7 = [d] ∧ isDigit d = true) ∧ rest = '-' :: m.m6 ++ '.' :: m.m7)) := by
  unfold semverSuffix at h
  split at h
  · simp only [Option.some.injEq] at h
    subst h
    simp
  · rename_i r
    split at h
    · rename_i d lr hrev
      split_ifs at h with hc
      · simp only [Option.some.injEq] at h
        subst h
        refine ⟨rfl, rfl, rfl, rfl, rfl, Or.inr ⟨⟨?_, ?_⟩, ⟨d, rfl, hc.1⟩, ?_⟩⟩
        · simpa using hc.2.1
        · intro c hc'
          have := hc.2.2
          rw [List.all_eq_true] at this
          have := this c (by simpa using hc')
          simpa using this
        · have : r = (d :: '.' :: lr).reverse := by rw [← hrev, List.reverse_reverse]
          rw [this]; simp
    · cases h
  · cases h

theorem semverNumbers_sound (m1 s : Str) (m : SemverMatch)
    (h : semverNumbers m1 s = some m) :
    m.m1 = m1 ∧ isNumeral m.m2 ∧ isNumeral m.m3 ∧ isNumeral m.m4 ∧
    ((m.m5 = [] ∧ m.m6 = [] ∧ m.m7 = [] ∧ s = versionText [] m.m2 m.m3 m.m4 none) ∨
     (m.m5 ≠ [] ∧ isLabel m.m6 ∧ (∃ d, m.m7 = [d] ∧ isDigit d = true) ∧
       s = versionText [] m.m2 m.m3 m.m4 (some (m.m6, m.m7)))) := by
  unfold semverNumbers at h
  simp only at h
  split at h
  · rename_i c2 r2 s3 e2 d2
    split at h
    · rename_i c3 r3 s4 e3 d3
      split at h
      · rename_i c4 r4 e4
        obtain ⟨h1, h2, h3, h4, h5, h6⟩ := semverSuffix_sound _ _ _ _ _ _ h
        have hs : s = m.m2 ++ '.' :: (m.m3 ++ '.' :: (m.m4 ++ m.m5)) := by
          rw [h2, h3, h4, h5]
          conv_lhs => rw [← List.takeWhile_append_dropWhile isDigit s, d2,
            ← List.takeWhile_append_dropWhile isDigit s3, d3,
            ← List.takeWhile_append_dropWhile isDigit s4]
        have n2 : isNumeral m.m2 := by
          rw [h2]; exact ⟨by rw [e2]; simp, fun c hc => List.mem_takeWhile_imp hc⟩
        have n3 : isNumeral m.m3 := by
          rw [h3]; exact ⟨by rw [e3]; simp, fun c hc => List.mem_takeWhile_imp hc⟩
        have n4 : isNumeral m.m4 := by
          rw [h4]; exact ⟨by rw [e4]; simp, fun c hc => List.mem_takeWhile_imp hc⟩
        refine ⟨h1, n2, n3, n4, ?_⟩
        rcases h6 with ⟨hr, h6, h7⟩ | ⟨hl, hd, hr⟩
        · left
          refine ⟨by rw [h5, hr], h6, h7, ?_⟩
          rw [hs, h5, hr]; simp [versionText]
        · right
          refine ⟨by rw [h5, hr]; simp, hl, hd, ?_⟩
          rw [hs, h5, hr]; simp [versionText]
      · cases h
    · cases h
  · cases h

theorem semverRegexp_sound (s : Str) (m : SemverMatch) (h : semverRegexp s = some m) :
    (m.m1 = [] ∨ m.m1 = ['v']) ∧ isNumeral m.m2 ∧ isNumeral m.m3 ∧ isNumeral m.m4 ∧
    ((m.m5 = [] ∧ m.m6 = [] ∧ m.m7 = [] ∧ s = versionText m.m1 m.m2 m.m3 m.m4 none) ∨
     (m.m5 ≠ [] ∧ isLabel m.m6 ∧ (∃ d, m.m7 = [d] ∧ isDigit d = true) ∧
       s = versionText m.m1 m.m2 m.m3 m.m4 (some (m.m6, m.m7)))) := by
  unfold semverRegexp at h
  split at h
  · rename_i r
    obtain ⟨h1, n2, n3, n4, hs⟩ := semverNumbers_sound _ _ _ h
    refine ⟨Or.inr h1, n2, n3, n4, ?_⟩
    rcases hs with ⟨a, b, c, d⟩ | ⟨a, b, c, d⟩
    · left; refine ⟨a, b, c, ?_⟩; rw [h1, d]; simp [versionText]
    · right; refine ⟨a, b, c, ?_⟩; rw [h1, d]; simp [versionText]
  · obtain ⟨h1, n2, n3, n4, hs⟩ := semverNumbers_sound _ _ _ h
    refine ⟨Or.inl h1, n2, n3, n4, ?_⟩
    rcases hs with ⟨a, b, c, d⟩ | ⟨a, b, c, d⟩
    · left; refine ⟨a, b, c, ?_⟩; rw [h1, d]
    · right; refine ⟨a, b, c, ?_⟩; rw [h1, d]

theorem parseDigits_numeral (ds : Str) (h : isNumeral ds) :
    parseDigits ds = some (decimalVal ds) := by
  unfold parseDigits
  have : ds.all isDigit = true := by rw [List.all_eq_true]; exact h.2
  simp [h.1, this]

theorem Atoi_numeral (ds : Str) (h : isNumeral ds) :
    Atoi ds = if (decimalVal ds : Int) ≤ maxInt then some (decimalVal ds : Int) else none := by
  obtain ⟨c, r, rfl⟩ := List.exists_cons_of_ne_nil h.1
  have hc : isDigit c = true := h.2 c (by simp)
  have hm : c ≠ '-' := by intro e; rw [e] at hc; exact absurd hc (by decide)
  have hp : c ≠ '+' := by intro e; rw [e] at hc; exact absurd hc (by decide)
  unfold Atoi
  split
  · rename_i heq; simp only [List.cons.injEq] at heq; exact absurd heq.1 hm
  · rename_i heq; simp only [List.cons.injEq] at heq; exact absurd heq.1 hp
  · rw [parseDigits_numeral _ h]

theorem Atoi_fits (ds : Str) (h : fitsInt ds) : Atoi ds = some (decimalVal ds : Int) := by
  rw [Atoi_numeral ds h.1, if_pos h.2]

theorem Atoi_some_fits (ds : Str) (x : Int) (h : isNumeral ds) (ha : Atoi ds = some x) :
    fitsInt ds ∧ x = (decimalVal ds : Int) := by
  rw [Atoi_numeral ds h] at ha
  split_ifs at ha with hle
  simp only [Option.some.injEq] at ha
  exact ⟨⟨h, hle⟩, ha.symm⟩

theorem isSingleDigit_fits (b : Str) (h : isSingleDigit b) : fitsInt b := by
  obtain ⟨d, rfl, hd⟩ := h
  refine ⟨⟨by simp, by simpa using hd⟩, ?_⟩
  have := digitVal_lt d hd
  have e : decimalVal [d] = digitVal d := by simp [decimalVal]
  rw [e]; unfold maxInt; omega

/-- `New` on a string that `semverRegexp` matches. -/
theorem New_of_match (s : Str) (m : SemverMatch) (h : semverRegexp s = some m)
    (h2 : fitsInt m.m2) (h3 : fitsInt m.m3) (h4 : fitsInt m.m4) (h7 : m.m5 ≠ [] → fitsInt m.m7) :
    New s = .ok ⟨m.m1, decimalVal m.m2, decimalVal m.m3, decimalVal m.m4,
      if m.m5 ≠ [] then m.m6 else [], if m.m5 ≠ [] then (decimalVal m.m7 : Int) else 0⟩ := by
  unfold New
  simp only [h, Atoi_fits _ h2, Atoi_fits _ h3, Atoi_fits _ h4]
  by_cases h5 : m.m5 = []
  · simp [h5]
  · have : m.m5.length ≠ 0 := by simpa using h5
    simp only [this, ne_eq, not_false_eq_true, if_true, Atoi_fits _ (h7 h5), h5]

theorem New_ok_match (s : Str) (v : Version) (h : New s = .ok v) :
    ∃ m, semverRegexp s = some m ∧ fitsInt m.m2 ∧ fitsInt m.m3 ∧ fitsInt m.m4 ∧
      v = ⟨m.m1, decimalVal m.m2, decimalVal m.m3, decimalVal m.m4,
        if m.m5 ≠ [] then m.m6 else [], if m.m5 ≠ [] then (decimalVal m.m7 : Int) else 0⟩ := by
  unfold New at h
  split at h
  · cases h
  · rename_i m hm
    obtain ⟨_, n2, n3, n4, hs⟩ := semverRegexp_sound s m hm
    refine ⟨m, hm, ?_⟩
    split at h
    · cases h
    · rename_i major e2
      obtain ⟨f2, rfl⟩ := Atoi_some_fits _ _ n2 e2
      split at h
      · cases h
      · rename_i minor e3
        obtain ⟨f3, rfl⟩ := Atoi_some_fits _ _ n3 e3
        split at h
        · cases h
        · rename_i patch e4
          obtain ⟨f4, rfl⟩ := Atoi_some_fits _ _ n4 e4
          refine ⟨f2, f3, f4, ?_⟩
          split_ifs at h with h5
          · have h5' : m.m5 ≠ [] := by simpa using h5
            split at h
            · cases h
            · rename_i build e7
              rcases hs with ⟨a, _⟩ | ⟨_, _, ⟨d, hd, hdd⟩, _⟩
              · exact absurd a h5'
              · obtain ⟨_, rfl⟩ := Atoi_some_fits _ _ (isSingleDigit_fits _ ⟨d, hd, hdd⟩).1 e7
                simp only [Except.ok.injEq] at h
                simp [h5', ← h]
          · have h5' : m.m5 = [] := by simpa using h5
            simp only [Except.ok.injEq] at h
            simp [h5', ← h]

theorem formatInt_natCast (n : Nat) : formatInt (n : Int) = formatNat n := by
  unfold formatInt
  have : ¬ ((n : Int) < 0) := by omega
  simp [this]

theorem formatInt_nonneg (x : Int) (h : 0 ≤ x) : formatInt x = formatNat x.toNat := by
  obtain ⟨n, rfl⟩ := Int.eq_ofNat_of_zero_le h
  rw [formatInt_natCast]; simp

theorem noLeadingZero_single (d : Char) : noLeadingZero [d] := by
  by_cases h : d = '0'
  · left; rw [h]
  · right; simp [h]

theorem formatNat_small (n : Nat) (h : n < 10) : formatNat n = [digitChar n] := by
  unfold formatNat natDigitsAux
  simp [h]

theorem String_eq_versionText (v : Version) (hM : 0 ≤ v.Major) (hm : 0 ≤ v.Minor)
    (hp : 0 ≤ v.Patch) (hb : 0 ≤ v.Build) :
    v.String = versionText v.Prefix (formatNat v.Major.toNat) (formatNat v.Minor.toNat)
      (formatNat v.Patch.toNat)
      (if v.PreRelease = [] then none else some (v.PreRelease, formatNat v.Build.toNat)) := by
  unfold Version.String versionText
  simp only [formatInt_nonneg _ hM, formatInt_nonneg _ hm, formatInt_nonneg _ hp,
    formatInt_nonneg _ hb]
  by_cases h : v.PreRelease = []
  · simp [h]
  · have : v.PreRelease.length ≠ 0 := by simpa using h
    simp [h]

theorem fitsInt_formatNat (x : Int) (h0 : 0 ≤ x) (h1 : x ≤ maxInt) :
    fitsInt (formatNat x.toNat) ∧ (decimalVal (formatNat x.toNat) : Int) = x := by
  have e : (decimalVal (formatNat x.toNat) : Int) = x := by
    rw [decimalVal_formatNat]; omega
  exact ⟨⟨formatNat_digits _, by rw [e]; exact h1⟩, e⟩

/-- Round trip `New (String v)` for builds of one digit. -/
theorem New_String_small_build (v : Version) (hpfx : v.Prefix = [] ∨ v.Prefix = ['v'])
    (hM : 0 ≤ v.Major ∧ v.Major ≤ maxInt) (hm : 0 ≤ v.Minor ∧ v.Minor ≤ maxInt)
    (hp : 0 ≤ v.Patch ∧ v.Patch ≤ maxInt)
    (hs : (v.PreRelease = [] ∧ v.Build = 0) ∨
      (isLabel v.PreRelease ∧ 0 ≤ v.Build ∧ v.Build ≤ 9)) :
    New v.String = .ok v := by
  obtain ⟨pfx, M, mi, pa, pre, b⟩ := v
  simp only at hpfx hM hm hp hs
  have hb0 : 0 ≤ b := by rcases hs with ⟨_, h⟩ | ⟨_, h, _⟩ <;> omega
  obtain ⟨fM, eM⟩ := fitsInt_formatNat M hM.1 hM.2
  obtain ⟨fm, em⟩ := fitsInt_formatNat mi hm.1 hm.2
  obtain ⟨fp, ep⟩ := fitsInt_formatNat pa hp.1 hp.2
  rw [String_eq_versionText _ hM.1 hm.1 hp.1 hb0]
  simp only
  rcases hs with ⟨rfl, rfl⟩ | ⟨hl, _, hb9⟩
  · have hmt := semverRegexp_versionText pfx (formatNat M.toNat) (formatNat mi.toNat)
      (formatNat pa.toNat) none hpfx fM.1 fm.1 fp.1 (by simp)
    simp only at hmt
    simp only [if_true]
    rw [New_of_match _ _ hmt fM fm fp (by simp)]
    simp [eM, em, ep]
  · have hne : pre ≠ [] := hl.1
    have hbl : b.toNat < 10 := by omega
    obtain ⟨fb, eb⟩ := fitsInt_formatNat b hb0 (by unfold maxInt; omega)
    have hmt := semverRegexp_versionText pfx (formatNat M.toNat) (formatNat mi.toNat)
      (formatNat pa.toNat) (some (pre, formatNat b.toNat)) hpfx fM.1 fm.1 fp.1
      (by
        intro l b' e
        simp only [Option.some.injEq, Prod.mk.injEq] at e
        obtain ⟨rfl, rfl⟩ := e
        exact ⟨hl, fb.1⟩)
    have hlen : (formatNat b.toNat).length = 1 := by rw [formatNat_small _ hbl]; rfl
    simp only [hlen, if_true] at hmt
    simp only [hne, if_false]
    rw [New_of_match _ _ hmt fM fm fp (fun _ => fb)]
    simp [eM, em, ep, eb]

theorem natDigitsAux_length (fuel n : Nat) (acc : Str) (h : n < fuel) (h10 : 10 ≤ n) :
    acc.length + 2 ≤ (natDigitsAux fuel n acc).length := by
  have base : ∀ (f k : Nat) (a : Str), k < f → a.length + 1 ≤ (natDigitsAux f k a).length := by
    intro f
    induction f with
    | zero => intro k a hk; omega
    | succ f ih =>
      intro k a hk
      unfold natDigitsAux
      split_ifs with hlt
      · simp
      · have := ih (k / 10) (digitChar (k % 10) :: a) (by omega)
        simp only [List.length_cons] at this
        omega
  cases fuel with
  | zero => omega
  | succ f =>
    unfold natDigitsAux
    have : ¬ n < 10 := by omega
    simp only [this, if_false]
    have := base f (n / 10) (digitChar (n % 10) :: acc) (by omega)
    simp only [List.length_cons] at this
    omega

/-- `New` rejects the text of every pre-release version whose build has two digits or more. -/
theorem New_String_large_build (v : Version) (hpfx : v.Prefix = [] ∨ v.Prefix = ['v'])
    (hM : 0 ≤ v.Major) (hm : 0 ≤ v.Minor) (hp : 0 ≤ v.Patch)
    (hl : isLabel v.PreRelease) (hb : 10 ≤ v.Build) :
    New v.String = .error .ErrInvalidVersion := by
  obtain ⟨pfx, M, mi, pa, pre, b⟩ := v
  simp only at hpfx hM hm hp hl hb
  rw [String_eq_versionText _ hM hm hp (by simp only; omega)]
  simp only [hl.1, if_false]
  have hmt := semverRegexp_versionText pfx (formatNat M.toNat) (formatNat mi.toNat)
    (formatNat pa.toNat) (some (pre, formatNat b.toNat)) hpfx (formatNat_digits _)
    (formatNat_digits _) (formatNat_digits _)
    (by
      intro l b' e
      simp only [Option.some.injEq, Prod.mk.injEq] at e
      obtain ⟨rfl, rfl⟩ := e
      exact ⟨hl, formatNat_digits _⟩)
  have hlen : (formatNat b.toNat).length ≠ 1 := by
    have := natDigitsAux_length (b.toNat + 1) b.toNat [] (Nat.lt_succ_self _) (by omega)
    unfold formatNat
    simp only [List.length_nil] at this
    omega
  simp only [hlen, if_false] at hmt
  unfold New
  rw [hmt]

/-! ## Claims on `New` and `String` -/

/-- Claim C1, as amended.  `New s` succeeds whenever `s` is `[v]MAJOR.MINOR.PATCH[-LABEL.BUILD]`
with MAJOR, MINOR, PATCH decimal numerals whose value fits in `int`, LABEL a non-empty token
free of `\t \n \f \r` and space, and BUILD one decimal digit (`0` included); whenever `New s`
succeeds, `s` has this shape with BUILD a decimal numeral; every error of `New` is
`ErrInvalidVersion`.  Texts whose BUILD has two digits or more are left aside. -/
theorem New_accepts_shape (s : Str) :
    (VersionShape fitsInt isSingleDigit s → ∃ v, New s = .ok v) ∧
    ((∃ v, New s = .ok v) → VersionShape fitsInt isNumeral s) ∧
    (∀ e, New s = .error e → e.isErrInvalidVersion = true) := by
  refine ⟨?_, ?_, ?_⟩
  · rintro ⟨pfx, maj, min, pat, suffix, hp, h2, h3, h4, hs, rfl⟩
    have hm := semverRegexp_versionText pfx maj min pat suffix hp h2.1 h3.1 h4.1
      (fun l b e => ⟨(hs l b e).1, (isSingleDigit_fits b (hs l b e).2).1⟩)
    cases suffix with
    | none =>
      simp only at hm
      exact ⟨_, New_of_match _ _ hm h2 h3 h4 (by simp)⟩
    | some lb =>
      obtain ⟨l, b⟩ := lb
      have hb := (hs l b rfl).2
      have hlen : b.length = 1 := by obtain ⟨d, rfl, _⟩ := hb; rfl
      simp only [hlen, if_true] at hm
      exact ⟨_, New_of_match _ _ hm h2 h3 h4 (fun _ => isSingleDigit_fits b hb)⟩
  · rintro ⟨v, hv⟩
    obtain ⟨m, hm, f2, f3, f4, _⟩ := New_ok_match s v hv
    obtain ⟨h1, _, _, _, hs⟩ := semverRegexp_sound s m hm
    rcases hs with ⟨_, _, _, e⟩ | ⟨_, hl, hd, e⟩
    · exact ⟨m.m1, m.m2, m.m3, m.m4, none, h1, f2, f3, f4, by simp, e⟩
    · refine ⟨m.m1, m.m2, m.m3, m.m4, some (m.m6, m.m7), h1, f2, f3, f4, ?_, e⟩
      intro l b hlb
      simp only [Option.some.injEq, Prod.mk.injEq] at hlb
      obtain ⟨rfl, rfl⟩ := hlb
      exact ⟨hl, (isSingleDigit_fits _ hd).1⟩
  · intro e _
    cases e <;> rfl

/-- The text `v1.2.3-alpha.4` has the accepted shape, and `New` accepts it. -/
theorem New_accepts_shape_witness :
    VersionShape fitsInt isSingleDigit "v1.2.3-alpha.4".toList ∧
    ∃ v, New "v1.2.3-alpha.4".toList = .ok v :=
  have hs : VersionShape fitsInt isSingleDigit "v1.2.3-alpha.4".toList :=
    ⟨['v'], ['1'], ['2'], ['3'], some ("alpha".toList, ['4']), Or.inr rfl,
      ⟨⟨by decide, by decide⟩, by decide⟩, ⟨⟨by decide, by decide⟩, by decide⟩,
      ⟨⟨by decide, by decide⟩, by decide⟩,
      fun l b e => by
        simp only [Option.some.injEq, Prod.mk.injEq] at e
        obtain ⟨rfl, rfl⟩ := e
        exact ⟨⟨by decide, by decide⟩, ⟨'4', rfl, by decide⟩⟩,
      rfl⟩
  ⟨hs, (New_accepts_shape "v1.2.3-alpha.4".toList).1 hs⟩

/-- Claim C1 as stated fails in both directions.  `9223372036854775808.0.0` has the stated
shape (MAJOR is a non-negative decimal integer) and `New` rejects it, `strconv.Atoi` reporting
a range error; `1.2.3-a.0` is accepted although its BUILD is not positive. -/
theorem New_claimed_shape_counterexample :
    (VersionShape isNumeral isPositiveNumeral "9223372036854775808.0.0".toList ∧
      New "9223372036854775808.0.0".toList = .error .parseMajor) ∧
    (New "1.2.3-a.0".toList = .ok ⟨[], 1, 2, 3, ['a'], 0⟩ ∧
      ¬ VersionShape isNumeral isPositiveNumeral "1.2.3-a.0".toList) := by
  refine ⟨⟨?_, by rfl⟩, by rfl, ?_⟩
  · exact ⟨[], "9223372036854775808".toList, ['0'], ['0'], none, Or.inl rfl,
      ⟨by decide, by decide⟩, ⟨by decide, by decide⟩, ⟨by decide, by decide⟩,
      (fun l b e => by cases e), rfl⟩
  · rintro ⟨pfx, maj, min, pat, suffix, hp, h2, h3, h4, hs, e⟩
    have hm := semverRegexp_versionText pfx maj min pat suffix hp h2 h3 h4
      (fun l b e => ⟨(hs l b e).1, (hs l b e).2.1⟩)
    rw [← e] at hm
    have hc : semverRegexp "1.2.3-a.0".toList =
        some ⟨[], ['1'], ['2'], ['3'], "-a.0".toList, ['a'], ['0']⟩ := by rfl
    rw [hc] at hm
    cases suffix with
    | none =>
      simp only [Option.some.injEq, SemverMatch.mk.injEq] at hm
      exact absurd hm.2.2.2.2.1 (by decide)
    | some lb =>
      obtain ⟨l, b⟩ := lb
      simp only at hm
      split_ifs at hm
      simp only [Option.some.injEq, SemverMatch.mk.injEq] at hm
      have hb := (hs l b rfl).2.2
      rw [← hm.2.2.2.2.2.2] at hb
      exact absurd hb (by decide)

/-- Claim C2 at the failing input.  The version `v1.2.3-alpha.10` is well formed (it is
`Next` of the parsed `v1.2.3-alpha.9`), `String` renders it as `v1.2.3-alpha.10`, and `New`
rejects that text: the pattern reads a BUILD of one digit only. -/
theorem New_String_build_ten :
    New "v1.2.3-alpha.9".toList = .ok ⟨['v'], 1, 2, 3, "alpha".toList, 9⟩ ∧
    (⟨['v'], 1, 2, 3, "alpha".toList, 9⟩ : Version).Next ChangeTypeNone ["alpha".toList] =
      ⟨['v'], 1, 2, 3, "alpha".toList, 10⟩ ∧
    (⟨['v'], 1, 2, 3, "alpha".toList, 10⟩ : Version).String = "v1.2.3-alpha.10".toList ∧
    New (⟨['v'], 1, 2, 3, "alpha".toList, 10⟩ : Version).String = .error .ErrInvalidVersion := by
  refine ⟨by rfl, by rfl, by rfl, by rfl⟩

/-- Claim C3.  For every string `s` that `New` accepts, with submatches `m`, whose MAJOR, MINOR
and PATCH are written without superfluous leading zeros, `String` of the parsed version is `s`
again (BUILD is one digit, so it has no leading zero to lose). -/
theorem String_New_roundtrip (s : Str) (v : Version) (m : SemverMatch) (hv : New s = .ok v)
    (hm : semverRegexp s = some m)
    (z2 : noLeadingZero m.m2) (z3 : noLeadingZero m.m3) (z4 : noLeadingZero m.m4) :
    v.String = s := by
  obtain ⟨m', hm', f2, f3, f4, rfl⟩ := New_ok_match s v hv
  rw [hm] at hm'
  simp only [Option.some.injEq] at hm'
  subst hm'
  obtain ⟨_, n2, n3, n4, hs⟩ := semverRegexp_sound s m hm
  unfold Version.String
  simp only [formatInt_natCast, formatNat_decimalVal _ n2.1 n2.2 z2,
    formatNat_decimalVal _ n3.1 n3.2 z3, formatNat_decimalVal _ n4.1 n4.2 z4]
  rcases hs with ⟨h5, _, _, e⟩ | ⟨h5, hl, ⟨d, hd, hdd⟩, e⟩
  · simp only [h5, ne_eq, not_true_eq_false, if_false, List.length_nil]
    rw [e]; simp [versionText]
  · have hl0 : m.m6.length ≠ 0 := by simpa using hl.1
    simp only [h5, ne_eq, not_false_eq_true, if_true, hl0, formatInt_natCast]
    have n7 : isNumeral m.m7 := (isSingleDigit_fits _ ⟨d, hd, hdd⟩).1
    rw [formatNat_decimalVal _ n7.1 n7.2 (by rw [hd]; exact noLeadingZero_single d)]
    rw [e]; simp [versionText]

/-- The round trip on `v10.0.21-rc.1.7`, whose label is `rc.1`. -/
theorem String_New_roundtrip_witness :
    New "v10.0.21-rc.1.7".toList = .ok ⟨['v'], 10, 0, 21, "rc.1".toList, 7⟩ ∧
    (⟨['v'], 10, 0, 21, "rc.1".toList, 7⟩ : Version).String = "v10.0.21-rc.1.7".toList :=
  ⟨by rfl,
    String_New_roundtrip "v10.0.21-rc.1.7".toList ⟨['v'], 10, 0, 21, "rc.1".toList, 7⟩
      ⟨['v'], "10".toList, ['0'], "21".toList, "-rc.1.7".toList, "rc.1".toList, ['7']⟩
      (by rfl) (by rfl) (Or.inr (by decide)) (Or.inl rfl) (Or.inr (by decide))⟩

/-! ## Claims on the bump state machine -/

/-- Claim C4.  For a version without pre-release (`PreRelease` empty, `Build` 0) and an absent
or empty label argument, `Next` by Major gives `(Major+1, 0, 0)`, by Minor
`(Major, Minor+1, 0)`, by Patch `(Major, Minor, Patch+1)`, by None the numbers unchanged; the
result has no pre-release suffix and the same `Prefix`.  The sum `+1` is the `++` of `int`,
written `wrapInt (x + 1)`, the exact successor below `maxInt` (`wrapInt_succ`). -/
theorem Next_without_label (v : Version) (pre : List Str) (hp : v.PreRelease = [])
    (hb : v.Build = 0) (hpre : pre.headD [] = []) :
    v.Next ChangeTypeMajor pre = ⟨v.Prefix, wrapInt (v.Major + 1), 0, 0, [], 0⟩ ∧
    v.Next ChangeTypeMinor pre = ⟨v.Prefix, v.Major, wrapInt (v.Minor + 1), 0, [], 0⟩ ∧
    v.Next ChangeTypePatch pre = ⟨v.Prefix, v.Major, v.Minor, wrapInt (v.Patch + 1), [], 0⟩ ∧
    v.Next ChangeTypeNone pre = ⟨v.Prefix, v.Major, v.Minor, v.Patch, [], 0⟩ := by
  obtain ⟨p, ma, mi, pa, pr, b⟩ := v
  simp only at hp hb
  subst hp hb
  simp [Next_of_empty_label _ _ _ hpre, Version.Bump, Version.IsPreRelease, Version.bumpSwitch,
    Version.BumpMajor, Version.BumpMinor, Version.BumpPatch]

/-- The bumps of `v1.2.3`, as in `TestVersion_Next`. -/
theorem Next_without_label_witness :
    (⟨['v'], 1, 2, 3, [], 0⟩ : Version).Next ChangeTypeMajor [[]] = ⟨['v'], 2, 0, 0, [], 0⟩ ∧
    (⟨['v'], 1, 2, 3, [], 0⟩ : Version).Next ChangeTypeMinor [[]] = ⟨['v'], 1, 3, 0, [], 0⟩ ∧
    (⟨['v'], 1, 2, 3, [], 0⟩ : Version).Next ChangeTypePatch [[]] = ⟨['v'], 1, 2, 4, [], 0⟩ ∧
    (⟨['v'], 1, 2, 3, [], 0⟩ : Version).Next ChangeTypeNone [[]] = ⟨['v'], 1, 2, 3, [], 0⟩ :=
  Next_without_label ⟨['v'], 1, 2, 3, [], 0⟩ [[]] rfl rfl rfl

/-- Claim C5.  For a non-empty label `L`: if `v.PreRelease = L` and `t ≤ LatestChangeType v`,
`Next v t L` is `v` with only `Build` increased by one (the `++` of `int`); otherwise
`Next v t L` has the numbers of `Next v t ""`, the prefix of `v`, `PreRelease = L` and
`Build = 1`. -/
theorem Next_with_label (v : Version) (t : ChangeType) (L : Str) (tl : List Str) (hL : L ≠ []) :
    (v.PreRelease = L ∧ t ≤ v.LatestChangeType →
      v.Next t (L :: tl) = { v with Build := wrapInt (v.Build + 1) }) ∧
    (¬ (v.PreRelease = L ∧ t ≤ v.LatestChangeType) →
      (v.Next t (L :: tl)).Major = (v.Next t [[]]).Major ∧
      (v.Next t (L :: tl)).Minor = (v.Next t [[]]).Minor ∧
      (v.Next t (L :: tl)).Patch = (v.Next t [[]]).Patch ∧
      (v.Next t (L :: tl)).Prefix = v.Prefix ∧
      (v.Next t (L :: tl)).PreRelease = L ∧
      (v.Next t (L :: tl)).Build = 1) := by
  rw [Next_of_label v t L tl hL, Next_of_empty_label v t [[]] rfl]
  constructor
  · intro h
    simp [Version.BumpPreRelease, h]
  · intro h
    simp only [Version.BumpPreRelease, if_neg h, and_self, true_and]
    exact ⟨Bump_Prefix v t, trivial⟩

/-- The build bump of `v1.2.3-alpha.1` by Patch with the same label, as in
`TestVersion_Next`. -/
theorem Next_with_label_witness :
    "alpha".toList ≠ [] ∧
    (⟨['v'], 1, 2, 3, "alpha".toList, 1⟩ : Version).Next ChangeTypePatch ["alpha".toList] =
      ⟨['v'], 1, 2, 3, "alpha".toList, 2⟩ :=
  ⟨by decide,
    (Next_with_label ⟨['v'], 1, 2, 3, "alpha".toList, 1⟩ ChangeTypePatch "alpha".toList []
      (by decide)).1 ⟨rfl, by decide⟩⟩

/-- Claim C6.  For a version that carries a pre-release and an absent or empty label argument,
`Next v t` has no pre-release suffix and the prefix of `v`; its numbers are those of `v` when
`t ≤ LatestChangeType v`, and otherwise it is `Next` of `v` without its suffix: the plain bump,
`(Major+1, 0, 0)` for Major and `(Major, Minor+1, 0)` for Minor (`+1` is the `++` of `int`). -/
theorem Next_drops_prerelease (v : Version) (t : ChangeType) (pre : List Str)
    (hv : v.PreRelease ≠ []) (hpre : pre.headD [] = []) :
    (v.Next t pre).PreRelease = [] ∧ (v.Next t pre).Build = 0 ∧
    (v.Next t pre).Prefix = v.Prefix ∧
    (t ≤ v.LatestChangeType →
      (v.Next t pre).Major = v.Major ∧ (v.Next t pre).Minor = v.Minor ∧
      (v.Next t pre).Patch = v.Patch) ∧
    (¬ t ≤ v.LatestChangeType →
      v.Next t pre = ({ v with PreRelease := [], Build := 0 } : Version).Next t pre ∧
      (t = ChangeTypeMajor →
        (v.Next t pre).Major = wrapInt (v.Major + 1) ∧ (v.Next t pre).Minor = 0 ∧
        (v.Next t pre).Patch = 0) ∧
      (t = ChangeTypeMinor →
        (v.Next t pre).Major = v.Major ∧ (v.Next t pre).Minor = wrapInt (v.Minor + 1) ∧
        (v.Next t pre).Patch = 0)) := by
  rw [Next_of_empty_label v t pre hpre, Next_of_empty_label _ t pre hpre]
  obtain ⟨p, ma, mi, pa, pr, b⟩ := v
  simp only at hv
  by_cases hle : t ≤ (Version.mk p ma mi pa pr b).LatestChangeType
  · simp [Version.Bump, Version.IsPreRelease, hv, hle]
  · simp only [Version.Bump, Version.IsPreRelease, hv, hle, ne_eq, not_false_eq_true,
      decide_True, if_true, if_false]
    unfold Version.LatestChangeType at hle
    simp only [ChangeType.le_def] at hle
    unfold Version.Revert Version.LatestChangeType
    simp only
    split_ifs at hle ⊢ with h1 h2 h3 <;> cases t <;>
      simp_all [ChangeType.toNat, Version.bumpSwitch, Version.BumpMajor, Version.BumpMinor,
        Version.BumpPatch]

/-- The major bump of `v1.2.3-alpha.2` without label, as in `TestVersion_Next`. -/
theorem Next_drops_prerelease_witness :
    "alpha".toList ≠ [] ∧
    (⟨['v'], 1, 2, 3, "alpha".toList, 2⟩ : Version).Next ChangeTypeMajor [[]] =
      ⟨['v'], 2, 0, 0, [], 0⟩ :=
  ⟨by decide,
    ((Next_drops_prerelease ⟨['v'], 1, 2, 3, "alpha".toList, 2⟩ ChangeTypeMajor [[]]
      (by decide) rfl).2.2.2.2 (by decide)).1.trans (by rfl)⟩

/-- Claim C7, as amended.  `LatestChangeType v` is Patch if `v.Patch ≠ 0`, else Minor if
`v.Minor ≠ 0`, else Major if `v.Major ≠ 0`, else None: the lowest non-zero component decides. -/
theorem LatestChangeType_lowest (v : Version) :
    (v.LatestChangeType = ChangeTypePatch ↔ v.Patch ≠ 0) ∧
    (v.LatestChangeType = ChangeTypeMinor ↔ v.Patch = 0 ∧ v.Minor ≠ 0) ∧
    (v.LatestChangeType = ChangeTypeMajor ↔ v.Patch = 0 ∧ v.Minor = 0 ∧ v.Major ≠ 0) ∧
    (v.LatestChangeType = ChangeTypeNone ↔ v.Patch = 0 ∧ v.Minor = 0 ∧ v.Major = 0) := by
  unfold Version.LatestChangeType
  split_ifs <;> simp_all

/-- Claim C7 as stated fails on `1.2.3`: its major is not zero, and `LatestChangeType` is
Patch, not Major. -/
theorem LatestChangeType_counterexample :
    (⟨[], 1, 2, 3, [], 0⟩ : Version).Major ≠ 0 ∧
    (⟨[], 1, 2, 3, [], 0⟩ : Version).LatestChangeType = ChangeTypePatch ∧
    (⟨[], 1, 2, 3, [], 0⟩ : Version).LatestChangeType ≠ ChangeTypeMajor := by
  decide

/-- Claim C8.  `IsGreater a b` is the lexicographic order on `(Major, Minor, Patch)`, and on
equal numbers it is `a.Build > b.Build` when the labels are equal and false otherwise; it is
irreflexive and never holds in both directions. -/
theorem IsGreater_lexicographic (a b : Version) :
    (a.IsGreater b = true ↔
      (a.Major > b.Major ∨ (a.Major = b.Major ∧ (a.Minor > b.Minor ∨ (a.Minor = b.Minor ∧
        (a.Patch > b.Patch ∨ (a.Patch = b.Patch ∧
          a.PreRelease = b.PreRelease ∧ a.Build > b.Build))))))) ∧
    a.IsGreater a = false ∧
    ¬ (a.IsGreater b = true ∧ b.IsGreater a = true) := by
  refine ⟨IsGreater_iff a b, ?_, ?_⟩
  · cases hh : a.IsGreater a
    · rfl
    · have := (IsGreater_iff a a).1 hh; omega
  · rintro ⟨h1, h2⟩
    have := (IsGreater_iff a b).1 h1
    have := (IsGreater_iff b a).1 h2
    omega

/-- Claim C9, as amended.  For a version that satisfies the pre-release invariant and whose
`Major`, `Minor`, `Patch` are non-negative and below `maxInt`, with `Build` below `maxInt`, the
result of `Next`, for every change type and every label argument, satisfies the pre-release
invariant and has non-negative `Major`, `Minor`, `Patch`. -/
theorem Next_preserves_invariant (v : Version) (t : ChangeType) (pre : List Str)
    (hinv : (v.PreRelease = [] ∧ v.Build = 0) ∨ (v.PreRelease ≠ [] ∧ 1 ≤ v.Build))
    (hM : 0 ≤ v.Major ∧ v.Major < maxInt) (hm : 0 ≤ v.Minor ∧ v.Minor < maxInt)
    (hp : 0 ≤ v.Patch ∧ v.Patch < maxInt) (hb : v.Build < maxInt) :
    (((v.Next t pre).PreRelease = [] ∧ (v.Next t pre).Build = 0) ∨
      ((v.Next t pre).PreRelease ≠ [] ∧ 1 ≤ (v.Next t pre).Build)) ∧
    0 ≤ (v.Next t pre).Major ∧ 0 ≤ (v.Next t pre).Minor ∧ 0 ≤ (v.Next t pre).Patch := by
  unfold Version.Next
  simp only
  obtain ⟨⟨i1, i2⟩, b1, b2, b3⟩ := Bump_invariant v t hinv hM hm hp
  split_ifs with hl
  · exact ⟨Or.inl ⟨i1, i2⟩, b1, b2, b3⟩
  · unfold Version.BumpPreRelease
    split_ifs with hc
    · simp only
      refine ⟨Or.inr ⟨?_, ?_⟩, hM.1, hm.1, hp.1⟩
      · rw [hc.1]; exact hl
      · have hne : v.PreRelease ≠ [] := by rw [hc.1]; exact hl
        have h1 : 1 ≤ v.Build := by
          rcases hinv with h | h
          · exact absurd h.1 hne
          · exact h.2
        rw [wrapInt_succ v.Build (by omega) hb]
        omega
    · simp only
      exact ⟨Or.inr ⟨hl, le_refl _⟩, b1, b2, b3⟩

/-- The invariant step on `v1.2.3-alpha.2`, bumped by Minor under the label `beta`. -/
theorem Next_preserves_invariant_witness :
    (("alpha".toList = [] ∧ (2 : Int) = 0) ∨ ("alpha".toList ≠ [] ∧ (1 : Int) ≤ 2)) ∧
    (((⟨['v'], 1, 2, 3, "alpha".toList, 2⟩ : Version).Next ChangeTypeMinor
        ["beta".toList]).PreRelease ≠ [] ∧
      1 ≤ ((⟨['v'], 1, 2, 3, "alpha".toList, 2⟩ : Version).Next ChangeTypeMinor
        ["beta".toList]).Build) :=
  ⟨Or.inr ⟨by decide, by decide⟩,
    ((Next_preserves_invariant ⟨['v'], 1, 2, 3, "alpha".toList, 2⟩ ChangeTypeMinor
      ["beta".toList] (Or.inr ⟨by decide, by decide⟩) (by decide) (by decide) (by decide)
      (by decide)).1).resolve_left (by decide)⟩

/-- Claim C9 as stated fails.  `9223372036854775807.0.0` is a version that `New` returns; its
major bump has `Major = minInt`.  A version with `Major = -1` keeps it under `Next` by None.
The build bump of a pre-release whose `Build` is `maxInt` has `Build = minInt`. -/
theorem Next_invariant_counterexample :
    (New "9223372036854775807.0.0".toList = .ok ⟨[], maxInt, 0, 0, [], 0⟩ ∧
      ((⟨[], maxInt, 0, 0, [], 0⟩ : Version).Next ChangeTypeMajor []).Major = minInt ∧
      ((⟨[], maxInt, 0, 0, [], 0⟩ : Version).Next ChangeTypeMajor []).Major < 0) ∧
    ((⟨[], -1, 0, 0, [], 0⟩ : Version).Next ChangeTypeNone []).Major < 0 ∧
    (((⟨[], 1, 0, 0, ['a'], maxInt⟩ : Version).Next ChangeTypeNone [['a']]).PreRelease ≠ [] ∧
      ((⟨[], 1, 0, 0, ['a'], maxInt⟩ : Version).Next ChangeTypeNone [['a']]).Build = minInt ∧
      ¬ 1 ≤ ((⟨[], 1, 0, 0, ['a'], maxInt⟩ : Version).Next ChangeTypeNone [['a']]).Build) := by
  refine ⟨⟨by rfl, by rfl, by decide⟩, by decide, by decide, by rfl, by decide⟩

/-! ## Lemmas on `ParseMessage` -/

theorem isWord_lbrace : isWord '{' = false := by decide
theorem isWord_rbrace : isWord '}' = false := by decide
theorem isWord_dot : isWord '.' = false := by decide

theorem templateParamAt_placeholder (n rest : Str) (hn : isParamName n) :
    templateParamAt (placeholderText n ++ rest) = some (n.length + 5) := by
  obtain ⟨c, r, rfl⟩ := List.exists_cons_of_ne_nil hn.1
  have e : placeholderText (c :: r) ++ rest = '{' :: '{' :: '.' :: ((c :: r) ++ '}' :: '}' :: rest) := by
    simp [placeholderText]
  rw [e]
  unfold templateParamAt
  simp only
  rw [List.takeWhile_append_of_pos hn.2, List.dropWhile_append_of_pos hn.2,
    List.takeWhile_cons_of_neg (by simp [isWord_rbrace]),
    List.dropWhile_cons_of_neg (by simp [isWord_rbrace])]
  simp

theorem findAllParams_skip (l rest : Str) (pos : Nat) :
    findAllParams (l ++ rest) pos l.length = findAllParams rest (pos + l.length) 0 := by
  induction l generalizing pos with
  | nil => simp
  | cons c r ih =>
    have e : (c :: r ++ rest) = c :: (r ++ rest) := rfl
    rw [e, List.length_cons, findAllParams, ih (pos + 1)]
    congr 1
    omega

theorem placeholderText_length (n : Str) : (placeholderText n).length = n.length + 5 := by
  simp [placeholderText]

theorem findAllParams_placeholder (n rest : Str) (pos : Nat) (hn : isParamName n) :
    findAllParams (placeholderText n ++ rest) pos 0 =
      (pos, pos + (n.length + 5)) :: findAllParams rest (pos + (n.length + 5)) 0 := by
  have hA := templateParamAt_placeholder n rest hn
  have e : placeholderText n ++ rest = '{' :: (('{' :: '.' :: (n ++ ['}', '}'])) ++ rest) := by
    simp [placeholderText]
  rw [e] at hA ⊢
  rw [findAllParams, hA]
  simp only
  have hl : ('{' :: '.' :: (n ++ ['}', '}'])).length = n.length + 5 - 1 := by simp
  rw [← hl, findAllParams_skip]
  simp only [List.length_cons, List.length_append, List.length_nil]
  congr 2
  omega

theorem templateParamAt_some (s : Str) (k : Nat) (h : templateParamAt s = some k) :
    ∃ W rest, isParamName W ∧ s = placeholderText W ++ rest ∧ k = W.length + 5 := by
  unfold templateParamAt at h
  split at h
  · rename_i r
    split at h
    · rename_i c w rest hw hd
      simp only [Option.some.injEq] at h
      refine ⟨c :: w, rest, ⟨by simp, ?_⟩, ?_, ?_⟩
      · intro x hx
        rw [← hw] at hx
        exact List.mem_takeWhile_imp hx
      · have := List.takeWhile_append_dropWhile isWord r
        rw [hw, hd] at this
        rw [← this]
        simp [placeholderText]
      · simp only [List.length_cons]; omega
    · cases h
  · cases h

theorem not_mem_placeholder_tail (W a b : Str) (hW : ∀ c ∈ W, isWord c = true)
    (h : '.' :: (W ++ ['}', '}']) = a ++ '{' :: b) : False := by
  have hm : '{' ∈ '.' :: (W ++ ['}', '}']) := by rw [h]; simp
  simp only [List.mem_cons, List.mem_append, List.mem_singleton] at hm
  rcases hm with hm | hm | hm | hm | hm
  · exact absurd hm (by decide)
  · have := hW _ hm
    rw [isWord_lbrace] at this
    cases this
  · exact absurd hm (by decide)
  · exact absurd hm (by decide)
  · cases hm

theorem placeholder_inside (t u W rest : Str) (ht : t ≠ []) (hW : ∀ c ∈ W, isWord c = true)
    (h : t ++ '{' :: '{' :: '.' :: u = placeholderText W ++ rest) :
    ∃ c, t = placeholderText W ++ c := by
  rw [List.append_eq_append_iff] at h
  rcases h with ⟨a, hP, hU⟩ | ⟨c, hc, _⟩
  · cases a with
    | nil => exact ⟨[], by simp [hP]⟩
    | cons x a1 =>
      exfalso
      simp only [List.cons_append, List.cons.injEq] at hU
      obtain ⟨hx, hU⟩ := hU
      subst hx
      obtain ⟨y, t1, rfl⟩ := List.exists_cons_of_ne_nil ht
      simp only [placeholderText, List.cons_append, List.cons.injEq] at hP
      obtain ⟨_, hP⟩ := hP
      cases t1 with
      | nil =>
        simp only [List.nil_append, List.cons.injEq] at hP
        obtain ⟨_, hP⟩ := hP
        rw [← hP] at hU
        simp only [List.cons_append, List.cons.injEq] at hU
        exact absurd hU.1 (by decide)
      | cons z t2 =>
        simp only [List.cons_append, List.cons.injEq] at hP
        exact not_mem_placeholder_tail W t2 a1 hW hP.2
  · exact ⟨c, hc⟩

theorem templateParamAt_append_none (t u : Str) (ht : t ≠ []) (h : templateParamAt t = none) :
    templateParamAt (t ++ '{' :: '{' :: '.' :: u) = none := by
  cases hk : templateParamAt (t ++ '{' :: '{' :: '.' :: u) with
  | none => rfl
  | some k =>
    exfalso
    obtain ⟨W, rest, hW, hs, _⟩ := templateParamAt_some _ _ hk
    obtain ⟨c, hc⟩ := placeholder_inside t u W rest ht hW.2 hs
    rw [hc, templateParamAt_placeholder W c hW] at h
    cases h

theorem findAllParams_literal (sep u : Str) (p0 pos : Nat)
    (h : findAllParams sep p0 0 = []) :
    findAllParams (sep ++ '{' :: '{' :: '.' :: u) pos 0 =
      findAllParams ('{' :: '{' :: '.' :: u) (pos + sep.length) 0 := by
  induction sep generalizing p0 pos with
  | nil => simp
  | cons c r ih =>
    rw [findAllParams] at h
    cases hc : templateParamAt (c :: r) with
    | some k => rw [hc] at h; cases h
    | none =>
      rw [hc] at h
      simp only at h
      have e : (c :: r ++ '{' :: '{' :: '.' :: u) = c :: (r ++ '{' :: '{' :: '.' :: u) := rfl
      have hn := templateParamAt_append_none (c :: r) u (by simp) hc
      rw [e] at hn ⊢
      rw [findAllParams, hn]
      simp only
      rw [ih (p0 + 1) (pos + 1) h, List.length_cons]
      congr 1
      omega



theorem findAllParams_template (n : Str) (rest : List Field) (pos : Nat) (hn : isParamName n)
    (hrest : ∀ f ∈ rest, isLiteral f.sep ∧ isParamName f.name) :
    findAllParams (placeholderText n ++ templateTail rest) pos 0 = paramsFrom pos n rest := by
  induction rest generalizing n pos with
  | nil =>
    simp only [templateTail, paramsFrom]
    rw [findAllParams_placeholder n [] pos hn]
    simp [findAllParams]
  | cons f rest ih =>
    simp only [templateTail, paramsFrom]
    rw [findAllParams_placeholder n _ pos hn]
    have hf := hrest f (by simp)
    have e : f.sep ++ placeholderText f.name ++ templateTail rest =
        f.sep ++ '{' :: '{' :: '.' :: (f.name ++ ['}', '}'] ++ templateTail rest) := by
      simp [placeholderText]
    rw [e, findAllParams_literal f.sep _ 0 _ hf.1]
    have e2 : '{' :: '{' :: '.' :: (f.name ++ ['}', '}'] ++ templateTail rest) =
        placeholderText f.name ++ templateTail rest := by
      simp [placeholderText]
    rw [e2, ih f.name _ hf.2 (fun g hg => hrest g (by simp [hg]))]

theorem stringsIndexFrom_first (sep : Str) (s : Str) (i k : Nat)
    (hk : sep <+: s.drop k) (hlt : ∀ j, j < k → ¬ sep <+: s.drop j) (hle : k ≤ s.length) :
    stringsIndexFrom sep s i = ((i + k : Nat) : Int) := by
  induction s generalizing i k with
  | nil =>
    have hk0 : k = 0 := by simpa using hle
    subst hk0
    have : sep = [] := by simpa using hk
    simp [stringsIndexFrom, this]
  | cons c r ih =>
    cases k with
    | zero =>
      have : sep.isPrefixOf (c :: r) = true := by
        rw [List.isPrefixOf_iff_prefix]; simpa using hk
      simp [stringsIndexFrom, this]
    | succ k1 =>
      have h0 : ¬ sep.isPrefixOf (c :: r) = true := by
        rw [List.isPrefixOf_iff_prefix]
        have := hlt 0 (by omega)
        simpa using this
      rw [stringsIndexFrom, if_neg h0]
      rw [ih (i + 1) k1 (by simpa using hk)
        (fun j hj => by have := hlt (j + 1) (by omega); simpa using this)
        (by simp only [List.length_cons] at hle; omega)]
      congr 1
      omega

theorem stringsIndex_first (s sep : Str) (k : Nat) (h : firstOccurrenceAt s sep k)
    (hle : k ≤ s.length) : stringsIndex s sep = (k : Int) := by
  unfold stringsIndex
  rw [stringsIndexFrom_first sep s 0 k h.1 h.2 hle]
  simp

theorem goSlice_mid (a b c : Str) : goSlice (a ++ b ++ c) a.length (a.length + b.length) = some b := by
  unfold goSlice
  have h : a.length ≤ a.length + b.length ∧ a.length + b.length ≤ (a ++ b ++ c).length := by
    simp only [List.length_append]; omega
  rw [if_pos h]
  simp [List.drop_append, List.take_append]

theorem goSlice_rest (a b : Str) : goSlice (a ++ b) a.length (a ++ b).length = some b := by
  unfold goSlice
  have h : a.length ≤ (a ++ b).length ∧ (a ++ b).length ≤ (a ++ b).length := by
    simp only [List.length_append]; omega
  rw [if_pos h]
  simp [List.drop_append]

theorem next_mid {α : Type} (pre : List α) (bp : α) (rp : List α) :
    next (pre ++ bp :: rp) pre.length = some rp.head? := by
  unfold next isIndexLast
  cases rp with
  | nil => simp
  | cons y rp1 =>
    have h : ¬ ((pre.length : Int) = ((pre ++ bp :: y :: rp1).length : Int) - 1) := by
      simp only [List.length_append, List.length_cons]; push_cast; omega
    simp only [h, decide_False, Bool.false_eq_true, if_false]
    have e : (pre ++ bp :: y :: rp1)[pre.length + 1]? = some y := by
      rw [List.getElem?_append_right (by omega)]
      simp
    rw [e]
    simp

theorem templateParamNameRgx_placeholder (n : Str) (hn : isParamName n) :
    templateParamNameRgx (placeholderText n) = n := by
  obtain ⟨c, r, rfl⟩ := List.exists_cons_of_ne_nil hn.1
  have hc : isWord c = true := hn.2 c (by simp)
  unfold templateParamNameRgx placeholderText
  simp only [List.cons_append]
  rw [List.dropWhile_cons_of_pos (by simp [isWord_lbrace]),
    List.dropWhile_cons_of_pos (by simp [isWord_lbrace]),
    List.dropWhile_cons_of_pos (by simp [isWord_dot]),
    List.dropWhile_cons_of_neg (by simp [hc])]
  have e : c :: (r ++ ['}', '}']) = (c :: r) ++ '}' :: ['}'] := by simp
  rw [e, List.takeWhile_append_of_pos hn.2, List.takeWhile_cons_of_neg (by simp [isWord_rbrace])]
  simp

theorem lookup_cons_ite (q k v : Str) (r : List (Str × Str)) :
    List.lookup q ((k, v) :: r) = if q = k then some v else List.lookup q r := by
  rw [List.lookup_cons]
  by_cases h : q = k
  · subst h; simp
  · have hb : (q == k) = false := by simpa using h
    rw [hb]; simp [h]

theorem Message.get?_set (m : Message) (k v q : Str) :
    (m.set k v).get? q = if q = k then some v else m.get? q := by
  obtain ⟨es⟩ := m
  unfold Message.set Message.get?
  simp only
  induction es with
  | nil => rw [setEntry, lookup_cons_ite]
  | cons e r ih =>
    obtain ⟨k1, v1⟩ := e
    simp only [setEntry]
    by_cases h1 : k1 = k
    · subst h1
      simp only [if_true, lookup_cons_ite]
      by_cases h : q = k1 <;> simp [h]
    · simp only [h1, if_false, lookup_cons_ite, ih]
      by_cases h : q = k1
      · subst h
        have : ¬ q = k := fun e => h1 e
        simp [this]
      · simp [h]

theorem paramsFrom_cons (pos : Nat) (n : Str) (rest : List Field) :
    ∃ tl, paramsFrom pos n rest = (pos, pos + (n.length + 5)) :: tl ∧
      tl.head? = (rest.head?.map fun f =>
        (pos + (n.length + 5) + f.sep.length,
          pos + (n.length + 5) + f.sep.length + (f.name.length + 5))) := by
  cases rest with
  | nil => exact ⟨[], rfl, rfl⟩
  | cons f r =>
    refine ⟨paramsFrom (pos + (n.length + 5) + f.sep.length) f.name r, rfl, ?_⟩
    cases r <;> rfl

theorem parseLoop_fields (rest : List Field) :
    ∀ (n x Tpre Mpre : Str) (bpre : List (Nat × Nat)) (acc : Message),
      isParamName n → x ≠ [] →
      (∀ f ∈ rest, f.sep ≠ [] ∧ isParamName f.name ∧ f.value ≠ []) →
      sepFirst x rest →
      parseLoop (Tpre ++ placeholderText n ++ templateTail rest)
        (Mpre ++ x ++ messageTail rest)
        (bpre ++ paramsFrom Tpre.length n rest) (paramsFrom Tpre.length n rest)
        bpre.length Mpre.length acc = some (setFields acc n x rest) := by
  induction rest with
  | nil =>
    intro n x Tpre Mpre bpre acc hn hx _ _
    obtain ⟨c, r, rfl⟩ := List.exists_cons_of_ne_nil hx
    simp only [templateTail, messageTail, paramsFrom, List.append_nil]
    rw [parseLoop, goSlice_rest Mpre (c :: r)]
    have hT := goSlice_mid Tpre (placeholderText n) []
    rw [List.append_nil, placeholderText_length] at hT
    have hS : goSlice (Tpre ++ placeholderText n) (Tpre.length + (n.length + 5))
        (Tpre ++ placeholderText n).length = some [] := by
      have := goSlice_rest (Tpre ++ placeholderText n) []
      simpa [placeholderText_length] using this
    simp only [List.length_cons, Nat.add_one_ne_zero, if_false, hT,
      templateParamNameRgx_placeholder n hn, next_mid bpre _ [], List.head?_nil, hS,
      List.length_nil, if_true, setFields, List.foldl_nil]
  | cons f rest ih =>
    intro n x Tpre Mpre bpre acc hn hx hrest hfirst
    obtain ⟨hsep, hname, hval⟩ := hrest f (by simp)
    obtain ⟨hocc, hfirst1⟩ := hfirst
    obtain ⟨tl, htl, hhead⟩ := paramsFrom_cons (Tpre.length + (n.length + 5) + f.sep.length)
      f.name rest
    have hx0 : x.length ≠ 0 := by simpa using hx
    have hs0 : f.sep.length ≠ 0 := by simpa using hsep
    -- the slices of this iteration
    have hM : goSlice (Mpre ++ x ++ messageTail (f :: rest)) Mpre.length
        (Mpre ++ x ++ messageTail (f :: rest)).length = some (x ++ messageTail (f :: rest)) := by
      have := goSlice_rest Mpre (x ++ messageTail (f :: rest))
      simpa using this
    have hT : goSlice (Tpre ++ placeholderText n ++ templateTail (f :: rest)) Tpre.length
        (Tpre.length + (n.length + 5)) = some (placeholderText n) := by
      have := goSlice_mid Tpre (placeholderText n) (templateTail (f :: rest))
      rwa [placeholderText_length] at this
    have hS : goSlice (Tpre ++ placeholderText n ++ templateTail (f :: rest))
        (Tpre.length + (n.length + 5)) (Tpre.length + (n.length + 5) + f.sep.length) =
        some f.sep := by
      have := goSlice_mid (Tpre ++ placeholderText n) f.sep
        (placeholderText f.name ++ templateTail rest)
      simpa [templateTail, placeholderText_length] using this
    have hI : stringsIndex (x ++ messageTail (f :: rest)) f.sep = (x.length : Int) :=
      stringsIndex_first _ _ _ hocc (by simp)
    have hP : goSlice (Mpre ++ x ++ messageTail (f :: rest)) Mpre.length
        (Mpre.length + x.length) = some x := goSlice_mid Mpre x _
    have hne : (x ++ messageTail (f :: rest)).length ≠ 0 := by
      simp only [List.length_append]; omega
    have hnext := next_mid bpre (Tpre.length, Tpre.length + (n.length + 5))
      (paramsFrom (Tpre.length + (n.length + 5) + f.sep.length) f.name rest)
    rw [htl] at hnext
    simp only [List.head?_cons] at hnext
    have hneg : ¬ ((x.length : Int) < 0) := by omega
    have step : parseLoop (Tpre ++ placeholderText n ++ templateTail (f :: rest))
        (Mpre ++ x ++ messageTail (f :: rest))
        (bpre ++ paramsFrom Tpre.length n (f :: rest)) (paramsFrom Tpre.length n (f :: rest))
        bpre.length Mpre.length acc =
        parseLoop (Tpre ++ placeholderText n ++ templateTail (f :: rest))
          (Mpre ++ x ++ messageTail (f :: rest))
          (bpre ++ paramsFrom Tpre.length n (f :: rest))
          (paramsFrom (Tpre.length + (n.length + 5) + f.sep.length) f.name rest)
          (bpre.length + 1) (Mpre.length + x.length + f.sep.length) (acc.set n x) := by
      conv_lhs => rw [paramsFrom]
      rw [parseLoop]
      simp only [hM, hne, if_false, hT, templateParamNameRgx_placeholder n hn]
      rw [htl, hnext]
      simp only [hS, hs0, if_false, hI, hneg, Int.toNat_ofNat, hP]
      rw [← htl]
      rfl
    rw [step]
    have e1 : Tpre ++ placeholderText n ++ templateTail (f :: rest) =
        (Tpre ++ placeholderText n ++ f.sep) ++ placeholderText f.name ++ templateTail rest := by
      simp [templateTail]
    have e2 : Mpre ++ x ++ messageTail (f :: rest) =
        (Mpre ++ x ++ f.sep) ++ f.value ++ messageTail rest := by
      simp [messageTail]
    have e3 : bpre ++ paramsFrom Tpre.length n (f :: rest) =
        (bpre ++ [(Tpre.length, Tpre.length + (n.length + 5))]) ++
          paramsFrom (Tpre ++ placeholderText n ++ f.sep).length f.name rest := by
      simp [paramsFrom, placeholderText_length, Nat.add_assoc]
    have e4 : Tpre.length + (n.length + 5) + f.sep.length =
        (Tpre ++ placeholderText n ++ f.sep).length := by
      simp only [List.length_append, placeholderText_length]
    have e5 : bpre.length + 1 = (bpre ++ [(Tpre.length, Tpre.length + (n.length + 5))]).length := by
      simp
    have e6 : Mpre.length + x.length + f.sep.length = (Mpre ++ x ++ f.sep).length := by
      simp only [List.length_append]
    rw [e1, e2, e3, e4, e5, e6]
    rw [ih f.name f.value _ _ _ (acc.set n x) hname hval
      (fun g hg => hrest g (by simp [hg])) hfirst1]
    simp [setFields]

theorem lookup_none_of_not_mem (q : Str) (l : List (Str × Str)) (h : q ∉ l.map Prod.fst) :
    List.lookup q l = none := by
  induction l with
  | nil => rfl
  | cons e r ih =>
    obtain ⟨k, v⟩ := e
    simp only [List.map_cons, List.mem_cons, not_or] at h
    rw [lookup_cons_ite, if_neg h.1]
    exact ih h.2

theorem setFields_get? (rest : List Field) :
    ∀ (acc : Message) (n x q : Str), ((n :: rest.map (fun f => f.name)).Nodup) →
      (setFields acc n x rest).get? q =
        match List.lookup q (fieldEntries n x rest) with
        | some v => some v
        | none => acc.get? q := by
  induction rest with
  | nil =>
    intro acc n x q _
    simp only [setFields, List.foldl_nil, fieldEntries, List.map_nil, Message.get?_set,
      lookup_cons_ite, List.lookup_nil]
    by_cases h : q = n <;> simp [h]
  | cons f rest ih =>
    intro acc n x q hnd
    have e : setFields acc n x (f :: rest) = setFields (acc.set n x) f.name f.value rest := by
      simp [setFields]
    have hnd1 : (f.name :: rest.map (fun f => f.name)).Nodup := by
      simp only [List.map_cons] at hnd
      exact (List.nodup_cons.1 hnd).2
    rw [e, ih (acc.set n x) f.name f.value q hnd1, Message.get?_set]
    have e2 : fieldEntries n x (f :: rest) = (n, x) :: fieldEntries f.name f.value rest := by
      simp [fieldEntries]
    rw [e2, lookup_cons_ite]
    by_cases h : q = n
    · subst h
      have hnot : q ∉ (fieldEntries f.name f.value rest).map Prod.fst := by
        have := (List.nodup_cons.1 hnd).1
        simpa [fieldEntries, Function.comp_def] using this
      rw [lookup_none_of_not_mem q _ hnot]
      simp
    · simp [h]

theorem checkRequired_ok (m : Message) (template : Str) (required rs : List Str)
    (h : ∀ r ∈ rs, m.get r ≠ []) : checkRequired m template required rs = .ok m := by
  induction rs with
  | nil => rfl
  | cons r rs ih =>
    rw [checkRequired, if_neg (h r (by simp))]
    exact ih (fun q hq => h q (by simp [hq]))

theorem lookup_fieldEntries_ne_nil (rest : List Field) :
    ∀ (n x r : Str), x ≠ [] → (∀ f ∈ rest, f.value ≠ []) →
      r ∈ n :: rest.map (fun f => f.name) →
      ∃ v, List.lookup r (fieldEntries n x rest) = some v ∧ v ≠ [] := by
  induction rest with
  | nil =>
    intro n x r hx _ hr
    simp only [List.map_nil, List.mem_singleton] at hr
    subst hr
    exact ⟨x, by simp [fieldEntries, lookup_cons_ite], hx⟩
  | cons f rest ih =>
    intro n x r hx hv hr
    have e2 : fieldEntries n x (f :: rest) = (n, x) :: fieldEntries f.name f.value rest := by
      simp [fieldEntries]
    rw [e2, lookup_cons_ite]
    by_cases h : r = n
    · exact ⟨x, by simp [h], hx⟩
    · simp only [h, if_false]
      apply ih f.name f.value r (hv f (by simp)) (fun g hg => hv g (by simp [hg]))
      simp only [List.map_cons, List.mem_cons] at hr ⊢
      rcases hr with hr | hr
      · exact absurd hr h
      · exact hr

/-! ## Claim on `ParseMessage` -/

/-- Claim C10.  Take a template `{{.n1}} s1 {{.n2}} ... {{.nk}}` with names that are distinct
runs of `\w` and separators that are non-empty and literal (no placeholder inside), and
non-empty values `x1 .. xk` such that each separator `s_i` is first met in
`x_i s_i x_(i+1) ... x_k` at offset `|x_i|`.  Then `ParseMessage` on the message
`x1 s1 x2 ... xk`, with `required` any list of names of the template, returns without panic and
without error a map whose lookup is that of the entries `n_i -> x_i`.  The separator is
matched at its first occurrence: any other cut `p ++ s1 ++ q` of the message has a first part
at least as long as `x1`. -/
theorem ParseMessage_recovers_fields (n1 x1 : Str) (rest : List Field) (required : List Str)
    (hn1 : isParamName n1) (hx1 : x1 ≠ [])
    (hrest : ∀ f ∈ rest, f.sep ≠ [] ∧ isLiteral f.sep ∧ isParamName f.name ∧ f.value ≠ [])
    (hnodup : (n1 :: rest.map (fun f => f.name)).Nodup)
    (hfirst : sepFirst x1 rest)
    (hreq : ∀ r ∈ required, r ∈ n1 :: rest.map (fun f => f.name)) :
    (∃ M, ParseMessage (placeholderText n1 ++ templateTail rest) (x1 ++ messageTail rest)
        required = some (.ok M) ∧
      ∀ q, M.get? q = List.lookup q (fieldEntries n1 x1 rest)) ∧
    (∀ f tl p q, rest = f :: tl → x1 ++ messageTail rest = p ++ f.sep ++ q →
      x1.length ≤ p.length) := by
  constructor
  · have hp := findAllParams_template n1 rest 0 hn1 (fun f hf => ⟨(hrest f hf).2.1, (hrest f hf).2.2.1⟩)
    have hl := parseLoop_fields rest n1 x1 [] [] [] ⟨[]⟩ hn1 hx1
      (fun f hf => ⟨(hrest f hf).1, (hrest f hf).2.2.1, (hrest f hf).2.2.2⟩) hfirst
    simp only [List.nil_append, List.length_nil] at hl
    have hget : ∀ q, (setFields ⟨[]⟩ n1 x1 rest).get? q = List.lookup q (fieldEntries n1 x1 rest) := by
      intro q
      rw [setFields_get? rest ⟨[]⟩ n1 x1 q hnodup]
      cases List.lookup q (fieldEntries n1 x1 rest) <;> rfl
    refine ⟨setFields ⟨[]⟩ n1 x1 rest, ?_, hget⟩
    unfold ParseMessage templateParamsRgx
    rw [hp, hl]
    simp only
    rw [checkRequired_ok]
    intro r hr
    obtain ⟨v, hv, hne⟩ := lookup_fieldEntries_ne_nil rest n1 x1 r hx1
      (fun f hf => (hrest f hf).2.2.2) (hreq r hr)
    unfold Message.get
    rw [hget r, hv]
    exact hne
  · intro f tl p q hr hcut
    subst hr
    by_contra hlt
    have hlt1 : p.length < x1.length := by omega
    apply hfirst.1.2 p.length hlt1
    rw [hcut]
    simp [List.drop_append]

/-- The template and the message of `TestParseMessage` ("parses exact format"): the
hypotheses hold, and the four fields are recovered. -/
theorem ParseMessage_recovers_fields_witness :
    (placeholderText "Type".toList ++ templateTail exampleFields =
        "\x7b\x7b.Type\x7d\x7d(\x7b\x7b.Scope\x7d\x7d): \x7b\x7b.Message\x7d\x7d\n\n\x7b\x7b.Description\x7d\x7d".toList ∧
      "improvement".toList ++ messageTail exampleFields =
        "improvement(semver): commit message\n\ndescription".toList ∧
      sepFirst "improvement".toList exampleFields) ∧
    ∃ M, ParseMessage (placeholderText "Type".toList ++ templateTail exampleFields)
        ("improvement".toList ++ messageTail exampleFields)
        ["Type".toList, "Scope".toList, "Message".toList, "Description".toList] = some (.ok M) ∧
      ∀ q, M.get? q = List.lookup q (fieldEntries "Type".toList "improvement".toList exampleFields) :=
  ⟨⟨by decide, by decide, by simp only [sepFirst, exampleFields]; decide⟩,
    (ParseMessage_recovers_fields "Type".toList "improvement".toList exampleFields
      ["Type".toList, "Scope".toList, "Message".toList, "Description".toList]
      (by decide) (by decide) (by decide) (by decide)
      (by simp only [sepFirst, exampleFields]; decide) (by decide)).1⟩

/-! ## Lemmas on the loop of `ParseMessage` -/

theorem parseLoop_cons (template message : Str) (bParams : List (Nat × Nat)) (bp : Nat × Nat)
    (rest : List (Nat × Nat)) (i cursor : Nat) (acc : Message) :
    parseLoop template message bParams (bp :: rest) i cursor acc =
      match loopBody template message bParams bp i cursor acc with
      | .panic => none
      | .stop m => some m
      | .continue c m => parseLoop template message bParams rest (i + 1) c m := by
  rw [parseLoop]
  unfold loopBody
  cases goSlice message cursor message.length with
  | none => rfl
  | some remaining =>
    simp only
    split_ifs with h1
    · rfl
    · cases goSlice template bp.1 bp.2 with
      | none => rfl
      | some text =>
        simp only
        cases next bParams i with
        | none => rfl
        | some nx =>
          cases nx with
          | none =>
            simp only
            cases goSlice template bp.2 template.length with
            | none => rfl
            | some phraseSep =>
            simp only
            split_ifs with h2 h3
            · rfl
            · rfl
            · cases goSlice message cursor (cursor + (stringsIndex remaining phraseSep).toNat) with
              | none => rfl
              | some phrase => rfl
          | some n =>
            simp only
            cases goSlice template bp.2 n.1 with
            | none => rfl
            | some phraseSep =>
            simp only
            split_ifs with h2 h3
            · rfl
            · rfl
            · cases goSlice message cursor (cursor + (stringsIndex remaining phraseSep).toNat) with
              | none => rfl
              | some phrase => rfl

theorem paramsChain_mono (lo1 lo2 hi : Nat) (l : List (Nat × Nat)) (h : lo1 ≤ lo2)
    (hc : paramsChain lo2 hi l) : paramsChain lo1 hi l := by
  cases l with
  | nil => trivial
  | cons bp tl => exact ⟨le_trans h hc.1, hc.2⟩

theorem templateParamAt_le (s : Str) (k : Nat) (h : templateParamAt s = some k) :
    1 ≤ k ∧ k ≤ s.length := by
  obtain ⟨W, rest, _, hs, hk⟩ := templateParamAt_some s k h
  subst hs hk
  simp only [List.length_append, placeholderText_length]
  omega

theorem findAllParams_chain (s : Str) :
    ∀ pos skip, paramsChain (pos + skip) (pos + s.length) (findAllParams s pos skip) := by
  induction s with
  | nil => intro pos skip; simp [findAllParams, paramsChain]
  | cons c r ih =>
    intro pos skip
    cases skip with
    | succ k =>
      rw [findAllParams]
      have := ih (pos + 1) k
      simp only [List.length_cons]
      have e1 : pos + (k + 1) = pos + 1 + k := by omega
      have e2 : pos + (r.length + 1) = pos + 1 + r.length := by omega
      rw [e1, e2]; exact this
    | zero =>
      rw [findAllParams]
      cases hk : templateParamAt (c :: r) with
      | none =>
        simp only
        have := ih (pos + 1) 0
        simp only [List.length_cons]
        have e2 : pos + (r.length + 1) = pos + 1 + r.length := by omega
        rw [e2]
        exact paramsChain_mono _ _ _ _ (by omega) this
      | some len =>
        simp only
        obtain ⟨h1, h2⟩ := templateParamAt_le _ _ hk
        simp only [List.length_cons] at h2 ⊢
        refine ⟨by omega, by omega, by omega, ?_⟩
        have := ih (pos + 1) (len - 1)
        have e1 : pos + 1 + (len - 1) = pos + len := by omega
        have e2 : pos + 1 + r.length = pos + (r.length + 1) := by omega
        rw [e1, e2] at this
        exact this

theorem paramsChain_index (l : List (Nat × Nat)) :
    ∀ (lo hi i : Nat) (bp : Nat × Nat), paramsChain lo hi l → l[i]? = some bp →
      lo ≤ bp.1 ∧ bp.1 ≤ bp.2 ∧
      bp.2 ≤ (match l[i + 1]? with | some n => n.1 | none => hi) ∧
      (match l[i + 1]? with | some n => n.1 | none => hi) ≤ hi := by
  induction l with
  | nil => intro lo hi i bp _ h; simp at h
  | cons a tl ih =>
    intro lo hi i bp hc h
    obtain ⟨h1, h2, h3, h4⟩ := hc
    cases i with
    | zero =>
      simp only [List.getElem?_cons_zero, Option.some.injEq] at h
      subst h
      refine ⟨h1, h2, ?_⟩
      simp only [zero_add, List.getElem?_cons_succ]
      cases tl with
      | nil => simp [h3]
      | cons b tl2 =>
        simp only [List.getElem?_cons_zero]
        exact ⟨h4.1, by have := h4.2.1; have := h4.2.2.1; omega⟩
    | succ j =>
      simp only [List.getElem?_cons_succ] at h ⊢
      obtain ⟨g1, g2, g3, g4⟩ := ih a.2 hi j bp h4 h
      exact ⟨by omega, g2, g3, g4⟩

theorem templateParamsRgx_bounds (template : Str) (i : Nat) (bp : Nat × Nat)
    (h : (templateParamsRgx template)[i]? = some bp) :
    bp.1 ≤ bp.2 ∧ bp.2 ≤ sepEndIdx template i ∧ sepEndIdx template i ≤ template.length := by
  have hc := findAllParams_chain template 0 0
  simp only [Nat.add_zero, Nat.zero_add] at hc
  obtain ⟨_, g2, g3, g4⟩ := paramsChain_index _ 0 template.length i bp hc h
  exact ⟨g2, g3, g4⟩

theorem next_eq {α : Type} (l : List α) (i : Nat) (h : i < l.length) :
    next l i = some l[i + 1]? := by
  unfold next isIndexLast
  by_cases hl : i + 1 < l.length
  · have hne : ¬ ((i : Int) = (l.length : Int) - 1) := by omega
    simp only [hne, decide_False, Bool.false_eq_true, if_false]
    rw [List.getElem?_eq_getElem hl]
  · have he : (i : Int) = (l.length : Int) - 1 := by omega
    simp only [he, decide_True, if_true]
    rw [List.getElem?_eq_none (by omega)]

theorem stringsIndexFrom_spec (sep s : Str) (i : Nat) :
    (∃ k, k + sep.length ≤ s.length ∧ firstOccurrenceAt s sep k ∧
        stringsIndexFrom sep s i = ((i + k : Nat) : Int)) ∨
    ((∀ j, ¬ sep <+: s.drop j) ∧ stringsIndexFrom sep s i = -1) := by
  induction s generalizing i with
  | nil =>
    by_cases h : sep = []
    · left
      refine ⟨0, by simp [h], ⟨by simp [h], by intro j hj; omega⟩, by simp [stringsIndexFrom, h]⟩
    · right
      refine ⟨by intro j; simpa using h, by simp [stringsIndexFrom, h]⟩
  | cons c r ih =>
    by_cases hp : sep.isPrefixOf (c :: r) = true
    · left
      have hp1 : sep <+: c :: r := List.isPrefixOf_iff_prefix.1 hp
      refine ⟨0, by simpa using hp1.length_le, ⟨by simpa using hp1, by intro j hj; omega⟩, ?_⟩
      simp [stringsIndexFrom, hp]
    · have hp1 : ¬ sep <+: c :: r := fun h => hp (List.isPrefixOf_iff_prefix.2 h)
      rw [stringsIndexFrom, if_neg hp]
      rcases ih (i + 1) with ⟨k, hk1, hk2, hk3⟩ | ⟨hn, he⟩
      · left
        refine ⟨k + 1, by simp only [List.length_cons]; omega, ⟨by simpa using hk2.1, ?_⟩, ?_⟩
        · intro j hj
          cases j with
          | zero => simpa using hp1
          | succ j1 => simpa using hk2.2 j1 (by omega)
        · rw [hk3]; congr 1; omega
      · right
        refine ⟨?_, he⟩
        intro j
        cases j with
        | zero => simpa using hp1
        | succ j1 => simpa using hn j1

theorem stringsIndex_spec (s sep : Str) :
    (∃ k, k + sep.length ≤ s.length ∧ firstOccurrenceAt s sep k ∧
        stringsIndex s sep = (k : Int)) ∨
    ((∀ j, ¬ sep <+: s.drop j) ∧ stringsIndex s sep = -1) := by
  unfold stringsIndex
  rcases stringsIndexFrom_spec sep s 0 with ⟨k, h1, h2, h3⟩ | h
  · left; exact ⟨k, h1, h2, by simpa using h3⟩
  · right; exact h

theorem goSlice_to_end (s : Str) (lo : Nat) (h : lo ≤ s.length) :
    goSlice s lo s.length = some (s.drop lo) := by
  unfold goSlice
  rw [if_pos ⟨h, le_refl _⟩, List.take_of_length_le (by simp)]

theorem goSlice_ok (s : Str) (lo hi : Nat) (h1 : lo ≤ hi) (h2 : hi ≤ s.length) :
    goSlice s lo hi = some ((s.drop lo).take (hi - lo)) := by
  unfold goSlice
  rw [if_pos ⟨h1, h2⟩]

theorem loopBody_eq (T M : Str) (i cursor : Nat) (acc : Message) (bp : Nat × Nat)
    (hbp : (templateParamsRgx T)[i]? = some bp) (hc : cursor ≤ M.length) :
    loopBody T M (templateParamsRgx T) bp i cursor acc =
      if M.drop cursor = [] then .stop acc
      else if phraseSepOf T i bp = [] then .stop (acc.set (paramNameOf T bp) (M.drop cursor))
      else if stringsIndex (M.drop cursor) (phraseSepOf T i bp) < 0 then
        .stop (acc.set (paramNameOf T bp) (M.drop cursor))
      else
        .continue
          (cursor + (stringsIndex (M.drop cursor) (phraseSepOf T i bp)).toNat +
            (phraseSepOf T i bp).length)
          (acc.set (paramNameOf T bp)
            ((M.drop cursor).take (stringsIndex (M.drop cursor) (phraseSepOf T i bp)).toNat)) := by
  obtain ⟨b1, b2, b3⟩ := templateParamsRgx_bounds T i bp hbp
  have hi : i < (templateParamsRgx T).length := by
    by_contra hlt
    rw [List.getElem?_eq_none (by omega)] at hbp
    cases hbp
  unfold loopBody
  rw [goSlice_to_end M cursor hc]
  simp only [List.length_eq_zero]
  by_cases hrem : M.drop cursor = []
  · simp [hrem]
  · simp only [hrem, if_false]
    rw [goSlice_ok T bp.1 bp.2 b1 (le_trans b2 b3), next_eq _ i hi]
    simp only
    cases hnx : (templateParamsRgx T)[i + 1]? with
    | none =>
      have e : sepEndIdx T i = T.length := by unfold sepEndIdx; rw [hnx]
      simp only
      have hsep : goSlice T bp.2 (sepEndIdx T i) = some (phraseSepOf T i bp) :=
        goSlice_ok T bp.2 (sepEndIdx T i) b2 b3
      rw [← e, hsep]
      simp only [List.length_eq_zero]
      by_cases hs : phraseSepOf T i bp = []
      · simp [hs, paramNameOf]
      · simp only [hs, if_false]
        rcases stringsIndex_spec (M.drop cursor) (phraseSepOf T i bp) with
          ⟨k, hk1, _, hk3⟩ | ⟨_, hneg⟩
        · have hk0 : ¬ ((k : Int) < 0) := by omega
          have hlen : (M.drop cursor).length = M.length - cursor := by simp
          rw [hk3]
          simp only [hk0, if_false, Int.toNat_ofNat]
          rw [goSlice_ok M cursor (cursor + k) (by omega) (by omega)]
          simp only [Nat.add_sub_cancel_left, List.length_take, paramNameOf]
          rw [Nat.min_eq_left (by omega)]
        · rw [hneg]
          simp [paramNameOf]
    | some n =>
      have e : sepEndIdx T i = n.1 := by unfold sepEndIdx; rw [hnx]
      simp only
      have hsep : goSlice T bp.2 (sepEndIdx T i) = some (phraseSepOf T i bp) :=
        goSlice_ok T bp.2 (sepEndIdx T i) b2 b3
      rw [← e, hsep]
      simp only [List.length_eq_zero]
      by_cases hs : phraseSepOf T i bp = []
      · simp [hs, paramNameOf]
      · simp only [hs, if_false]
        rcases stringsIndex_spec (M.drop cursor) (phraseSepOf T i bp) with
          ⟨k, hk1, _, hk3⟩ | ⟨_, hneg⟩
        · have hk0 : ¬ ((k : Int) < 0) := by omega
          have hlen : (M.drop cursor).length = M.length - cursor := by simp
          rw [hk3]
          simp only [hk0, if_false, Int.toNat_ofNat]
          rw [goSlice_ok M cursor (cursor + k) (by omega) (by omega)]
          simp only [Nat.add_sub_cancel_left, List.length_take, paramNameOf]
          rw [Nat.min_eq_left (by omega)]
        · rw [hneg]
          simp [paramNameOf]

theorem loopBody_continue_le (T M : Str) (i cursor : Nat) (acc : Message) (bp : Nat × Nat)
    (hbp : (templateParamsRgx T)[i]? = some bp) (hc : cursor ≤ M.length) (c : Nat) (m : Message)
    (h : loopBody T M (templateParamsRgx T) bp i cursor acc = .continue c m) :
    c ≤ M.length ∧ ∃ v, m = acc.set (paramNameOf T bp) v := by
  rw [loopBody_eq T M i cursor acc bp hbp hc] at h
  split_ifs at h with h1 h2 h3
  simp only [IterOutcome.continue.injEq] at h
  obtain ⟨hc1, hm⟩ := h
  refine ⟨?_, _, hm.symm⟩
  rcases stringsIndex_spec (M.drop cursor) (phraseSepOf T i bp) with
    ⟨k, hk1, _, hk3⟩ | ⟨_, hneg⟩
  · rw [hk3] at hc1
    simp only [Int.toNat_ofNat] at hc1
    have hlen : (M.drop cursor).length = M.length - cursor := by simp
    omega
  · rw [hneg] at h3
    exact absurd (by decide) h3

theorem loopBody_ne_panic (T M : Str) (i cursor : Nat) (acc : Message) (bp : Nat × Nat)
    (hbp : (templateParamsRgx T)[i]? = some bp) (hc : cursor ≤ M.length) :
    loopBody T M (templateParamsRgx T) bp i cursor acc ≠ .panic := by
  rw [loopBody_eq T M i cursor acc bp hbp hc]
  split_ifs <;> simp

theorem LoopAt_cursor_le (T M : Str) (i cursor : Nat) (acc : Message)
    (h : LoopAt T M i cursor acc) : cursor ≤ M.length := by
  induction h with
  | start => exact Nat.zero_le _
  | step i cursor acc bp c m _ hbp hb ih => exact (loopBody_continue_le T M i cursor acc bp hbp ih c m hb).1

theorem parseLoop_total (T M : Str) (rest : List (Nat × Nat)) :
    ∀ (pre : List (Nat × Nat)) (cursor : Nat) (acc : Message),
      templateParamsRgx T = pre ++ rest → cursor ≤ M.length →
      ∃ m, parseLoop T M (templateParamsRgx T) rest pre.length cursor acc = some m := by
  induction rest with
  | nil => intro pre cursor acc _ _; exact ⟨acc, rfl⟩
  | cons bp rest ih =>
    intro pre cursor acc hsplit hc
    have hbp : (templateParamsRgx T)[pre.length]? = some bp := by
      rw [hsplit, List.getElem?_append_right (le_refl _)]; simp
    rw [parseLoop_cons]
    cases hb : loopBody T M (templateParamsRgx T) bp pre.length cursor acc with
    | panic => exact absurd hb (loopBody_ne_panic T M _ cursor acc bp hbp hc)
    | stop m => exact ⟨m, rfl⟩
    | «continue» c m =>
      simp only
      have hc1 := (loopBody_continue_le T M _ cursor acc bp hbp hc c m hb).1
      have := ih (pre ++ [bp]) c m (by rw [hsplit]; simp) hc1
      simpa using this

theorem ParseMessage_ne_none (T M : Str) (required : List Str) :
    ∃ r, ParseMessage T M required = some r := by
  obtain ⟨m, hm⟩ := parseLoop_total T M (templateParamsRgx T) [] 0 ⟨[]⟩ rfl (Nat.zero_le _)
  simp only [List.length_nil] at hm
  unfold ParseMessage
  rw [hm]
  exact ⟨_, rfl⟩

theorem LoopAt_parseLoop (T M : Str) (i cursor : Nat) (acc : Message)
    (h : LoopAt T M i cursor acc) :
    parseLoop T M (templateParamsRgx T) (templateParamsRgx T) 0 0 ⟨[]⟩ =
      parseLoop T M (templateParamsRgx T) ((templateParamsRgx T).drop i) i cursor acc := by
  induction h with
  | start => simp
  | step i cursor acc bp c m _ hbp hb ih =>
    rw [ih]
    have hi : i < (templateParamsRgx T).length := by
      by_contra hlt
      rw [List.getElem?_eq_none (by omega)] at hbp
      cases hbp
    have hd : (templateParamsRgx T).drop i = bp :: (templateParamsRgx T).drop (i + 1) := by
      rw [List.drop_eq_getElem_cons hi]
      congr 1
      rw [List.getElem?_eq_getElem hi] at hbp
      exact Option.some.inj hbp
    rw [hd, parseLoop_cons, hb]

theorem paramNamesBefore_succ (T : Str) (i : Nat) (bp : Nat × Nat)
    (hbp : (templateParamsRgx T)[i]? = some bp) :
    paramNamesBefore T (i + 1) = paramNamesBefore T i ++ [paramNameOf T bp] := by
  unfold paramNamesBefore
  rw [List.take_succ, hbp]
  simp

theorem get?_set_ne_none (acc : Message) (n v k : Str) (h : (acc.set n v).get? k ≠ none) :
    k = n ∨ acc.get? k ≠ none := by
  rw [Message.get?_set] at h
  by_cases hk : k = n
  · exact Or.inl hk
  · rw [if_neg hk] at h; exact Or.inr h

theorem LoopAt_keys (T M : Str) (i cursor : Nat) (acc : Message)
    (h : LoopAt T M i cursor acc) :
    ∀ k, acc.get? k ≠ none → k ∈ paramNamesBefore T i := by
  induction h with
  | start => intro k hk; exact absurd rfl hk
  | step i cursor acc bp c m hat hbp hb ih =>
    intro k hk
    obtain ⟨_, v, hm⟩ := loopBody_continue_le T M i cursor acc bp hbp
      (LoopAt_cursor_le T M i cursor acc hat) c m hb
    rw [hm] at hk
    rw [paramNamesBefore_succ T i bp hbp]
    rcases get?_set_ne_none acc _ v k hk with h1 | h1
    · simp [h1]
    · simp [ih k h1]

theorem Message.get_eq_nil_iff (m : Message) (r : Str) :
    m.get r = [] ↔ (m.get? r = none ∨ m.get? r = some []) := by
  unfold Message.get
  cases m.get? r with
  | none => simp
  | some v => simp

theorem checkRequired_spec (m : Message) (T : Str) (required rs : List Str) :
    ((∀ r ∈ rs, m.get r ≠ []) ∧ checkRequired m T required rs = .ok m) ∨
    (∃ r ∈ rs, m.get r = [] ∧ checkRequired m T required rs = .error ⟨T, required, r⟩) := by
  induction rs with
  | nil => left; exact ⟨by simp, rfl⟩
  | cons r rs ih =>
    by_cases hr : m.get r = []
    · right
      exact ⟨r, by simp, hr, by rw [checkRequired, if_pos hr]⟩
    · rcases ih with ⟨h1, h2⟩ | ⟨q, hq, h1, h2⟩
      · left
        refine ⟨?_, by rw [checkRequired, if_neg hr]; exact h2⟩
        intro x hx
        rcases List.mem_cons.1 hx with rfl | hx
        · exact hr
        · exact h1 x hx
      · right
        exact ⟨q, by simp [hq], h1, by rw [checkRequired, if_neg hr]; exact h2⟩

theorem stringsIndex_neg_of_absent (s sep : Str) (h : ∀ j, ¬ sep <+: s.drop j) :
    stringsIndex s sep < 0 := by
  rcases stringsIndex_spec s sep with ⟨k, _, hk, _⟩ | ⟨_, hneg⟩
  · exact absurd hk.1 (h k)
  · rw [hneg]; decide

theorem absent_of_stringsIndex_neg (s sep : Str) (h : stringsIndex s sep < 0) :
    ∀ j, ¬ sep <+: s.drop j := by
  rcases stringsIndex_spec s sep with ⟨k, _, _, hk⟩ | ⟨hn, _⟩
  · rw [hk] at h; omega
  · exact hn

theorem ParseMessage_of_loop (T M : Str) (required : List Str) (m : Message)
    (h : parseLoop T M (templateParamsRgx T) (templateParamsRgx T) 0 0 ⟨[]⟩ = some m)
    (hr : ∀ r ∈ required, m.get r ≠ []) : ParseMessage T M required = some (.ok m) := by
  unfold ParseMessage
  rw [h]
  simp only
  rw [checkRequired_ok m T required required hr]

theorem LoopAt_stop (T M : Str) (i cursor : Nat) (acc m : Message) (bp : Nat × Nat)
    (hat : LoopAt T M i cursor acc) (hbp : (templateParamsRgx T)[i]? = some bp)
    (hb : loopBody T M (templateParamsRgx T) bp i cursor acc = .stop m) :
    parseLoop T M (templateParamsRgx T) (templateParamsRgx T) 0 0 ⟨[]⟩ = some m := by
  rw [LoopAt_parseLoop T M i cursor acc hat]
  have hi : i < (templateParamsRgx T).length := by
    by_contra hlt
    rw [List.getElem?_eq_none (by omega)] at hbp
    cases hbp
  have hd : (templateParamsRgx T).drop i = bp :: (templateParamsRgx T).drop (i + 1) := by
    rw [List.drop_eq_getElem_cons hi]
    congr 1
    rw [List.getElem?_eq_getElem hi] at hbp
    exact Option.some.inj hbp
  rw [hd, parseLoop_cons, hb]

/-! ## Claims on the loop of `ParseMessage` -/

/-- Claim C11, as amended.  Let the first loop of `ParseMessage` stand at placeholder `i`.
If the remaining message is not empty and the non-empty separator of the placeholder does not
occur in it, the loop ends there: the placeholder maps to the whole remaining message, every
key of the result is the name of this placeholder or of an earlier one (so a later placeholder
whose name differs from all of these is not a key), and `ParseMessage` succeeds when every
required name has a non-empty value.  If the remaining message is empty, the loop ends with
the map as it stands: every key is the name of an earlier placeholder, so this placeholder and
the later ones are absent unless they bear the name of an earlier one. -/
theorem ParseMessage_missing_tail (template message : Str) (required : List Str)
    (i cursor : Nat) (acc : Message) (bp : Nat × Nat)
    (hat : LoopAt template message i cursor acc)
    (hbp : (templateParamsRgx template)[i]? = some bp) :
    (message.drop cursor ≠ [] → phraseSepOf template i bp ≠ [] →
      (∀ j, ¬ phraseSepOf template i bp <+: (message.drop cursor).drop j) →
      ∃ m, parseLoop template message (templateParamsRgx template) (templateParamsRgx template)
          0 0 ⟨[]⟩ = some m ∧
        m.get? (paramNameOf template bp) = some (message.drop cursor) ∧
        (∀ k, m.get? k ≠ none → k ∈ paramNamesBefore template (i + 1)) ∧
        (∀ j bq, i < j → (templateParamsRgx template)[j]? = some bq →
          paramNameOf template bq ∉ paramNamesBefore template (i + 1) →
          m.get? (paramNameOf template bq) = none) ∧
        ((∀ r ∈ required, m.get r ≠ []) →
          ParseMessage template message required = some (.ok m))) ∧
    (message.drop cursor = [] →
      parseLoop template message (templateParamsRgx template) (templateParamsRgx template)
          0 0 ⟨[]⟩ = some acc ∧
        (∀ k, acc.get? k ≠ none → k ∈ paramNamesBefore template i) ∧
        (∀ j bq, i ≤ j → (templateParamsRgx template)[j]? = some bq →
          paramNameOf template bq ∉ paramNamesBefore template i →
          acc.get? (paramNameOf template bq) = none) ∧
        ((∀ r ∈ required, acc.get r ≠ []) →
          ParseMessage template message required = some (.ok acc))) := by
  have hc := LoopAt_cursor_le template message i cursor acc hat
  have hkeys := LoopAt_keys template message i cursor acc hat
  have hbody := loopBody_eq template message i cursor acc bp hbp hc
  constructor
  · intro hrem hsep habs
    have hneg := stringsIndex_neg_of_absent _ _ habs
    rw [if_neg hrem, if_neg hsep, if_pos hneg] at hbody
    have hloop := LoopAt_stop template message i cursor acc _ bp hat hbp hbody
    have hk : ∀ k, (acc.set (paramNameOf template bp) (message.drop cursor)).get? k ≠ none →
        k ∈ paramNamesBefore template (i + 1) := by
      intro k hk
      rw [paramNamesBefore_succ template i bp hbp]
      rcases get?_set_ne_none acc _ _ k hk with h1 | h1
      · simp [h1]
      · simp [hkeys k h1]
    refine ⟨_, hloop, by rw [Message.get?_set]; simp, hk, ?_, ?_⟩
    · intro j bq _ _ hnot
      by_contra hne
      exact hnot (hk _ hne)
    · intro hr
      exact ParseMessage_of_loop template message required _ hloop hr
  · intro hrem
    rw [if_pos hrem] at hbody
    have hloop := LoopAt_stop template message i cursor acc _ bp hat hbp hbody
    refine ⟨hloop, hkeys, ?_, ?_⟩
    · intro j bq _ _ hnot
      by_contra hne
      exact hnot (hkeys _ hne)
    · intro hr
      exact ParseMessage_of_loop template message required _ hloop hr

/-- The message of `TestParseMessage` without its description: the loop stands at the third
placeholder with cursor 21, the separator of two newlines does not occur in what remains, and
`Message` maps to all of it. -/
theorem ParseMessage_missing_tail_witness :
    (LoopAt exampleTemplate exampleShortMessage 2 21
        ⟨[("Type".toList, "improvement".toList), ("Scope".toList, "semver".toList)]⟩ ∧
      (templateParamsRgx exampleTemplate)[2]? = some (23, 35)) ∧
    ∃ m, parseLoop exampleTemplate exampleShortMessage (templateParamsRgx exampleTemplate)
        (templateParamsRgx exampleTemplate) 0 0 ⟨[]⟩ = some m ∧
      m.get? (paramNameOf exampleTemplate (23, 35)) = some (exampleShortMessage.drop 21) :=
  have h1 : LoopAt exampleTemplate exampleShortMessage 1 12
      ⟨[("Type".toList, "improvement".toList)]⟩ :=
    LoopAt.step 0 0 ⟨[]⟩ (0, 9) 12 _ LoopAt.start (by decide) (by decide)
  have h2 : LoopAt exampleTemplate exampleShortMessage 2 21
      ⟨[("Type".toList, "improvement".toList), ("Scope".toList, "semver".toList)]⟩ :=
    LoopAt.step 1 12 _ (10, 20) 21 _ h1 (by decide) (by decide)
  ⟨⟨h2, by decide⟩,
    ((ParseMessage_missing_tail exampleTemplate exampleShortMessage [] 2 21 _ (23, 35) h2
      (by decide)).1 (by decide) (by decide)
      (absent_of_stringsIndex_neg _ _ (by decide))).imp (fun _ h => ⟨h.1, h.2.1⟩)⟩

/-- Claim C11 as stated fails when a name stands twice in the template.  On `repeatTemplate`
and the message `x-y` the loop stands at the second placeholder `b` with `y` remaining, in which
the separator `:` does not occur; the third placeholder bears the name `a`, and `a` is a key
of the result.  On `twiceTemplate` and the message `x-` the message is exhausted before the
second placeholder is processed, and its name `a` is a key of the result. -/
theorem ParseMessage_later_key_counterexample :
    (LoopAt repeatTemplate "x-y".toList 1 2 ⟨[(['a'], ['x'])]⟩ ∧
      templateParamsRgx repeatTemplate = [(0, 6), (7, 13), (14, 20)] ∧
      "x-y".toList.drop 2 = ['y'] ∧
      phraseSepOf repeatTemplate 1 (7, 13) = [':'] ∧
      stringsIndex ['y'] [':'] = -1 ∧
      paramNameOf repeatTemplate (14, 20) = ['a'] ∧
      ParseMessage repeatTemplate "x-y".toList [] =
        some (.ok ⟨[(['a'], ['x']), (['b'], ['y'])]⟩) ∧
      (⟨[(['a'], ['x']), (['b'], ['y'])]⟩ : Message).get? ['a'] = some ['x']) ∧
    (LoopAt twiceTemplate "x-".toList 1 2 ⟨[(['a'], ['x'])]⟩ ∧
      templateParamsRgx twiceTemplate = [(0, 6), (7, 13)] ∧
      "x-".toList.drop 2 = [] ∧
      paramNameOf twiceTemplate (7, 13) = ['a'] ∧
      ParseMessage twiceTemplate "x-".toList [] = some (.ok ⟨[(['a'], ['x'])]⟩) ∧
      (⟨[(['a'], ['x'])]⟩ : Message).get? ['a'] = some ['x']) := by
  refine ⟨⟨?_, by decide, by decide, by decide, by decide, by decide, by rfl, by decide⟩,
    ?_, by decide, by decide, by decide, by rfl, by decide⟩
  · exact LoopAt.step 0 0 ⟨[]⟩ (0, 6) 2 _ LoopAt.start (by decide) (by decide)
  · exact LoopAt.step 0 0 ⟨[]⟩ (0, 6) 2 _ LoopAt.start (by decide) (by decide)

/-- Claim C12.  The first loop of `ParseMessage` always ends with a map `m`, the extracted
mapping.  `ParseMessage` returns an error if and only if some required name is absent from `m`
or maps to the empty string; the error carries the template, the required list and a required
name that is absent or empty, and no map comes with it (the result is either an error or a
map); otherwise `ParseMessage` returns `m`, in which every required name has a non-empty
value. -/
theorem ParseMessage_error_iff (template message : Str) (required : List Str) :
    ∃ m, parseLoop template message (templateParamsRgx template) (templateParamsRgx template)
        0 0 ⟨[]⟩ = some m ∧
      ((∃ e, ParseMessage template message required = some (.error e)) ↔
        ∃ r ∈ required, m.get? r = none ∨ m.get? r = some []) ∧
      (∀ e, ParseMessage template message required = some (.error e) →
        e.template = template ∧ e.required = required ∧ e.missing ∈ required ∧
        (m.get? e.missing = none ∨ m.get? e.missing = some [])) ∧
      ((∃ e, ParseMessage template message required = some (.error e)) ∨
        ParseMessage template message required = some (.ok m)) ∧
      (∀ M, ParseMessage template message required = some (.ok M) →
        M = m ∧ ∀ r ∈ required, ∃ v, M.get? r = some v ∧ v ≠ []) := by
  obtain ⟨m, hm⟩ := parseLoop_total template message (templateParamsRgx template) [] 0 ⟨[]⟩ rfl
    (Nat.zero_le _)
  simp only [List.length_nil] at hm
  have hP : ParseMessage template message required =
      some (checkRequired m template required required) := by
    unfold ParseMessage; rw [hm]
  refine ⟨m, hm, ?_⟩
  rw [hP]
  rcases checkRequired_spec m template required required with ⟨h1, h2⟩ | ⟨r, hr, h1, h2⟩
  · rw [h2]
    refine ⟨⟨?_, ?_⟩, ?_, Or.inr rfl, ?_⟩
    · rintro ⟨e, he⟩; cases he
    · rintro ⟨r, hr, hg⟩
      exact absurd ((Message.get_eq_nil_iff m r).2 hg) (h1 r hr)
    · intro e he; cases he
    · intro M hM
      simp only [Option.some.injEq, Except.ok.injEq] at hM
      subst hM
      refine ⟨rfl, ?_⟩
      intro r hr
      have hne := h1 r hr
      cases hg : m.get? r with
      | none => exact absurd ((Message.get_eq_nil_iff m r).2 (Or.inl hg)) hne
      | some v =>
        refine ⟨v, rfl, ?_⟩
        intro hv
        exact hne ((Message.get_eq_nil_iff m r).2 (Or.inr (by rw [hg, hv])))
  · rw [h2]
    refine ⟨⟨fun _ => ⟨r, hr, (Message.get_eq_nil_iff m r).1 h1⟩, fun _ => ⟨_, rfl⟩⟩, ?_,
      Or.inl ⟨_, rfl⟩, ?_⟩
    · intro e he
      simp only [Option.some.injEq, Except.error.injEq] at he
      subst he
      exact ⟨rfl, rfl, hr, (Message.get_eq_nil_iff m r).1 h1⟩
    · intro M hM
      cases hM

/-- Claim C17.  `ParseMessage` never panics: it always returns a map or an error.  At the
start of every iteration of its first loop the cursor is at most the length of the message;
every placeholder has `beginIdx ≤ endIdx ≤ sepEndIdx ≤ len(template)`, the matches being
ordered without overlap; and at no reachable state does the body of the loop, with its slice
expressions and its call of `next`, go out of range. -/
theorem ParseMessage_total (template message : Str) (required : List Str) :
    (∃ r, ParseMessage template message required = some r) ∧
    (∀ i cursor acc, LoopAt template message i cursor acc → cursor ≤ message.length) ∧
    (∀ i bp, (templateParamsRgx template)[i]? = some bp →
      bp.1 ≤ bp.2 ∧ bp.2 ≤ sepEndIdx template i ∧ sepEndIdx template i ≤ template.length) ∧
    (∀ i bp bq, (templateParamsRgx template)[i]? = some bp →
      (templateParamsRgx template)[i + 1]? = some bq → bp.2 ≤ bq.1) ∧
    (∀ i cursor acc bp, LoopAt template message i cursor acc →
      (templateParamsRgx template)[i]? = some bp →
      loopBody template message (templateParamsRgx template) bp i cursor acc ≠ .panic) := by
  refine ⟨ParseMessage_ne_none template message required,
    fun i cursor acc h => LoopAt_cursor_le template message i cursor acc h,
    fun i bp h => templateParamsRgx_bounds template i bp h, ?_, ?_⟩
  · intro i bp bq h1 h2
    have := (templateParamsRgx_bounds template i bp h1).2.1
    unfold sepEndIdx at this
    rw [h2] at this
    exact this
  · intro i cursor acc bp hat hbp
    exact loopBody_ne_panic template message i cursor acc bp hbp
      (LoopAt_cursor_le template message i cursor acc hat)

/-! ## Lemmas on the order of versions, the classifier and the history -/

theorem Revert_bumpSwitch (v : Version) (t : ChangeType) (h : ¬ t ≤ v.LatestChangeType) :
    v.Revert.bumpSwitch t = v.bumpSwitch t := by
  obtain ⟨p, ma, mi, pa, pr, b⟩ := v
  unfold Version.LatestChangeType at h
  simp only [ChangeType.le_def] at h
  unfold Version.Revert Version.LatestChangeType
  simp only
  split_ifs at h ⊢ with h1 h2 h3 <;> cases t <;>
    simp_all [ChangeType.toNat, Version.bumpSwitch, Version.BumpMajor, Version.BumpMinor,
      Version.BumpPatch]

theorem bumpSwitch_numbers (v : Version) (t : ChangeType)
    (hM : 0 ≤ v.Major ∧ v.Major < maxInt) (hm : 0 ≤ v.Minor ∧ v.Minor < maxInt)
    (hp : 0 ≤ v.Patch ∧ v.Patch < maxInt) :
    (t = ChangeTypeNone ∧ v.bumpSwitch t = v) ∨ numbersLt v (v.bumpSwitch t) := by
  obtain ⟨p, ma, mi, pa, pr, b⟩ := v
  unfold maxInt at *
  simp only at hM hm hp
  cases t
  · left; exact ⟨rfl, rfl⟩
  all_goals
    right
    simp only [numbersLt, Version.bumpSwitch, Version.BumpMajor, Version.BumpMinor,
      Version.BumpPatch, wrapInt, true_and]
    omega

theorem Bump_numbers (v : Version) (t : ChangeType)
    (hM : 0 ≤ v.Major ∧ v.Major < maxInt) (hm : 0 ≤ v.Minor ∧ v.Minor < maxInt)
    (hp : 0 ≤ v.Patch ∧ v.Patch < maxInt) :
    (numbersEq v (v.Bump t) ∧
      ((v.PreRelease ≠ [] ∧ t ≤ v.LatestChangeType ∧ (v.Bump t).PreRelease = []) ∨
        (v.PreRelease = [] ∧ v.Bump t = v))) ∨
    numbersLt v (v.Bump t) := by
  unfold Version.Bump
  by_cases hpre : v.IsPreRelease = true
  · have hne : v.PreRelease ≠ [] := by simpa [Version.IsPreRelease] using hpre
    simp only [hpre, if_true]
    by_cases hle : t ≤ v.LatestChangeType
    · rw [if_pos hle]
      left
      exact ⟨⟨rfl, rfl, rfl⟩, Or.inl ⟨hne, hle, rfl⟩⟩
    · simp only [hle, if_false]
      rw [Revert_bumpSwitch v t hle]
      rcases bumpSwitch_numbers v t hM hm hp with ⟨ht, _⟩ | h
      · rw [ht] at hle; exact absurd (ChangeType.none_le _) hle
      · exact Or.inr h
  · have hnil : v.PreRelease = [] := by simpa [Version.IsPreRelease] using hpre
    simp only [hpre, if_false]
    rcases bumpSwitch_numbers v t hM hm hp with ⟨_, he⟩ | h
    · left
      rw [he]
      exact ⟨⟨rfl, rfl, rfl⟩, Or.inr ⟨hnil, rfl⟩⟩
    · exact Or.inr h

theorem IsGreater_false_of_numbersLt (v r : Version) (h : numbersLt v r) :
    v.IsGreater r = false := by
  cases hg : v.IsGreater r
  · rfl
  · have := (IsGreater_iff v r).1 hg
    unfold numbersLt at h
    omega

theorem IsGreater_false_of_label (v r : Version) (h : numbersEq v r)
    (hl : v.PreRelease ≠ r.PreRelease) : v.IsGreater r = false := by
  cases hg : v.IsGreater r
  · rfl
  · have := (IsGreater_iff v r).1 hg
    obtain ⟨h1, h2, h3⟩ := h
    rcases this with g | ⟨_, g | ⟨_, g | ⟨_, g, _⟩⟩⟩
    · omega
    · omega
    · omega
    · exact absurd g hl

theorem Next_cases (v : Version) (t : ChangeType) (pre : List Str)
    (hM : 0 ≤ v.Major ∧ v.Major < maxInt) (hm : 0 ≤ v.Minor ∧ v.Minor < maxInt)
    (hp : 0 ≤ v.Patch ∧ v.Patch < maxInt) :
    numbersLt v (v.Next t pre) ∨
    (numbersEq v (v.Next t pre) ∧
      (v.PreRelease ≠ (v.Next t pre).PreRelease ∨ v.Next t pre = v ∨
        v.Next t pre = { v with Build := wrapInt (v.Build + 1) })) := by
  unfold Version.Next
  simp only
  generalize hL : (match pre with
    | p :: _ => if p ≠ [] then p else []
    | [] => ([] : Str)) = L
  split_ifs with hl
  · rcases Bump_numbers v t hM hm hp with ⟨he, hc⟩ | hlt
    · right
      refine ⟨he, ?_⟩
      rcases hc with ⟨hne, _, hnil⟩ | ⟨_, hsame⟩
      · left; rw [hnil]; exact hne
      · right; left; exact hsame
    · exact Or.inl hlt
  · unfold Version.BumpPreRelease
    split_ifs with hc
    · right
      exact ⟨⟨rfl, rfl, rfl⟩, Or.inr (Or.inr rfl)⟩
    · rcases Bump_numbers v t hM hm hp with ⟨he, hc2⟩ | hlt
      · right
        refine ⟨he, Or.inl ?_⟩
        simp only
        rcases hc2 with ⟨_, hle, _⟩ | ⟨hnil, _⟩
        · intro hEq; exact hc ⟨hEq, hle⟩
        · rw [hnil]; exact fun h => hl h.symm
      · exact Or.inl hlt

theorem ChangeType.toNat_inj (a b : ChangeType) (h : a.toNat = b.toNat) : a = b := by
  cases a <;> cases b <;> simp_all [ChangeType.toNat]

theorem ChangeType.lt_def (a b : ChangeType) : a < b ↔ a.toNat < b.toNat := Iff.rfl

theorem ChangeType.gt_def (a b : ChangeType) : a > b ↔ b.toNat < a.toNat := Iff.rfl

theorem fieldsChange_spec (table : Str → Str → ChangeType) (es : List (Str × Str))
    (ch : ChangeType) :
    ch ≤ fieldsChange table es ch ∧
    (∀ e ∈ es, table e.1 e.2 ≤ fieldsChange table es ch) ∧
    (fieldsChange table es ch = ch ∨ ∃ e ∈ es, table e.1 e.2 = fieldsChange table es ch) := by
  unfold fieldsChange
  induction es generalizing ch with
  | nil => simp [ChangeType.le_def]
  | cons e r ih =>
    simp only [List.foldl_cons]
    by_cases hgt : table e.1 e.2 > ch
    · simp only [hgt, if_true]
      obtain ⟨h1, h2, h3⟩ := ih (table e.1 e.2)
      rw [ChangeType.gt_def] at hgt
      rw [ChangeType.le_def] at h1
      refine ⟨by rw [ChangeType.le_def]; omega, ?_, ?_⟩
      · intro x hx
        rcases List.mem_cons.1 hx with rfl | hx
        · rw [ChangeType.le_def]; exact h1
        · exact h2 x hx
      · right
        rcases h3 with h3 | ⟨x, hx, h3⟩
        · exact ⟨e, by simp, h3.symm⟩
        · exact ⟨x, by simp [hx], h3⟩
    · simp only [hgt, if_false]
      obtain ⟨h1, h2, h3⟩ := ih ch
      rw [ChangeType.gt_def] at hgt
      rw [ChangeType.le_def] at h1
      refine ⟨by rw [ChangeType.le_def]; exact h1, ?_, ?_⟩
      · intro x hx
        rcases List.mem_cons.1 hx with rfl | hx
        · rw [ChangeType.le_def]; omega
        · exact h2 x hx
      · rcases h3 with h3 | ⟨x, hx, h3⟩
        · exact Or.inl h3
        · exact Or.inr ⟨x, by simp [hx], h3⟩

theorem acceptedMessages_cons (T : Str) (req : List Str) (msg : Str) (rest : List Str) :
    acceptedMessages T req (msg :: rest) =
      match ParseMessage T msg req with
      | some (.ok m) => m :: acceptedMessages T req rest
      | _ => acceptedMessages T req rest := by
  unfold acceptedMessages
  rw [List.filterMap_cons]
  cases h : ParseMessage T msg req with
  | none => rfl
  | some r => cases r <;> rfl

theorem changeLoop_lenient (table : Str → Str → ChangeType) (T : Str) (req : List Str)
    (msgs : List Str) :
    ∀ ch, ∃ r, changeLoop table T req true msgs ch = some (.ok r) ∧ ch ≤ r ∧
      (∀ m ∈ acceptedMessages T req msgs, ∀ e ∈ m.entries, table e.1 e.2 ≤ r) ∧
      (r = ch ∨ ∃ m ∈ acceptedMessages T req msgs, ∃ e ∈ m.entries, table e.1 e.2 = r) := by
  induction msgs with
  | nil =>
    intro ch
    exact ⟨ch, rfl, by rw [ChangeType.le_def], by simp [acceptedMessages], Or.inl rfl⟩
  | cons msg rest ih =>
    intro ch
    rw [changeLoop, acceptedMessages_cons]
    obtain ⟨pr, hpr⟩ := ParseMessage_ne_none T msg req
    rw [hpr]
    cases pr with
    | error err =>
      simp only [Bool.true_eq_false, if_false]
      exact ih ch
    | ok m =>
      simp only
      obtain ⟨f1, f2, f3⟩ := fieldsChange_spec table m.entries ch
      obtain ⟨r, h1, h2, h3, h4⟩ := ih (fieldsChange table m.entries ch)
      rw [ChangeType.le_def] at f1 h2
      refine ⟨r, h1, by rw [ChangeType.le_def]; omega, ?_, ?_⟩
      · intro x hx e he
        rcases List.mem_cons.1 hx with rfl | hx
        · have := f2 e he
          rw [ChangeType.le_def] at this ⊢
          omega
        · exact h3 x hx e he
      · rcases h4 with h4 | ⟨x, hx, e, he, h4⟩
        · rcases f3 with f3 | ⟨e, he, f3⟩
          · left; rw [h4, f3]
          · right; exact ⟨m, by simp, e, he, by rw [f3, h4]⟩
        · right; exact ⟨x, by simp [hx], e, he, h4⟩

theorem IsMaxSeverity_unique (table : Str → Str → ChangeType) (ms : List Message)
    (r1 r2 : ChangeType) (h1 : IsMaxSeverity table ms r1) (h2 : IsMaxSeverity table ms r2) :
    r1 = r2 := by
  apply ChangeType.toNat_inj
  have key : ∀ a b, IsMaxSeverity table ms a → IsMaxSeverity table ms b → a.toNat ≤ b.toNat := by
    intro a b ha hb
    rcases ha.2 with h | ⟨m, hm, e, he, h⟩
    · rw [h]; simp [ChangeType.toNat]
    · have := hb.1 m hm e he
      rw [h, ChangeType.le_def] at this
      exact this
  have := key r1 r2 h1 h2
  have := key r2 r1 h2 h1
  omega

theorem IsMaxSeverity_perm (table : Str → Str → ChangeType) (ms1 ms2 : List Message)
    (r : ChangeType) (hp : ∀ m, m ∈ ms1 ↔ m ∈ ms2) (h : IsMaxSeverity table ms1 r) :
    IsMaxSeverity table ms2 r := by
  refine ⟨fun m hm => h.1 m ((hp m).2 hm), ?_⟩
  rcases h.2 with h | ⟨m, hm, h⟩
  · exact Or.inl h
  · exact Or.inr ⟨m, (hp m).1 hm, h⟩

theorem changeLoop_lenient_max (table : Str → Str → ChangeType) (T : Str) (req : List Str)
    (msgs : List Str) :
    ∃ r, changeLoop table T req true msgs ChangeTypeNone = some (.ok r) ∧
      IsMaxSeverity table (acceptedMessages T req msgs) r := by
  obtain ⟨r, h1, _, h3, h4⟩ := changeLoop_lenient table T req msgs ChangeTypeNone
  exact ⟨r, h1, h3, h4⟩

theorem changeLoop_strict (table : Str → Str → ChangeType) (T : Str) (req : List Str)
    (msgs : List Str) :
    ∀ ch,
      ((∀ msg ∈ msgs, ∃ m, ParseMessage T msg req = some (.ok m)) ∧
        changeLoop table T req false msgs ch = changeLoop table T req true msgs ch) ∨
      (∃ pre msg post err, msgs = pre ++ msg :: post ∧
        (∀ x ∈ pre, ∃ m, ParseMessage T x req = some (.ok m)) ∧
        ParseMessage T msg req = some (.error err) ∧
        changeLoop table T req false msgs ch = some (.error (.mismatch err))) := by
  induction msgs with
  | nil => intro ch; left; exact ⟨by simp, rfl⟩
  | cons msg rest ih =>
    intro ch
    obtain ⟨pr, hpr⟩ := ParseMessage_ne_none T msg req
    cases pr with
    | error err =>
      right
      refine ⟨[], msg, rest, err, rfl, by simp, hpr, ?_⟩
      rw [changeLoop, hpr]
      simp
    | ok m =>
      rcases ih (fieldsChange table m.entries ch) with ⟨h1, h2⟩ | ⟨pre, x, post, err, h1, h2, h3, h4⟩
      · left
        refine ⟨?_, ?_⟩
        · intro y hy
          rcases List.mem_cons.1 hy with rfl | hy
          · exact ⟨m, hpr⟩
          · exact h1 y hy
        · rw [changeLoop, changeLoop, hpr]
          exact h2
      · right
        refine ⟨msg :: pre, x, post, err, by rw [h1]; rfl, ?_, h3, ?_⟩
        · intro y hy
          rcases List.mem_cons.1 hy with rfl | hy
          · exact ⟨m, hpr⟩
          · exact h2 y hy
        · rw [changeLoop, hpr]
          exact h4

theorem fieldsChange_perm (table : Str → Str → ChangeType) (es1 es2 : List (Str × Str))
    (ch : ChangeType) (hp : es1.Perm es2) :
    fieldsChange table es1 ch = fieldsChange table es2 ch := by
  apply ChangeType.toNat_inj
  have key : ∀ a b : List (Str × Str), (∀ e, e ∈ a → e ∈ b) →
      (fieldsChange table a ch).toNat ≤ (fieldsChange table b ch).toNat := by
    intro a b hab
    obtain ⟨_, _, a3⟩ := fieldsChange_spec table a ch
    obtain ⟨b1, b2, _⟩ := fieldsChange_spec table b ch
    rcases a3 with h | ⟨e, he, h⟩
    · rw [h]; exact b1
    · rw [← h]; exact b2 e (hab e he)
  have h1 := key es1 es2 (fun e he => hp.mem_iff.1 he)
  have h2 := key es2 es1 (fun e he => hp.mem_iff.2 he)
  omega

theorem acceptedMessages_perm (T : Str) (req : List Str) (l1 l2 : List Str) (hp : l1.Perm l2) :
    ∀ m, m ∈ acceptedMessages T req l1 ↔ m ∈ acceptedMessages T req l2 := by
  intro m
  unfold acceptedMessages
  exact (hp.filterMap _).mem_iff

theorem changeLoop_strict_error_iff (table : Str → Str → ChangeType) (T : Str)
    (req : List Str) (msgs : List Str) :
    (∃ e, changeLoop table T req false msgs ChangeTypeNone = some (.error e)) ↔
      ∃ msg ∈ msgs, ∃ err, ParseMessage T msg req = some (.error err) := by
  rcases changeLoop_strict table T req msgs ChangeTypeNone with
    ⟨h1, h2⟩ | ⟨pre, x, post, err, h1, h2, h3, h4⟩
  · obtain ⟨r, hr, _⟩ := changeLoop_lenient_max table T req msgs
    rw [h2, hr]
    constructor
    · rintro ⟨e, he⟩; cases he
    · rintro ⟨msg, hm, err, he⟩
      obtain ⟨m, hm2⟩ := h1 msg hm
      rw [hm2] at he; cases he
  · constructor
    · intro _
      exact ⟨x, by rw [h1]; simp, err, h3⟩
    · intro _
      exact ⟨_, h4⟩

theorem IsGreater_trans (a b c : Version) (h1 : a.IsGreater b = true) (h2 : b.IsGreater c = true) :
    a.IsGreater c = true := by
  rw [IsGreater_iff] at h1 h2 ⊢
  rcases h1 with h1 | ⟨e1, h1 | ⟨e2, h1 | ⟨e3, l1, g1⟩⟩⟩ <;>
    rcases h2 with h2 | ⟨f1, h2 | ⟨f2, h2 | ⟨f3, l2, g2⟩⟩⟩
  all_goals first
    | (left; omega)
    | (right; refine ⟨by omega, ?_⟩; left; omega)
    | (right; refine ⟨by omega, ?_⟩; right; refine ⟨by omega, ?_⟩; left; omega)
    | (right; refine ⟨by omega, ?_⟩; right; refine ⟨by omega, ?_⟩; right;
        exact ⟨by omega, l1.trans l2, by omega⟩)

theorem IsGreater_irrefl (a : Version) : a.IsGreater a = false := by
  cases hg : a.IsGreater a
  · rfl
  · have := (IsGreater_iff a a).1 hg; omega

theorem IsGreater_asymm (a b : Version) (h : a.IsGreater b = true) : b.IsGreater a = false := by
  cases hg : b.IsGreater a
  · rfl
  · have h1 := (IsGreater_iff a b).1 h
    have h2 := (IsGreater_iff b a).1 hg
    omega

/-- The loop of `LatestTag` started on a version `l`. -/
theorem latestTagLoop_some (names : List Str) :
    ∀ l, ∃ r, latestTagLoop names (some l) = some r ∧
      (r = l ∨ ∃ name ∈ names, New name = .ok r) ∧
      (r = l ∨ r.IsGreater l = true) ∧
      (∀ name ∈ names, ∀ w, New name = .ok w → w.IsGreater r = false) := by
  induction names with
  | nil =>
    intro l
    exact ⟨l, rfl, Or.inl rfl, Or.inl rfl, by simp⟩
  | cons name rest ih =>
    intro l
    rw [latestTagLoop]
    cases hn : New name with
    | error e =>
      simp only
      obtain ⟨r, h1, h2, h3, h4⟩ := ih l
      refine ⟨r, h1, ?_, h3, ?_⟩
      · rcases h2 with h2 | ⟨x, hx, h2⟩
        · exact Or.inl h2
        · exact Or.inr ⟨x, by simp [hx], h2⟩
      · intro x hx w hw
        rcases List.mem_cons.1 hx with rfl | hx
        · rw [hn] at hw; cases hw
        · exact h4 x hx w hw
    | ok v =>
      simp only
      by_cases hg : v.IsGreater l = true
      · simp only [hg, if_true]
        obtain ⟨r, h1, h2, h3, h4⟩ := ih v
        refine ⟨r, h1, ?_, ?_, ?_⟩
        · right
          rcases h2 with h2 | ⟨x, hx, h2⟩
          · exact ⟨name, by simp, by rw [h2]; exact hn⟩
          · exact ⟨x, by simp [hx], h2⟩
        · right
          rcases h3 with h3 | h3
          · rw [h3]; exact hg
          · exact IsGreater_trans r v l h3 hg
        · intro x hx w hw
          rcases List.mem_cons.1 hx with rfl | hx
          · rw [hn] at hw
            simp only [Except.ok.injEq] at hw
            subst hw
            rcases h3 with h3 | h3
            · rw [h3]; exact IsGreater_irrefl v
            · exact IsGreater_asymm r v h3
          · exact h4 x hx w hw
      · simp only [hg, if_false]
        obtain ⟨r, h1, h2, h3, h4⟩ := ih l
        refine ⟨r, h1, ?_, h3, ?_⟩
        · rcases h2 with h2 | ⟨x, hx, h2⟩
          · exact Or.inl h2
          · exact Or.inr ⟨x, by simp [hx], h2⟩
        · intro x hx w hw
          rcases List.mem_cons.1 hx with rfl | hx
          · rw [hn] at hw
            simp only [Except.ok.injEq] at hw
            subst hw
            rcases h3 with h3 | h3
            · rw [h3]; simpa using hg
            · cases hwr : v.IsGreater r
              · rfl
              · exact absurd (IsGreater_trans v r l hwr h3) hg
          · exact h4 x hx w hw

/-- The loop of `LatestTag` from its start. -/
theorem latestTagLoop_none (names : List Str) :
    ((∀ name ∈ names, ∀ v, New name ≠ .ok v) ∧ latestTagLoop names none = none) ∨
    (∃ r, latestTagLoop names none = some r ∧ (∃ name ∈ names, New name = .ok r) ∧
      ∀ name ∈ names, ∀ w, New name = .ok w → w.IsGreater r = false) := by
  induction names with
  | nil => left; exact ⟨by simp, rfl⟩
  | cons name rest ih =>
    rw [latestTagLoop]
    cases hn : New name with
    | error e =>
      simp only
      rcases ih with ⟨h1, h2⟩ | ⟨r, h1, ⟨x, hx, h2⟩, h3⟩
      · left
        refine ⟨?_, h2⟩
        intro x hx v hv
        rcases List.mem_cons.1 hx with rfl | hx
        · rw [hn] at hv; cases hv
        · exact h1 x hx v hv
      · right
        refine ⟨r, h1, ⟨x, by simp [hx], h2⟩, ?_⟩
        intro y hy w hw
        rcases List.mem_cons.1 hy with rfl | hy
        · rw [hn] at hw; cases hw
        · exact h3 y hy w hw
    | ok v =>
      simp only
      right
      obtain ⟨r, h1, h2, h3, h4⟩ := latestTagLoop_some rest v
      refine ⟨r, h1, ?_, ?_⟩
      · rcases h2 with h2 | ⟨x, hx, h2⟩
        · exact ⟨name, by simp, by rw [h2]; exact hn⟩
        · exact ⟨x, by simp [hx], h2⟩
      · intro y hy w hw
        rcases List.mem_cons.1 hy with rfl | hy
        · rw [hn] at hw
          simp only [Except.ok.injEq] at hw
          subst hw
          rcases h3 with h3 | h3
          · rw [h3]; exact IsGreater_irrefl v
          · exact IsGreater_asymm r v h3
        · exact h4 y hy w hw

/-- The text of a parsed version whose numbers have no superfluous leading zeros. -/
theorem String_of_parsed (s : Str) (v : Version) (m : SemverMatch) (hv : New s = .ok v)
    (hm : semverRegexp s = some m)
    (z2 : noLeadingZero m.m2) (z3 : noLeadingZero m.m3) (z4 : noLeadingZero m.m4) :
    v.String = s := by
  obtain ⟨m', hm', f2, f3, f4, rfl⟩ := New_ok_match s v hv
  rw [hm] at hm'
  simp only [Option.some.injEq] at hm'
  subst hm'
  obtain ⟨_, n2, n3, n4, hs⟩ := semverRegexp_sound s m hm
  unfold Version.String
  simp only [formatInt_natCast, formatNat_decimalVal _ n2.1 n2.2 z2,
    formatNat_decimalVal _ n3.1 n3.2 z3, formatNat_decimalVal _ n4.1 n4.2 z4]
  rcases hs with ⟨h5, _, _, e⟩ | ⟨h5, hl, ⟨d, hd, hdd⟩, e⟩
  · simp only [h5, ne_eq, not_true_eq_false, if_false, List.length_nil]
    rw [e]; simp [versionText]
  · have hl0 : m.m6.length ≠ 0 := by simpa using hl.1
    simp only [h5, ne_eq, not_false_eq_true, if_true, hl0, formatInt_natCast]
    have n7 : isNumeral m.m7 := (isSingleDigit_fits _ ⟨d, hd, hdd⟩).1
    rw [formatNat_decimalVal _ n7.1 n7.2 (by rw [hd]; exact noLeadingZero_single d)]
    rw [e]; simp [versionText]

/-- What `LatestTag` returns on a non-empty list of names: the first name when none parses;
otherwise the text of a parsed version than which no parsed version of the list is greater,
and that text is the name itself when the name has no superfluous leading zeros. -/
theorem latestTagOf_spec (names : List Str) (hne : names ≠ []) :
    ((∀ name ∈ names, ∀ v, New name ≠ .ok v) ∧ latestTagOf names = names.head?) ∨
    (∃ name ∈ names, ∃ v, New name = .ok v ∧ latestTagOf names = some v.String ∧
      (∀ other ∈ names, ∀ w, New other = .ok w → w.IsGreater v = false) ∧
      (∀ m, semverRegexp name = some m → noLeadingZero m.m2 → noLeadingZero m.m3 →
        noLeadingZero m.m4 → latestTagOf names = some name)) := by
  unfold latestTagOf
  rcases latestTagLoop_none names with ⟨h1, h2⟩ | ⟨r, h1, ⟨x, hx, h2⟩, h3⟩
  · left
    rw [h2]
    refine ⟨h1, ?_⟩
    cases names with
    | nil => exact absurd rfl hne
    | cons a tl => simp
  · right
    rw [h1]
    refine ⟨x, hx, r, h2, rfl, h3, ?_⟩
    intro m hm z2 z3 z4
    simp only
    rw [String_of_parsed x r m h2 hm z2 z3 z4]

theorem latestTagsWalk_spec (r : Repository) (log : List Commit) :
    latestTagsWalk r log = [] ∨
    ∃ pre c post, log = pre ++ c :: post ∧ (∀ x ∈ pre, r.taggedCommits x.Hash = []) ∧
      r.taggedCommits c.Hash ≠ [] ∧ latestTagsWalk r log = r.taggedCommits c.Hash := by
  induction log with
  | nil => left; rfl
  | cons c rest ih =>
    rw [latestTagsWalk]
    by_cases h : (r.taggedCommits c.Hash).length ≠ 0
    · right
      rw [if_pos h]
      exact ⟨[], c, rest, rfl, by simp, by simpa using h, rfl⟩
    · rw [if_neg h]
      have h0 : r.taggedCommits c.Hash = [] := by simpa using h
      rcases ih with ih | ⟨pre, x, post, h1, h2, h3, h4⟩
      · exact Or.inl ih
      · right
        refine ⟨c :: pre, x, post, by rw [h1]; rfl, ?_, h3, h4⟩
        intro y hy
        rcases List.mem_cons.1 hy with rfl | hy
        · exact h0
        · exact h2 y hy

theorem featureCommitsWalk_found (tagged : Nat) (pre : List Commit) (c : Commit)
    (post acc : List Commit) (hc : c.Hash = tagged) (hpre : ∀ x ∈ pre, x.Hash ≠ tagged) :
    featureCommitsWalk tagged (pre ++ c :: post) acc = .ok (acc ++ pre) := by
  induction pre generalizing acc with
  | nil => simp [featureCommitsWalk, hc]
  | cons x rest ih =>
    have hx : x.Hash ≠ tagged := hpre x (by simp)
    have e : (x :: rest ++ c :: post) = x :: (rest ++ c :: post) := rfl
    rw [e, featureCommitsWalk, if_neg hx, ih (acc ++ [x]) (fun y hy => hpre y (by simp [hy]))]
    simp

theorem taggedCommits_mem (r : Repository) (h : Nat) (ref : TagRef)
    (hm : ref ∈ r.taggedCommits h) : ref.Commit = some h := by
  unfold Repository.taggedCommits at hm
  simpa using (List.mem_filter.1 hm).2

/-- What `featureCommits` returns: the error of `latestTags` when no commit of the log has a
tag, and otherwise the commits before the most recent tagged commit. -/
theorem featureCommits_spec (r : Repository) :
    ((∀ c ∈ r.log, r.taggedCommits c.Hash = []) ∧
      r.featureCommits = some (.error (.latestTag .notFound))) ∨
    (∃ pre c post, r.log = pre ++ c :: post ∧ (∀ x ∈ pre, r.taggedCommits x.Hash = []) ∧
      r.taggedCommits c.Hash ≠ [] ∧ r.featureCommits = some (.ok pre)) := by
  unfold Repository.featureCommits Repository.latestTags
  rcases latestTagsWalk_spec r r.log with h | ⟨pre, c, post, h1, h2, h3, h4⟩
  · left
    constructor
    · intro c hc
      by_contra hne
      -- the walk would have found `c`
      have : ∀ log : List Commit, c ∈ log → latestTagsWalk r log ≠ [] := by
        intro log
        induction log with
        | nil => intro hm; cases hm
        | cons x rest ih =>
          intro hm
          rw [latestTagsWalk]
          by_cases hx : (r.taggedCommits x.Hash).length ≠ 0
          · rw [if_pos hx]; simpa using hx
          · rw [if_neg hx]
            rcases List.mem_cons.1 hm with rfl | hm
            · exact absurd (by simpa using hne) hx
            · exact ih hm
      exact this r.log hc h
    · simp [h]
  · right
    refine ⟨pre, c, post, h1, h2, h3, ?_⟩
    have hlen : (latestTagsWalk r r.log).length ≠ 0 := by rw [h4]; simpa using h3
    simp only [hlen, if_false]
    obtain ⟨ref, tl, htc⟩ := List.exists_cons_of_ne_nil h3
    rw [h4, htc]
    simp only [List.getElem?_cons_zero]
    have href : ref.Commit = some c.Hash := taggedCommits_mem r c.Hash ref (by rw [htc]; simp)
    rw [href]
    simp only
    rw [h1, featureCommitsWalk_found c.Hash pre c post [] rfl]
    · simp
    · intro x hx hEq
      have := h2 x hx
      rw [hEq] at this
      exact h3 this

/-- `FeatureCommits` never fails with `ErrCommitNotFound`. -/
theorem FeatureCommits_not_ErrCommitNotFound (r : Repository) (err : RepoError)
    (h : r.FeatureCommits = some (.error err)) : err.isErrCommitNotFound = false := by
  unfold Repository.FeatureCommits at h
  rcases featureCommits_spec r with ⟨_, h2⟩ | ⟨pre, c, post, _, _, _, h4⟩
  · rw [h2] at h
    simp only [Option.some.injEq, Except.error.injEq] at h
    rw [← h]; rfl
  · rw [h4] at h
    cases h

/-- Without any tag `FeatureCommits` fails with the error of `latestTags`, which is not
`ErrCommitNotFound`, and `change` returns it in both modes. -/
theorem change_without_tags (norm : Str → Str) (a : App) (allowMismatch : Bool)
    (h : a.repo.tags = []) :
    a.repo.FeatureCommits = some (.error (.latestTag .notFound)) ∧
    App.change norm a allowMismatch = some (.error (.repo (.latestTag .notFound))) := by
  have hf : a.repo.FeatureCommits = some (.error (.latestTag .notFound)) := by
    unfold Repository.FeatureCommits
    rcases featureCommits_spec a.repo with ⟨_, h2⟩ | ⟨pre, c, post, _, _, h3, _⟩
    · rw [h2]
    · exfalso
      apply h3
      unfold Repository.taggedCommits
      rw [h]; rfl
  refine ⟨hf, ?_⟩
  unfold App.change
  rw [hf]
  rfl

/-- When the head commit is the latest tagged commit `FeatureCommits` returns the empty list
without error, and `change` returns `ChangeTypeNone` without error. -/
theorem change_head_tagged (norm : Str → Str) (a : App) (allowMismatch : Bool) (c : Commit)
    (rest : List Commit) (hlog : a.repo.log = c :: rest)
    (htag : a.repo.taggedCommits c.Hash ≠ []) :
    a.repo.FeatureCommits = some (.ok []) ∧
    App.change norm a allowMismatch = some (.ok ChangeTypeNone) := by
  have hf : a.repo.featureCommits = some (.ok []) := by
    rcases featureCommits_spec a.repo with ⟨h1, _⟩ | ⟨pre, x, post, h1, h2, _, h4⟩
    · exact absurd (h1 c (by rw [hlog]; simp)) htag
    · cases pre with
      | nil => exact h4
      | cons y tl =>
        exfalso
        rw [hlog] at h1
        simp only [List.cons_append, List.cons.injEq] at h1
        have := h2 y (by simp)
        rw [← h1.1] at this
        exact htag this
  have hF : a.repo.FeatureCommits = some (.ok []) := by
    unfold Repository.FeatureCommits
    rw [hf]; rfl
  refine ⟨hF, ?_⟩
  unfold App.change
  rw [hF]
  rfl

/-! ## Claims on the classifier, the tags and the history -/

/-- Claim C13.  For every severity table, template, required list and list of messages:
in lenient mode `change` returns without error the maximum, in the order
`None < Patch < Minor < Major`, of the table over the fields of the messages that
`ParseMessage` accepts (`None` when there is none); in strict mode it returns the same when
every message parses, and it returns an error if and only if some message fails to parse, the
error being the match error of the first such message; a permutation of the messages changes
neither the change type returned nor whether an error is returned, and a permutation of the
fields of a message does not change its contribution.  `App.change` runs this loop on the
messages of `FeatureCommits` with the table `versionTypes[tmpl][val]` of the configuration. -/
theorem change_max_severity (table : Str → Str → ChangeType) (template : Str)
    (required : List Str) (msgs : List Str) :
    (∃ r, changeLoop table template required true msgs ChangeTypeNone = some (.ok r) ∧
      IsMaxSeverity table (acceptedMessages template required msgs) r) ∧
    ((∀ msg ∈ msgs, ∃ m, ParseMessage template msg required = some (.ok m)) →
      ∃ r, changeLoop table template required false msgs ChangeTypeNone = some (.ok r) ∧
        IsMaxSeverity table (acceptedMessages template required msgs) r) ∧
    ((∃ e, changeLoop table template required false msgs ChangeTypeNone = some (.error e)) ↔
      ∃ msg ∈ msgs, ∃ err, ParseMessage template msg required = some (.error err)) ∧
    (∀ e, changeLoop table template required false msgs ChangeTypeNone = some (.error e) →
      ∃ pre msg post err, msgs = pre ++ msg :: post ∧
        (∀ x ∈ pre, ∃ m, ParseMessage template x required = some (.ok m)) ∧
        ParseMessage template msg required = some (.error err) ∧ e = .mismatch err) ∧
    (∀ msgs2, msgs2.Perm msgs →
      changeLoop table template required true msgs2 ChangeTypeNone =
        changeLoop table template required true msgs ChangeTypeNone ∧
      ((∃ e, changeLoop table template required false msgs2 ChangeTypeNone = some (.error e)) ↔
        (∃ e, changeLoop table template required false msgs ChangeTypeNone = some (.error e))) ∧
      (∀ r, changeLoop table template required false msgs2 ChangeTypeNone = some (.ok r) ↔
        changeLoop table template required false msgs ChangeTypeNone = some (.ok r))) ∧
    (∀ es1 es2 ch, es1.Perm es2 → fieldsChange table es1 ch = fieldsChange table es2 ch) ∧
    (∀ norm (a : App) allowMismatch msgs1, a.repo.FeatureCommits = some (.ok msgs1) →
      App.change norm a allowMismatch =
        changeLoop (versionTypesAt (buildVersionTypes norm a.cfg.Args)) a.cfg.TemplatesCommit
          a.cfg.RequiredArgs allowMismatch msgs1 ChangeTypeNone) := by
  have hperm_len : ∀ msgs2 : List Str, msgs2.Perm msgs →
      changeLoop table template required true msgs2 ChangeTypeNone =
        changeLoop table template required true msgs ChangeTypeNone := by
    intro msgs2 hp
    obtain ⟨r1, h1, m1⟩ := changeLoop_lenient_max table template required msgs
    obtain ⟨r2, h2, m2⟩ := changeLoop_lenient_max table template required msgs2
    have := IsMaxSeverity_perm table _ _ r2 (acceptedMessages_perm template required _ _ hp) m2
    rw [h1, h2, IsMaxSeverity_unique table _ r1 r2 m1 this]
  have hall : ∀ l : List Str, (∀ msg ∈ l, ∃ m, ParseMessage template msg required = some (.ok m)) →
      changeLoop table template required false l ChangeTypeNone =
        changeLoop table template required true l ChangeTypeNone := by
    intro l hl
    rcases changeLoop_strict table template required l ChangeTypeNone with
      ⟨_, h2⟩ | ⟨pre, x, post, err, h1, _, h3, _⟩
    · exact h2
    · obtain ⟨m, hm⟩ := hl x (by rw [h1]; simp)
      rw [hm] at h3; cases h3
  refine ⟨changeLoop_lenient_max table template required msgs, ?_,
    changeLoop_strict_error_iff table template required msgs, ?_, ?_,
    fun es1 es2 ch hp => fieldsChange_perm table es1 es2 ch hp, ?_⟩
  · intro h
    rw [hall msgs h]
    exact changeLoop_lenient_max table template required msgs
  · intro e he
    rcases changeLoop_strict table template required msgs ChangeTypeNone with
      ⟨_, h2⟩ | ⟨pre, x, post, err, h1, h2, h3, h4⟩
    · obtain ⟨r, hr, _⟩ := changeLoop_lenient_max table template required msgs
      rw [h2, hr] at he; cases he
    · rw [h4] at he
      simp only [Option.some.injEq, Except.error.injEq] at he
      exact ⟨pre, x, post, err, h1, h2, h3, he.symm⟩
  · intro msgs2 hp
    have herr : (∃ e, changeLoop table template required false msgs2 ChangeTypeNone =
          some (.error e)) ↔
        (∃ e, changeLoop table template required false msgs ChangeTypeNone = some (.error e)) := by
      rw [changeLoop_strict_error_iff, changeLoop_strict_error_iff]
      constructor
      · rintro ⟨msg, hm, h⟩; exact ⟨msg, hp.mem_iff.1 hm, h⟩
      · rintro ⟨msg, hm, h⟩; exact ⟨msg, hp.mem_iff.2 hm, h⟩
    refine ⟨hperm_len msgs2 hp, herr, ?_⟩
    have hok : ∀ l1 l2 : List Str, l1.Perm l2 → ∀ r,
        changeLoop table template required false l1 ChangeTypeNone = some (.ok r) →
        changeLoop table template required false l2 ChangeTypeNone = some (.ok r) := by
      intro l1 l2 hp12 r h1
      have hgood : ∀ msg ∈ l1, ∃ m, ParseMessage template msg required = some (.ok m) := by
        rcases changeLoop_strict table template required l1 ChangeTypeNone with
          ⟨g, _⟩ | ⟨pre, x, post, err, _, _, _, g4⟩
        · exact g
        · rw [g4] at h1; cases h1
      have hgood2 : ∀ msg ∈ l2, ∃ m, ParseMessage template msg required = some (.ok m) :=
        fun msg hm => hgood msg (hp12.mem_iff.2 hm)
      rw [hall l1 hgood] at h1
      rw [hall l2 hgood2]
      obtain ⟨r1, g1, m1⟩ := changeLoop_lenient_max table template required l1
      obtain ⟨r2, g2, m2⟩ := changeLoop_lenient_max table template required l2
      have := IsMaxSeverity_perm table _ _ r1 (acceptedMessages_perm template required _ _ hp12) m1
      rw [g1] at h1
      simp only [Option.some.injEq, Except.ok.injEq] at h1
      rw [g2, ← h1, IsMaxSeverity_unique table _ r2 r1 m2 this]
    intro r
    exact ⟨hok msgs2 msgs hp r, hok msgs msgs2 hp.symm r⟩
  · intro norm a allowMismatch msgs1 h
    unfold App.change
    rw [h]

/-- The classifier on a repository of three unreleased commits, one of which does not match
the template: lenient mode returns Minor, strict mode the match error. -/
theorem change_max_severity_witness :
    App.change id
        ⟨exampleConfig,
          ⟨[⟨3, "fix: c".toList⟩, ⟨2, "no colon".toList⟩, ⟨1, "feat: a".toList⟩,
              ⟨0, "init".toList⟩],
            [⟨"v1.0.0".toList, some 0⟩]⟩⟩ true = some (.ok ChangeTypeMinor) ∧
    ∃ e, changeLoop (versionTypesAt (buildVersionTypes id exampleConfig.Args))
        exampleConfig.TemplatesCommit exampleConfig.RequiredArgs false
        ["fix: c".toList, "no colon".toList, "feat: a".toList] ChangeTypeNone =
      some (.error e) :=
  ⟨by rfl,
    (change_max_severity (versionTypesAt (buildVersionTypes id exampleConfig.Args))
      exampleConfig.TemplatesCommit exampleConfig.RequiredArgs
      ["fix: c".toList, "no colon".toList, "feat: a".toList]).2.2.1.2
      ⟨"no colon".toList, by decide, _, by rfl⟩⟩

/-- Claim C14 at the failing input.  The only tag of the most recent tagged commit is named
`v01.2.3`; it parses, and `LatestTag` returns `v1.2.3`, the `String` of the parsed version,
which is none of the tag names. -/
theorem LatestTag_leading_zero :
    New "v01.2.3".toList = .ok ⟨['v'], 1, 2, 3, [], 0⟩ ∧
    latestTagOf ["v01.2.3".toList] = some "v1.2.3".toList ∧
    "v1.2.3".toList ∉ ["v01.2.3".toList] ∧
    exampleZeroTagRepo.LatestTag = some (.ok "v1.2.3".toList) := by
  refine ⟨by rfl, by rfl, by decide, by rfl⟩

/-- Claim C15 at the failing inputs.  On a repository without any tag `FeatureCommits` fails
with the wrapped error `not found` of `latestTags`, which is not `ErrCommitNotFound`, and
`change` in lenient mode returns that error.  On a repository whose head is the tagged commit
`FeatureCommits` returns the empty list without error. -/
theorem FeatureCommits_without_tag :
    (exampleUntaggedRepo.FeatureCommits = some (.error (.latestTag .notFound)) ∧
      (RepoError.latestTag .notFound).isErrCommitNotFound = false ∧
      App.change id ⟨exampleConfig, exampleUntaggedRepo⟩ true =
        some (.error (.repo (.latestTag .notFound)))) ∧
    (exampleHeadTaggedRepo.FeatureCommits = some (.ok []) ∧
      App.change id ⟨exampleConfig, exampleHeadTaggedRepo⟩ true = some (.ok ChangeTypeNone)) := by
  refine ⟨⟨by rfl, by rfl, by rfl⟩, by rfl, by rfl⟩

/-- Claim C16.  For a version whose `Major`, `Minor`, `Patch` are non-negative, no counter
being at the largest `int` (the integers taken as unbounded), every change type and every label
argument: the triple `(Major, Minor, Patch)` of `Next` is lexicographically greater than or
equal to that of the version, `IsGreater` of the version over its `Next` is false, and the
`Revert` step of `Bump` is without effect on the result, the bump that follows it resetting
the decremented component. -/
theorem Next_not_lower (v : Version) (t : ChangeType) (pre : List Str)
    (hM : 0 ≤ v.Major ∧ v.Major < maxInt) (hm : 0 ≤ v.Minor ∧ v.Minor < maxInt)
    (hp : 0 ≤ v.Patch ∧ v.Patch < maxInt) (hb : minInt ≤ v.Build ∧ v.Build < maxInt) :
    (numbersLt v (v.Next t pre) ∨ numbersEq v (v.Next t pre)) ∧
    v.IsGreater (v.Next t pre) = false ∧
    (¬ t ≤ v.LatestChangeType → v.Revert.bumpSwitch t = v.bumpSwitch t) := by
  refine ⟨?_, ?_, Revert_bumpSwitch v t⟩
  · rcases Next_cases v t pre hM hm hp with h | ⟨h, _⟩
    · exact Or.inl h
    · exact Or.inr h
  · rcases Next_cases v t pre hM hm hp with h | ⟨h, hl | hs | hs⟩
    · exact IsGreater_false_of_numbersLt _ _ h
    · exact IsGreater_false_of_label _ _ h hl
    · rw [hs]
      cases hg : v.IsGreater v
      · rfl
      · have := (IsGreater_iff v v).1 hg; omega
    · rw [hs]
      cases hg : v.IsGreater { v with Build := wrapInt (v.Build + 1) }
      · rfl
      · have := (IsGreater_iff _ _).1 hg
        simp only at this
        unfold maxInt minInt at hb
        unfold wrapInt at this
        omega

/-- The major bump of `v1.2.3-alpha.2`: `Revert` takes the patch to 2, the bump resets it. -/
theorem Next_not_lower_witness :
    ((0 : Int) ≤ 1 ∧ (1 : Int) < maxInt) ∧
    (⟨['v'], 1, 2, 3, "alpha".toList, 2⟩ : Version).IsGreater
      ((⟨['v'], 1, 2, 3, "alpha".toList, 2⟩ : Version).Next ChangeTypeMajor []) = false ∧
    (⟨['v'], 1, 2, 3, "alpha".toList, 2⟩ : Version).Revert.bumpSwitch ChangeTypeMajor =
      ⟨['v'], 2, 0, 0, [], 0⟩ :=
  ⟨by decide,
    (Next_not_lower ⟨['v'], 1, 2, 3, "alpha".toList, 2⟩ ChangeTypeMajor [] (by decide)
      (by decide) (by decide) (by decide)).2.1,
    ((Next_not_lower ⟨['v'], 1, 2, 3, "alpha".toList, 2⟩ ChangeTypeMajor [] (by decide)
      (by decide) (by decide) (by decide)).2.2 (by decide)).trans (by rfl)⟩

end Gover
